import Mathlib

/-!
# nginx pool allocator (`src/core/ngx_palloc.c`, `src/trunk/core/ngx_palloc.h`)

A shallow embedding of the pool allocator and the properties its specification
states about it.

Conventions of the embedding.

* Pointers are natural numbers and `0` is `NULL`.  Pointer plus offset is plain
  addition (an address computation that overflows is undefined behaviour in C and
  is not modelled).  Arithmetic on `size_t` values, including the cast
  `(size_t) (p->d.end - m)` of a pointer difference, is taken modulo
  `Platform.sizeMod`.
* The chain of blocks is the list `Pool.blocks`: the first element is the head
  block (the `ngx_pool_t` itself) and `next` of an element is the element after
  it, `NULL` for the last one.  `Pool.current` is the position in that list of the
  block `pool->current` points to.
* The large registry and the cleanup registry are the lists of their nodes from
  the head.  Each node records the arena address it was given; the bytes of the
  arena are not modelled, so a node keeps its fields when a later allocation is
  handed the bytes it lies in (which takes an `ngx_reset_pool` with cleanup
  entries registered, or an allocation that runs past the end of its block).
* The raw allocator (`ngx_alloc`, `ngx_memalign`, `ngx_free`) and the cleanup
  handlers are external: `World.oracle` gives the answer to each allocation
  request and `World.trace` records every external effect in order.
* `ngx_palloc` and `ngx_palloc_large` call each other; the embedding bounds the
  depth of that recursion by a fuel argument and reports `Fault.outOfFuel` when
  the bound is hit.
-/

namespace NgxPalloc

/-! ## Platform constants -/

/-- Constants that the two source files use but do not define (they come from
`ngx_config.h`, `ngx_core.h` and the operating system). -/
structure Platform where
  /-- Number of values of `size_t`, that is `SIZE_MAX + 1`. -/
  sizeMod : Nat
  /-- The value of `sizeof(ngx_pool_t)`. -/
  sizeof_ngx_pool_t : Nat
  /-- The value of `sizeof(ngx_pool_data_t)`. -/
  sizeof_ngx_pool_data_t : Nat
  /-- The value of `sizeof(ngx_pool_large_t)`. -/
  sizeof_ngx_pool_large_t : Nat
  /-- The value of `sizeof(ngx_pool_cleanup_t)`. -/
  sizeof_ngx_pool_cleanup_t : Nat
  /-- The macro `NGX_ALIGNMENT`, `sizeof(unsigned long)`. -/
  NGX_ALIGNMENT : Nat
  /-- The variable `ngx_pagesize`. -/
  ngx_pagesize : Nat
  /-- The address of the function `ngx_pool_cleanup_file`. -/
  ngx_pool_cleanup_file : Nat
  deriving DecidableEq, Repr

/-- The constants of an LP64 build (x86-64 Linux): 8-byte pointers and
`size_t`, `ngx_pool_data_t` of four words, `ngx_pool_t` of ten words, 4096-byte
pages. -/
def lp64 : Platform where
  sizeMod := 2 ^ 64
  sizeof_ngx_pool_t := 80
  sizeof_ngx_pool_data_t := 32
  sizeof_ngx_pool_large_t := 16
  sizeof_ngx_pool_cleanup_t := 24
  NGX_ALIGNMENT := 8
  ngx_pagesize := 4096
  ngx_pool_cleanup_file := 4198400

/-- Sanity conditions on the constants: `size_t` has at least two values, the
alignment is positive, the page size is a positive `size_t` value larger than a
large-registry node, and the structure sizes are `size_t` values. -/
structure Platform.WF (pf : Platform) : Prop where
  /-- The type `size_t` has at least two values. -/
  sizeMod_pos : 1 < pf.sizeMod
  /-- The alignment is positive. -/
  align_pos : 0 < pf.NGX_ALIGNMENT
  /-- The page size is positive. -/
  page_pos : 0 < pf.ngx_pagesize
  /-- The page size is a `size_t` value. -/
  page_lt : pf.ngx_pagesize < pf.sizeMod
  /-- A page is larger than a node of the large registry. -/
  large_lt_page : pf.sizeof_ngx_pool_large_t < pf.ngx_pagesize
  /-- The value of `NGX_MIN_POOL_SIZE` is a `size_t` value. -/
  pool_lt : pf.sizeof_ngx_pool_t + 2 * pf.sizeof_ngx_pool_large_t + 16 < pf.sizeMod

/-- `a - b` on `size_t`: the difference modulo `sizeMod`.  Also the value of
`(size_t) (a - b)` for two pointers `a` and `b`. -/
def sizeSub (pf : Platform) (a b : Nat) : Nat :=
  (a + (pf.sizeMod - b % pf.sizeMod)) % pf.sizeMod

/-- Modelled from the spec: the macro `ngx_align_ptr` of `ngx_config.h`, which
rounds a pointer up to the next multiple of the alignment. -/
def ngx_align_ptr (p a : Nat) : Nat :=
  (p + (a - 1)) / a * a

/-- Modelled from the spec: the macro `ngx_align` of `ngx_config.h`, which
rounds a size up to the next multiple of the alignment. -/
def ngx_align (d a : Nat) : Nat :=
  (d + (a - 1)) / a * a

/-- `NGX_MAX_ALLOC_FROM_POOL`, that is `ngx_pagesize - 1` on `size_t`. -/
def NGX_MAX_ALLOC_FROM_POOL (pf : Platform) : Nat :=
  sizeSub pf pf.ngx_pagesize 1

/-- `NGX_POOL_ALIGNMENT`. -/
def NGX_POOL_ALIGNMENT : Nat := 16

/-- `NGX_MIN_POOL_SIZE`. -/
def NGX_MIN_POOL_SIZE (pf : Platform) : Nat :=
  ngx_align (pf.sizeof_ngx_pool_t + 2 * pf.sizeof_ngx_pool_large_t) NGX_POOL_ALIGNMENT

/-- Return code `NGX_OK` of `ngx_core.h`. -/
def NGX_OK : Int := 0

/-- Return code `NGX_DECLINED` of `ngx_core.h`. -/
def NGX_DECLINED : Int := -5

/-! ## External world -/

/-- An effect of the allocator on its collaborators. -/
inductive Event where
  /-- The call `ngx_alloc(size, log)` and the pointer it returned. -/
  | alloc (size ret : Nat)
  /-- The call `ngx_memalign(alignment, size, log)` and the pointer it returned. -/
  | memalign (alignment size ret : Nat)
  /-- The call `ngx_free(p)`. -/
  | free (p : Nat)
  /-- The call `handler(data)` of a cleanup handler. -/
  | handler (h data : Nat)
  deriving DecidableEq, Repr

/-- The collaborators of the pool: the raw allocator and the record of the
effects so far. -/
structure World where
  /-- The pointer the raw allocator returns to its `n`-th request (`0` when the
  request fails). -/
  oracle : Nat → Nat
  /-- Number of allocation requests made so far. -/
  calls : Nat
  /-- External effects so far, oldest first. -/
  trace : List Event

/-- Modelled from the spec: the raw allocator's `rawAllocate`, `ngx_alloc` of
`ngx_alloc.c`: the next answer of the oracle, with the request recorded. -/
def ngx_alloc (size : Nat) (w : World) : Nat × World :=
  (w.oracle w.calls,
    { oracle := w.oracle, calls := w.calls + 1,
      trace := w.trace ++ [Event.alloc size (w.oracle w.calls)] })

/-- Modelled from the spec: the raw allocator's `rawAllocateAligned`,
`ngx_memalign` of `ngx_alloc.c`: the next answer of the oracle, with the request
recorded. -/
def ngx_memalign (alignment size : Nat) (w : World) : Nat × World :=
  (w.oracle w.calls,
    { oracle := w.oracle, calls := w.calls + 1,
      trace := w.trace ++ [Event.memalign alignment size (w.oracle w.calls)] })

/-- Modelled from the spec: the raw allocator's `rawFree`, `ngx_free`: the
release is recorded. -/
def ngx_free (p : Nat) (w : World) : World :=
  { oracle := w.oracle, calls := w.calls, trace := w.trace ++ [Event.free p] }

/-- The call `handler(data)` of a cleanup handler: the invocation is recorded. -/
def callHandler (h data : Nat) (w : World) : World :=
  { oracle := w.oracle, calls := w.calls, trace := w.trace ++ [Event.handler h data] }

/-! ## Data model -/

/-- One block of the chain: its address and the fields of `ngx_pool_data_t`
other than `next`, which is the position in `Pool.blocks`. -/
structure Block where
  /-- Address of the block (for the head block, of the pool). -/
  addr : Nat
  /-- Field `d.last`. -/
  last : Nat
  /-- Field `d.end`. -/
  end_ : Nat
  /-- Field `d.failed`. -/
  failed : Nat
  deriving DecidableEq, Repr

/-- A node of the large registry, `ngx_pool_large_t`. -/
structure LargeNode where
  /-- Address of the node in the arena. -/
  addr : Nat
  /-- Field `alloc` (`0` when the slot is vacant). -/
  alloc : Nat
  deriving DecidableEq, Repr

/-- A node of the cleanup registry, `ngx_pool_cleanup_t`. -/
structure CleanupNode where
  /-- Address of the node in the arena. -/
  addr : Nat
  /-- Field `handler` (`0` when the entry is disarmed). -/
  handler : Nat
  /-- Field `data`. -/
  data : Nat
  deriving DecidableEq, Repr

/-- The pool, `ngx_pool_t`, together with the blocks chained to it. -/
structure Pool where
  /-- The chain of blocks from the head block. -/
  blocks : List Block
  /-- Field `max`. -/
  max : Nat
  /-- Field `current`, as a position in `blocks`. -/
  current : Nat
  /-- Field `chain`. -/
  chain : Nat
  /-- Field `large`: the large registry from its head. -/
  large : List LargeNode
  /-- Field `cleanup`: the cleanup registry from its head. -/
  cleanup : List CleanupNode
  /-- Field `log`. -/
  log : Nat
  deriving DecidableEq, Repr

/-- The `next` field of the block at position `i`: the address of the block
after it, `0` at the tail. -/
def Pool.nextOf (pool : Pool) (i : Nat) : Nat :=
  match pool.blocks[i + 1]? with
  | some b => b.addr
  | none => 0

/-- Why a run of the embedding has no result. -/
inductive Fault where
  /-- The recursion between `ngx_palloc` and `ngx_palloc_large` went deeper
  than the fuel allows. -/
  | outOfFuel
  /-- A pointer that is `NULL` or points to no block of the chain was
  dereferenced. -/
  | wildPointer
  deriving DecidableEq, Repr

/-- Result of an allocation call: the returned pointer, the pool and the world
after the call. -/
abbrev Res := Except Fault (Nat × Pool × World)

/-! ## `ngx_create_pool` -/

/-- `ngx_create_pool(size, log)`: the new pool, or `none` for `NULL`. -/
def ngx_create_pool (pf : Platform) (size log : Nat) (w : World) : Option Pool × World :=
  let r := ngx_memalign NGX_POOL_ALIGNMENT size w
  let p := r.1
  if p = 0 then (none, r.2)
  else
    let size1 := sizeSub pf size pf.sizeof_ngx_pool_t
    (some
      { blocks := [{ addr := p, last := p + pf.sizeof_ngx_pool_t, end_ := p + size, failed := 0 }]
        max := if size1 < NGX_MAX_ALLOC_FROM_POOL pf then size1 else NGX_MAX_ALLOC_FROM_POOL pf
        current := 0
        chain := 0
        large := []
        cleanup := []
        log := log },
     r.2)

/-! ## Small allocations: `ngx_palloc`, `ngx_pnalloc`, `ngx_palloc_block` -/

/-- The start of the free space of a block as the bump loop computes it:
`ngx_align_ptr(p->d.last, NGX_ALIGNMENT)` in `ngx_palloc`, `p->d.last` in
`ngx_pnalloc`. -/
def candidateStart (pf : Platform) (aligned : Bool) (b : Block) : Nat :=
  if aligned then ngx_align_ptr b.last pf.NGX_ALIGNMENT else b.last

/-- The test `(size_t) (p->d.end - m) >= size` of the bump loop. -/
def fits (pf : Platform) (aligned : Bool) (size : Nat) (b : Block) : Prop :=
  size ≤ sizeSub pf b.end_ (candidateStart pf aligned b)

instance (pf : Platform) (aligned : Bool) (size : Nat) (b : Block) :
    Decidable (fits pf aligned size b) :=
  inferInstanceAs (Decidable (size ≤ sizeSub pf b.end_ (candidateStart pf aligned b)))

/-- The block after a successful bump: `p->d.last = m + size`. -/
def bump (pf : Platform) (aligned : Bool) (size : Nat) (b : Block) : Block :=
  { b with last := candidateStart pf aligned b + size }

/-- The `do ... while (p)` loop of `ngx_palloc` and `ngx_pnalloc`, run from the
block at the head of the list: the returned pointer and the blocks after the
call, or `none` when the loop falls through. -/
def bumpScan (pf : Platform) (aligned : Bool) (size : Nat) :
    List Block → Option (Nat × List Block)
  | [] => none
  | b :: bs =>
    if fits pf aligned size b then
      some (candidateStart pf aligned b, bump pf aligned size b :: bs)
    else
      match bumpScan pf aligned size bs with
      | some (m, bs1) => some (m, b :: bs1)
      | none => none

/-- The loop `for (p = current; p->d.next != NULL; p = p->d.next)` of
`ngx_palloc_block`, run from the block at position `i` (the head of the list)
with the local variable `current` equal to `cur`: the final value of `current`
and the blocks with their `failed` counters after the loop. -/
def failScan : Nat → Nat → List Block → Nat × List Block
  | _, cur, [] => (cur, [])
  | _, cur, [b] => (cur, [b])
  | i, cur, b :: b2 :: bs =>
    let r := failScan (i + 1) (if b.failed > 4 then i + 1 else cur) (b2 :: bs)
    (r.1, { b with failed := b.failed + 1 } :: r.2)

/-- `ngx_palloc_block(pool, size)`. -/
def ngx_palloc_block (pf : Platform) (pool : Pool) (size : Nat) (w : World) : Res :=
  match pool.blocks with
  | [] => .error .wildPointer
  | hd :: _ =>
    let psize := sizeSub pf hd.end_ hd.addr
    let r := ngx_memalign NGX_POOL_ALIGNMENT psize w
    let m := r.1
    if m = 0 then .ok (0, pool, r.2)
    else
      let m1 := ngx_align_ptr (m + pf.sizeof_ngx_pool_data_t) pf.NGX_ALIGNMENT
      let new : Block := { addr := m, last := m1 + size, end_ := m + psize, failed := 0 }
      if pool.current < pool.blocks.length then
        let s := failScan pool.current pool.current (pool.blocks.drop pool.current)
        .ok (m1,
          { pool with
            blocks := pool.blocks.take pool.current ++ s.2 ++ [new]
            current := s.1 },
          r.2)
      else .error .wildPointer

/-- The branch `size <= pool->max` of `ngx_palloc` (`aligned = true`) and of
`ngx_pnalloc` (`aligned = false`). -/
def smallAlloc (pf : Platform) (aligned : Bool) (pool : Pool) (size : Nat) (w : World) : Res :=
  if pool.current < pool.blocks.length then
    match bumpScan pf aligned size (pool.blocks.drop pool.current) with
    | some (m, bs) => .ok (m, { pool with blocks := pool.blocks.take pool.current ++ bs }, w)
    | none => ngx_palloc_block pf pool size w
  else .error .wildPointer

/-! ## Large allocations -/

/-- The loop of `ngx_palloc_large` over the registry, with the counter `n`: the
registry with `p` stored in the vacant slot found, or `none` when the loop ends
without finding one. -/
def largeScan (p : Nat) : Nat → List LargeNode → Option (List LargeNode)
  | _, [] => none
  | n, l :: ls =>
    if l.alloc = 0 then some ({ l with alloc := p } :: ls)
    else if n > 3 then none
    else
      match largeScan p (n + 1) ls with
      | some ls1 => some (l :: ls1)
      | none => none

/-- `ngx_palloc_large(pool, size)`; the argument `palloc` is the `ngx_palloc` it
calls for the registry node. -/
def ngx_palloc_large (pf : Platform) (palloc : Pool → Nat → World → Res)
    (pool : Pool) (size : Nat) (w : World) : Res :=
  let r := ngx_alloc size w
  let p := r.1
  if p = 0 then .ok (0, pool, r.2)
  else
    match largeScan p 0 pool.large with
    | some ls => .ok (p, { pool with large := ls }, r.2)
    | none =>
      match palloc pool pf.sizeof_ngx_pool_large_t r.2 with
      | .error e => .error e
      | .ok (large, pool1, w1) =>
        if large = 0 then .ok (0, pool1, ngx_free p w1)
        else .ok (p, { pool1 with large := { addr := large, alloc := p } :: pool1.large }, w1)

/-- `ngx_palloc(pool, size)`, with `fuel` nested calls from `ngx_palloc_large`
allowed. -/
def ngx_palloc (pf : Platform) : Nat → Pool → Nat → World → Res
  | 0, pool, size, w =>
    if size ≤ pool.max then smallAlloc pf true pool size w
    else ngx_palloc_large pf (fun _ _ _ => .error .outOfFuel) pool size w
  | fuel + 1, pool, size, w =>
    if size ≤ pool.max then smallAlloc pf true pool size w
    else ngx_palloc_large pf (ngx_palloc pf fuel) pool size w

/-- The `ngx_palloc` that `ngx_palloc_large` calls when `fuel` nested calls are
allowed. -/
def nestedPalloc (pf : Platform) : Nat → Pool → Nat → World → Res
  | 0 => fun _ _ _ => .error .outOfFuel
  | fuel + 1 => ngx_palloc pf fuel

/-- `ngx_pnalloc(pool, size)`. -/
def ngx_pnalloc (pf : Platform) (fuel : Nat) (pool : Pool) (size : Nat) (w : World) : Res :=
  if size ≤ pool.max then smallAlloc pf false pool size w
  else ngx_palloc_large pf (nestedPalloc pf fuel) pool size w

/-- `ngx_pmemalign(pool, size, alignment)`. -/
def ngx_pmemalign (pf : Platform) (fuel : Nat) (pool : Pool) (size alignment : Nat)
    (w : World) : Res :=
  let r := ngx_memalign alignment size w
  let p := r.1
  if p = 0 then .ok (0, pool, r.2)
  else
    match ngx_palloc pf fuel pool pf.sizeof_ngx_pool_large_t r.2 with
    | .error e => .error e
    | .ok (large, pool1, w1) =>
      if large = 0 then .ok (0, pool1, ngx_free p w1)
      else .ok (p, { pool1 with large := { addr := large, alloc := p } :: pool1.large }, w1)

/-- The loop of `ngx_pfree` over the registry: the registry with the first slot
holding `p` cleared, or `none` when no slot holds `p`. -/
def pfreeScan (p : Nat) : List LargeNode → Option (List LargeNode)
  | [] => none
  | l :: ls =>
    if p = l.alloc then some ({ l with alloc := 0 } :: ls)
    else
      match pfreeScan p ls with
      | some ls1 => some (l :: ls1)
      | none => none

/-- `ngx_pfree(pool, p)`. -/
def ngx_pfree (pool : Pool) (p : Nat) (w : World) : Int × Pool × World :=
  match pfreeScan p pool.large with
  | some ls => (NGX_OK, { pool with large := ls }, ngx_free p w)
  | none => (NGX_DECLINED, pool, w)

/-! ## Cleanup registry -/

/-- `ngx_pool_cleanup_add(p, size)`: the address of the new entry, `0` for
`NULL`. -/
def ngx_pool_cleanup_add (pf : Platform) (fuel : Nat) (pool : Pool) (size : Nat)
    (w : World) : Res :=
  match ngx_palloc pf fuel pool pf.sizeof_ngx_pool_cleanup_t w with
  | .error e => .error e
  | .ok (c, pool1, w1) =>
    if c = 0 then .ok (0, pool1, w1)
    else if size ≠ 0 then
      match ngx_palloc pf fuel pool1 size w1 with
      | .error e => .error e
      | .ok (data, pool2, w2) =>
        if data = 0 then .ok (0, pool2, w2)
        else
          .ok (c, { pool2 with cleanup := { addr := c, handler := 0, data := data } :: pool2.cleanup },
            w2)
    else
      .ok (c, { pool1 with cleanup := { addr := c, handler := 0, data := 0 } :: pool1.cleanup }, w1)

/-- The caller's assignment `c->handler = h` to the entry at address `c`. -/
def setHandler (pool : Pool) (c h : Nat) : Pool :=
  { pool with
    cleanup := pool.cleanup.map fun n => if n.addr = c then { n with handler := h } else n }

/-- The loop of `ngx_pool_run_cleanup_file(p, fd)` over the registry: the
registry and the world after the call.  The bytes of the arena are not part of
the pool, so the read `cf->fd` goes through the argument `fdAt`: `fdAt a` is the
field `fd` of the `ngx_pool_cleanup_file_t` at the address `a`.  Reading it
through a null `c->data` is a fault.  The first entry whose handler is the
function `ngx_pool_cleanup_file` and whose data holds `fd` has its handler called
with the data and then set to `NULL`, and the loop ends there. -/
def runCleanupFileScan (pf : Platform) (fdAt : Nat → Int) (fd : Int) :
    List CleanupNode → World → Except Fault (List CleanupNode × World)
  | [], w => .ok ([], w)
  | c :: cs, w =>
    if c.handler = pf.ngx_pool_cleanup_file ∧ c.data = 0 then .error .wildPointer
    else if c.handler = pf.ngx_pool_cleanup_file ∧ fdAt c.data = fd then
      .ok ({ c with handler := 0 } :: cs, callHandler c.handler c.data w)
    else
      match runCleanupFileScan pf fdAt fd cs w with
      | .error e => .error e
      | .ok (cs1, w1) => .ok (c :: cs1, w1)

/-- `ngx_pool_run_cleanup_file(p, fd)`, with the arena read through `fdAt`. -/
def ngx_pool_run_cleanup_file (pf : Platform) (fdAt : Nat → Int) (pool : Pool) (fd : Int)
    (w : World) : Except Fault (Pool × World) :=
  match runCleanupFileScan pf fdAt fd pool.cleanup w with
  | .error e => .error e
  | .ok (cs, w1) => .ok ({ pool with cleanup := cs }, w1)

/-! ## `ngx_reset_pool` and `ngx_destroy_pool` -/

/-- The loop `for (l = pool->large; l; l = l->next)` of `ngx_reset_pool` and
`ngx_destroy_pool`: every payload still held is freed. -/
def freeLarge : List LargeNode → World → World
  | [], w => w
  | l :: ls, w => freeLarge ls (if l.alloc = 0 then w else ngx_free l.alloc w)

/-- The loop `for (c = pool->cleanup; c; c = c->next)` of `ngx_destroy_pool`:
every handler that is present is called with the entry's data. -/
def runCleanups : List CleanupNode → World → World
  | [], w => w
  | c :: cs, w => runCleanups cs (if c.handler = 0 then w else callHandler c.handler c.data w)

/-- `ngx_reset_pool(pool)`. -/
def ngx_reset_pool (pf : Platform) (pool : Pool) (w : World) : Pool × World :=
  ({ pool with
     large := []
     blocks := pool.blocks.map fun b => { b with last := b.addr + pf.sizeof_ngx_pool_t } },
   freeLarge pool.large w)

/-- The last loop of `ngx_destroy_pool` as the source has it,
`for (p = pool, n = pool->d.next; p = n, n = n->d.next) { ngx_free(p); if (n == NULL) break; }`.
The header has two clauses, the initialiser and `p = n, n = n->d.next`, which
stands where the condition of a `for` stands: before each round `p` moves to
`n`, `n` to `n->d.next` (a fault when `n` is `NULL`), and the round runs when
the new `n` is not `NULL`.  The argument is the chain from `n` on. -/
def destroyBlocks : List Block → World → Except Fault World
  | [], _ => .error .wildPointer
  | [_], w => .ok w
  | b :: b2 :: bs, w => destroyBlocks (b2 :: bs) (ngx_free b.addr w)

/-- The body of that loop under the header of its sibling, the loop over the same
chain in the `NGX_DEBUG` part of `ngx_destroy_pool`,
`for (p = pool, n = pool->d.next; /* void */; p = n, n = n->d.next)`: the block `p`
is freed, the loop ends when `n` is `NULL`, and otherwise goes on with `p = n`.
The arguments are the block `p` and the chain from `n` on.  The function
`ngx_destroy_pool` of the source does not run this loop; it is here for
comparison. -/
def destroyBlocksSiblingHeader : Block → List Block → World → World
  | p, [], w => ngx_free p.addr w
  | p, n :: rest, w => destroyBlocksSiblingHeader n rest (ngx_free p.addr w)

/-- `ngx_destroy_pool(pool)` in a build without `NGX_DEBUG`: the world after
the call. -/
def ngx_destroy_pool (pool : Pool) (w : World) : Except Fault World :=
  match pool.blocks with
  | [] => .error .wildPointer
  | _ :: rest => destroyBlocks rest (freeLarge pool.large (runCleanups pool.cleanup w))

/-! ## Reachable pool states -/

/-- The pool states that the operations of the allocator lead to from the pool
`pool0`, whatever the raw allocator answers along the way.  A failed call (one
that returns `NULL`) also leads to the state it leaves behind. -/
inductive Reachable (pf : Platform) (pool0 : Pool) : Pool → Prop where
  | init : Reachable pf pool0 pool0
  | palloc {pool pool1 : Pool} {fuel size a : Nat} {w w1 : World} :
      Reachable pf pool0 pool → ngx_palloc pf fuel pool size w = .ok (a, pool1, w1) →
      Reachable pf pool0 pool1
  | pnalloc {pool pool1 : Pool} {fuel size a : Nat} {w w1 : World} :
      Reachable pf pool0 pool → ngx_pnalloc pf fuel pool size w = .ok (a, pool1, w1) →
      Reachable pf pool0 pool1
  | pmemalign {pool pool1 : Pool} {fuel size alignment a : Nat} {w w1 : World} :
      Reachable pf pool0 pool →
      ngx_pmemalign pf fuel pool size alignment w = .ok (a, pool1, w1) →
      Reachable pf pool0 pool1
  | pfree {pool : Pool} (p : Nat) (w : World) :
      Reachable pf pool0 pool → Reachable pf pool0 (ngx_pfree pool p w).2.1
  | cleanup_add {pool pool1 : Pool} {fuel size c : Nat} {w w1 : World} :
      Reachable pf pool0 pool →
      ngx_pool_cleanup_add pf fuel pool size w = .ok (c, pool1, w1) →
      Reachable pf pool0 pool1
  | set_handler {pool : Pool} (c h : Nat) :
      Reachable pf pool0 pool → Reachable pf pool0 (setHandler pool c h)
  | run_cleanup_file {pool pool1 : Pool} {fdAt : Nat → Int} {fd : Int} {w w1 : World} :
      Reachable pf pool0 pool →
      ngx_pool_run_cleanup_file pf fdAt pool fd w = .ok (pool1, w1) →
      Reachable pf pool0 pool1
  | reset {pool : Pool} (w : World) :
      Reachable pf pool0 pool → Reachable pf pool0 (ngx_reset_pool pf pool w).1

/-- The part of a block that no operation changes: its address and its end. -/
def Block.extent (b : Block) : Nat × Nat := (b.addr, b.end_)

/-- The pool `pool1` has the `max` of `pool` and the blocks of `pool`, at the same
addresses with the same ends, possibly followed by further blocks. -/
def Pool.ExtendedBy (pool pool1 : Pool) : Prop :=
  pool1.max = pool.max ∧
    ∃ ext, pool1.blocks.map Block.extent = pool.blocks.map Block.extent ++ ext

/-- A relation between the pool before and the pool after that holds across
every operation as soon as it holds across the bump path and `ngx_reset_pool`
and does not look at the two registries. -/
structure StepRel (pf : Platform) (R : Pool → Pool → Prop) : Prop where
  /-- The relation holds when nothing happened. -/
  refl : ∀ pool, R pool pool
  /-- The relation holds across two steps when it holds across each. -/
  trans : ∀ p1 p2 p3, R p1 p2 → R p2 p3 → R p1 p3
  /-- The relation holds across the bump path, block growth included. -/
  small : ∀ aligned pool size w a pool1 w1,
    smallAlloc pf aligned pool size w = .ok (a, pool1, w1) → R pool pool1
  /-- The relation holds across any change of the large registry. -/
  large : ∀ pool ls, R pool { pool with large := ls }
  /-- The relation holds across any change of the cleanup registry. -/
  cleanup : ∀ pool cs, R pool { pool with cleanup := cs }
  /-- The relation holds across `ngx_reset_pool`. -/
  reset : ∀ pool w, R pool (ngx_reset_pool pf pool w).1

/-- The pointers of the pool point somewhere: `current` is a block of the chain,
and no block has a null address or a null `last`. -/
def Pool.Valid (pool : Pool) : Prop :=
  pool.current < pool.blocks.length ∧ ∀ b ∈ pool.blocks, 0 < b.addr ∧ 0 < b.last

/-- The address, the `last` and the end of a block. -/
def Block.span (b : Block) : Nat × Nat × Nat := (b.addr, b.last, b.end_)

/-- Two blocks, given by their spans, share no byte. -/
def spansApart (t u : Nat × Nat × Nat) : Prop := t.2.2 ≤ u.1 ∨ u.2.2 ≤ t.1

/-- A block, given by its span, is in order: `last` lies between the address and
the end, the end is on an alignment boundary, and the size is a `size_t`
value. -/
def SpanOk (pf : Platform) (t : Nat × Nat × Nat) : Prop :=
  t.1 ≤ t.2.1 ∧ t.2.1 ≤ t.2.2 ∧ pf.NGX_ALIGNMENT ∣ t.2.2 ∧ t.2.2 - t.1 < pf.sizeMod

/-- What a bump allocation of `size` bytes at address `a` does to the spans `L`
of a chain: either one block that had the room moves its `last` to `a + size`,
or a block in order that shares no byte with the others is appended, with the
allocation at its start. -/
def SpanStep (pf : Platform) (L : List (Nat × Nat × Nat)) (a size : Nat)
    (L1 : List (Nat × Nat × Nat)) : Prop :=
  (∃ i t, L[i]? = some t ∧ t.2.1 ≤ a ∧ a + size ≤ t.2.2 ∧ L1 = L.set i (t.1, a + size, t.2.2)) ∨
  (∃ t, L ≠ [] ∧ L1 = L ++ [t] ∧ t.1 ≤ a ∧ a + size = t.2.1 ∧ SpanOk pf t ∧
    ∀ u ∈ L, spansApart u t)

/-- The spans of a chain in good order: every block is in order, no two blocks
share a byte, the head block lies on an alignment boundary and a block of its
size holds the block header, the padding after it and a request of `max`
bytes. -/
def SpansTidy (pf : Platform) (max : Nat) (L : List (Nat × Nat × Nat)) : Prop :=
  (∀ t ∈ L, SpanOk pf t) ∧ L.Pairwise spansApart ∧
    ∀ t ∈ L.head?,
      pf.NGX_ALIGNMENT ∣ t.1 ∧ pf.sizeof_ngx_pool_data_t + pf.NGX_ALIGNMENT + max ≤ t.2.2 - t.1

/-- The chain of the pool is in good order. -/
def Pool.Tidy (pf : Platform) (pool : Pool) : Prop :=
  SpansTidy pf pool.max (pool.blocks.map Block.span)

/-- The next answer of the raw allocator, taken as a block of the size of the
head block, lies on an alignment boundary and shares no byte with a block of
the pool. -/
def FreshBlock (pf : Platform) (pool : Pool) (w : World) : Prop :=
  ∀ t ∈ (pool.blocks.map Block.span).head?,
    pf.NGX_ALIGNMENT ∣ w.oracle w.calls ∧
      ∀ u ∈ pool.blocks.map Block.span,
        spansApart u (w.oracle w.calls, w.oracle w.calls, w.oracle w.calls + (t.2.2 - t.1))

/-- A call of one of the two bump entry points. -/
inductive Call where
  /-- The call `ngx_palloc(pool, size)`. -/
  | palloc (size : Nat)
  /-- The call `ngx_pnalloc(pool, size)`. -/
  | pnalloc (size : Nat)
  deriving DecidableEq, Repr

/-- The call made on the pool, with fuel for one nested call. -/
def Call.run (pf : Platform) (c : Call) (pool : Pool) (w : World) : Res :=
  match c with
  | .palloc size => ngx_palloc pf 1 pool size w
  | .pnalloc size => ngx_pnalloc pf 1 pool size w

/-- The calls of the list made one after the other on the pool, each with fuel
for one nested call: the pointers they returned, in order, and the pool and the
world after the last one. -/
def runCalls (pf : Platform) : List Call → Pool → World → Except Fault (List Nat × Pool × World)
  | [], pool, w => .ok ([], pool, w)
  | c :: cs, pool, w =>
    match c.run pf pool w with
    | .error e => .error e
    | .ok (a, pool1, w1) =>
      match runCalls pf cs pool1 w1 with
      | .error e => .error e
      | .ok (as, pool2, w2) => .ok (a :: as, pool2, w2)

/-- One round of allocate-then-free: `p = ngx_palloc(pool, size)` followed by
`ngx_pfree(pool, p)`.  The pool and the world after the round. -/
def largeRound (pf : Platform) (fuel : Nat) (pool : Pool) (size : Nat) (w : World) :
    Except Fault (Pool × World) :=
  match ngx_palloc pf fuel pool size w with
  | .error e => .error e
  | .ok (p, pool1, w1) => .ok ((ngx_pfree pool1 p w1).2.1, (ngx_pfree pool1 p w1).2.2)

/-- The rounds of allocate-then-free for the sizes of the list, one after the
other. -/
def largeRounds (pf : Platform) (fuel : Nat) :
    List Nat → Pool → World → Except Fault (Pool × World)
  | [], pool, w => .ok (pool, w)
  | size :: sizes, pool, w =>
    match largeRound pf fuel pool size w with
    | .error e => .error e
    | .ok (pool1, w1) => largeRounds pf fuel sizes pool1 w1

/-- The addresses of the nodes of the large registry, from the head. -/
def Pool.largeNodes (pool : Pool) : List Nat := pool.large.map LargeNode.addr

/-- The raw payloads held after the events `evs` when the payloads `held` were
held before them: a request that was answered adds its answer, a release takes
the released address away. -/
def outstandingFrom : List Nat → List Event → List Nat
  | held, [] => held
  | held, Event.alloc _ ret :: evs =>
    outstandingFrom (if ret = 0 then held else ret :: held) evs
  | held, Event.memalign _ _ ret :: evs =>
    outstandingFrom (if ret = 0 then held else ret :: held) evs
  | held, Event.free p :: evs => outstandingFrom (held.erase p) evs
  | held, Event.handler _ _ :: evs => outstandingFrom held evs

/-- The raw payloads obtained during the events `evs` and not released by
them. -/
def outstanding (evs : List Event) : List Nat := outstandingFrom [] evs

/-- The failure counters of the blocks of the chain, from the head. -/
def Pool.counters (pool : Pool) : List Nat := pool.blocks.map Block.failed

/-- The failure counters of the pool are in order: no block has a counter above
6, no block from `current` on has one above 5, and from `current` on the
counters do not increase along the chain. -/
def Pool.CountersOk (pool : Pool) : Prop :=
  (∀ (i : Nat) (b : Block), pool.blocks[i]? = some b → b.failed ≤ 6) ∧
  (∀ (i : Nat) (b : Block), pool.current ≤ i → pool.blocks[i]? = some b → b.failed ≤ 5) ∧
  (∀ (i j : Nat) (bi bj : Block), pool.current ≤ i → i < j →
    pool.blocks[i]? = some bi → pool.blocks[j]? = some bj → bj.failed ≤ bi.failed)

/-! ## Example inputs -/

/-- A raw allocator that answers every request: the `n`-th one with the address
`65536 * (n + 1)`.  No request has been made and nothing has happened yet. -/
def answeringWorld : World :=
  { oracle := fun n => 65536 * (n + 1), calls := 0, trace := [] }

/-- The world `answeringWorld` after its first request, the `ngx_memalign` of
`ngx_create_pool(size, log)`. -/
def answeringWorldAfterCreate (size : Nat) : World :=
  { oracle := fun n => 65536 * (n + 1), calls := 1, trace := [Event.memalign 16 size 65536] }

/-- The LP64 pool that `ngx_create_pool(4096, 7)` returns at address `65536`. -/
def pool4096 : Pool :=
  { blocks := [{ addr := 65536, last := 65616, end_ := 69632, failed := 0 }]
    max := 4016, current := 0, chain := 0, large := [], cleanup := [], log := 7 }

/-- The LP64 pool that `ngx_create_pool(80, 7)` returns at address `65536`: the
block holds the pool header and nothing else. -/
def pool80 : Pool :=
  { blocks := [{ addr := 65536, last := 65616, end_ := 65616, failed := 0 }]
    max := 0, current := 0, chain := 0, large := [], cleanup := [], log := 7 }

/-- The pool `pool4096` after `ngx_palloc(pool, 5000)` was answered with the
payload address `131072`: the registry node lies at the start of the arena. -/
def pool4096Large : Pool :=
  { blocks := [{ addr := 65536, last := 65632, end_ := 69632, failed := 0 }]
    max := 4016, current := 0, chain := 0
    large := [{ addr := 65616, alloc := 131072 }], cleanup := [], log := 7 }

/-- The world `answeringWorldAfterCreate 4096` after the request of that
`ngx_palloc(pool, 5000)`. -/
def answeringWorldAfterLarge : World :=
  { oracle := fun n => 65536 * (n + 1), calls := 2
    trace := [Event.memalign 16 4096 65536, Event.alloc 5000 131072] }

/-- The pool `pool4096Large` after `ngx_pfree(pool, 131072)`: the node stays, its
slot is vacant. -/
def pool4096Vacant : Pool :=
  { blocks := [{ addr := 65536, last := 65632, end_ := 69632, failed := 0 }]
    max := 4016, current := 0, chain := 0
    large := [{ addr := 65616, alloc := 0 }], cleanup := [], log := 7 }

/-- The LP64 pool that `ngx_create_pool(1024, 7)` returns at address `65536`. -/
def pool1024 : Pool :=
  { blocks := [{ addr := 65536, last := 65616, end_ := 66560, failed := 0 }]
    max := 944, current := 0, chain := 0, large := [], cleanup := [], log := 7 }

/-- The pool `pool1024` after eight calls `ngx_palloc(pool, 944)`, each new block
at the address the raw allocator of `answeringWorld` gave: seven blocks were
appended and `current` has left the head block. -/
def pool1024Grown : Pool :=
  { blocks :=
      [{ addr := 65536, last := 66560, end_ := 66560, failed := 6 },
       { addr := 131072, last := 132048, end_ := 132096, failed := 5 },
       { addr := 196608, last := 197584, end_ := 197632, failed := 4 },
       { addr := 262144, last := 263120, end_ := 263168, failed := 3 },
       { addr := 327680, last := 328656, end_ := 328704, failed := 2 },
       { addr := 393216, last := 394192, end_ := 394240, failed := 1 },
       { addr := 458752, last := 459728, end_ := 459776, failed := 0 },
       { addr := 524288, last := 525264, end_ := 525312, failed := 0 }]
    max := 944, current := 1, chain := 0, large := [], cleanup := [], log := 7 }

/-- The world `answeringWorld` after the creation of `pool1024` and the seven
block requests that lead to `pool1024Grown`. -/
def answeringWorldGrown : World :=
  { oracle := fun n => 65536 * (n + 1), calls := 8
    trace :=
      [Event.memalign 16 1024 65536, Event.memalign 16 1024 131072,
       Event.memalign 16 1024 196608, Event.memalign 16 1024 262144,
       Event.memalign 16 1024 327680, Event.memalign 16 1024 393216,
       Event.memalign 16 1024 458752, Event.memalign 16 1024 524288] }

/-- An LP64 pool of two blocks of 1024 bytes: the head block has 4 bytes left,
the second block 896. -/
def pool1024Two : Pool :=
  { blocks := [{ addr := 65536, last := 66556, end_ := 66560, failed := 0 },
               { addr := 131072, last := 131200, end_ := 132096, failed := 0 }]
    max := 944, current := 0, chain := 0, large := [], cleanup := [], log := 7 }

/-- A raw allocator that answers its first request with the address `3200` and
its second with `2992`, the 16-byte boundary 208 bytes below. -/
def descendingWorld : World :=
  { oracle := fun n => 3200 - 208 * n, calls := 0, trace := [] }

/-- The world `descendingWorld` after its first request, the `ngx_memalign` of
`ngx_create_pool(201, log)`. -/
def descendingWorldAfterCreate : World :=
  { oracle := fun n => 3200 - 208 * n, calls := 1, trace := [Event.memalign 16 201 3200] }

/-- The world `descendingWorld` after its second request, the `ngx_memalign` of
a block of 201 bytes. -/
def descendingWorldAfterBlock : World :=
  { oracle := fun n => 3200 - 208 * n, calls := 2
    trace := [Event.memalign 16 201 3200, Event.memalign 16 201 2992] }

/-- The LP64 pool that `ngx_create_pool(201, 7)` returns at address `3200`: the
block ends at `3401`, which is not a multiple of 8. -/
def pool201 : Pool :=
  { blocks := [{ addr := 3200, last := 3280, end_ := 3401, failed := 0 }]
    max := 121, current := 0, chain := 0, large := [], cleanup := [], log := 7 }

/-- The pool `pool201` after `ngx_pnalloc` of 38, 85 and 84 bytes: the head
block has 83 bytes left, the second block, at `2992`, is full up to its end
`3193`. -/
def pool201Full : Pool :=
  { blocks := [{ addr := 3200, last := 3318, end_ := 3401, failed := 0 },
               { addr := 2992, last := 3193, end_ := 3193, failed := 0 }]
    max := 121, current := 0, chain := 0, large := [], cleanup := [], log := 7 }

/-- The pool `pool201Full` after `ngx_palloc` of 121 and of 8 bytes. -/
def pool201Overrun : Pool :=
  { blocks := [{ addr := 3200, last := 3328, end_ := 3401, failed := 0 },
               { addr := 2992, last := 3321, end_ := 3193, failed := 0 }]
    max := 121, current := 0, chain := 0, large := [], cleanup := [], log := 7 }

/-- The pool `pool201` after `ngx_pnalloc(pool, 121)` and `ngx_palloc(pool, 8)`:
the `last` of the head block is `3416`, its end `3401`. -/
def pool201PastEnd : Pool :=
  { blocks := [{ addr := 3200, last := 3416, end_ := 3401, failed := 0 }]
    max := 121, current := 0, chain := 0, large := [], cleanup := [], log := 7 }

/-- The pool `pool1024Grown` after one more `ngx_palloc(pool, 944)`: a ninth
block was appended and `current` is the third block. -/
def pool1024Nine : Pool :=
  { blocks :=
      [{ addr := 65536, last := 66560, end_ := 66560, failed := 6 },
       { addr := 131072, last := 132048, end_ := 132096, failed := 6 },
       { addr := 196608, last := 197584, end_ := 197632, failed := 5 },
       { addr := 262144, last := 263120, end_ := 263168, failed := 4 },
       { addr := 327680, last := 328656, end_ := 328704, failed := 3 },
       { addr := 393216, last := 394192, end_ := 394240, failed := 2 },
       { addr := 458752, last := 459728, end_ := 459776, failed := 1 },
       { addr := 524288, last := 525264, end_ := 525312, failed := 0 },
       { addr := 589824, last := 590800, end_ := 590848, failed := 0 }]
    max := 944, current := 2, chain := 0, large := [], cleanup := [], log := 7 }

/-- The world `answeringWorldGrown` after the block request that leads to
`pool1024Nine`. -/
def answeringWorldNine : World :=
  { oracle := fun n => 65536 * (n + 1), calls := 9
    trace :=
      [Event.memalign 16 1024 65536, Event.memalign 16 1024 131072,
       Event.memalign 16 1024 196608, Event.memalign 16 1024 262144,
       Event.memalign 16 1024 327680, Event.memalign 16 1024 393216,
       Event.memalign 16 1024 458752, Event.memalign 16 1024 524288,
       Event.memalign 16 1024 589824] }

/-- The pool `pool4096` after five calls `ngx_palloc(pool, 5000)`, answered with
`131072`, ..., `393216`, and `ngx_pfree(pool, 131072)`: the registry has five
nodes, the first four from the head hold payloads and the fifth is vacant. -/
def pool4096Five : Pool :=
  { blocks := [{ addr := 65536, last := 65696, end_ := 69632, failed := 0 }]
    max := 4016, current := 0, chain := 0
    large := [{ addr := 65680, alloc := 393216 }, { addr := 65664, alloc := 327680 },
              { addr := 65648, alloc := 262144 }, { addr := 65632, alloc := 196608 },
              { addr := 65616, alloc := 0 }]
    cleanup := [], log := 7 }

/-- The world `answeringWorldAfterCreate 4096` after the requests and the release
that lead to `pool4096Five`. -/
def answeringWorldFive : World :=
  { oracle := fun n => 65536 * (n + 1), calls := 6
    trace :=
      [Event.memalign 16 4096 65536, Event.alloc 5000 131072, Event.alloc 5000 196608,
       Event.alloc 5000 262144, Event.alloc 5000 327680, Event.alloc 5000 393216,
       Event.free 131072] }

/-- The pool `pool4096` after six calls `ngx_palloc(pool, 5000)`, answered with
`131072`, ..., `458752`, and `ngx_pfree(pool, 131072)`: the registry has six
nodes, the first five from the head hold payloads and the sixth is vacant. -/
def pool4096Six : Pool :=
  { blocks := [{ addr := 65536, last := 65712, end_ := 69632, failed := 0 }]
    max := 4016, current := 0, chain := 0
    large := [{ addr := 65696, alloc := 458752 }, { addr := 65680, alloc := 393216 },
              { addr := 65664, alloc := 327680 }, { addr := 65648, alloc := 262144 },
              { addr := 65632, alloc := 196608 }, { addr := 65616, alloc := 0 }]
    cleanup := [], log := 7 }

/-- The world `answeringWorldAfterCreate 4096` after the requests and the release
that lead to `pool4096Six`. -/
def answeringWorldSix : World :=
  { oracle := fun n => 65536 * (n + 1), calls := 7
    trace :=
      [Event.memalign 16 4096 65536, Event.alloc 5000 131072, Event.alloc 5000 196608,
       Event.alloc 5000 262144, Event.alloc 5000 327680, Event.alloc 5000 393216,
       Event.alloc 5000 458752, Event.free 131072] }

/-- The LP64 pool of 1024 bytes after four calls `ngx_pool_cleanup_add(pool, 24)`,
each followed by the assignment of a handler: from the head, an entry with the
handler `ngx_pool_cleanup_file` (at `4198400`), an entry with another handler,
and two more entries with the handler `ngx_pool_cleanup_file`. -/
def pool1024Files : Pool :=
  { blocks := [{ addr := 65536, last := 65808, end_ := 66560, failed := 0 }]
    max := 944, current := 0, chain := 0, large := []
    cleanup := [{ addr := 65760, handler := 4198400, data := 65784 },
                { addr := 65712, handler := 8392704, data := 65736 },
                { addr := 65664, handler := 4198400, data := 65688 },
                { addr := 65616, handler := 4198400, data := 65640 }]
    log := 7 }

/-- The descriptors in the payloads of `pool1024Files`: 4 in the payload of the
first entry from the head, 5 in the payloads of the three others. -/
def fileDescriptors : Nat → Int :=
  fun a => if a = 65784 then 4 else if a = 65736 ∨ a = 65688 ∨ a = 65640 then 5 else -1

/-- The LP64 pool of 1024 bytes after `ngx_palloc(pool, 944)`: its one block is
full. -/
def pool1024Full : Pool :=
  { blocks := [{ addr := 65536, last := 66560, end_ := 66560, failed := 0 }]
    max := 944, current := 0, chain := 0, large := [], cleanup := [], log := 7 }

/-- A raw allocator that answers two requests, with `65536` and `131072`, and
fails every later one, after the first request, the `ngx_memalign` of
`ngx_create_pool(1024, log)`. -/
def scarceWorld : World :=
  { oracle := fun n => if n ≤ 1 then 65536 * (n + 1) else 0, calls := 1
    trace := [Event.memalign 16 1024 65536] }

/-- An LP64 pool of three blocks of 1024 bytes with two nodes in the large
registry, one holding the payload `262144` and one vacant, and two cleanup
entries, one armed with the handler at `4198400` and one disarmed. -/
def pool1024Three : Pool :=
  { blocks := [{ addr := 65536, last := 66560, end_ := 66560, failed := 1 },
               { addr := 131072, last := 132048, end_ := 132096, failed := 0 },
               { addr := 196608, last := 197584, end_ := 197632, failed := 0 }]
    max := 944, current := 0, chain := 0
    large := [{ addr := 65616, alloc := 262144 }, { addr := 65632, alloc := 0 }]
    cleanup := [{ addr := 65648, handler := 4198400, data := 65672 },
                { addr := 65696, handler := 0, data := 0 }]
    log := 7 }

/-! ## Arithmetic of sizes and alignment -/

theorem sizeSub_eq_sub (pf : Platform) (a b : Nat) (hM : 0 < pf.sizeMod) (hle : b ≤ a)
    (hlt : a - b < pf.sizeMod) : sizeSub pf a b = a - b := by
  unfold sizeSub
  have h1 := Nat.div_add_mod b pf.sizeMod
  have h2 := Nat.mod_lt b hM
  have h3 : a + (pf.sizeMod - b % pf.sizeMod) = (a - b) + pf.sizeMod * (b / pf.sizeMod + 1) := by
    rw [Nat.mul_add, Nat.mul_one]
    omega
  rw [h3, Nat.add_mul_mod_self_left, Nat.mod_eq_of_lt hlt]

/-- The difference of a smaller and a larger `size_t` value wraps around. -/
theorem sizeSub_eq_wrap (pf : Platform) (a b : Nat) (hab : a < b) (hb : b < pf.sizeMod) :
    sizeSub pf a b = a + pf.sizeMod - b := by
  unfold sizeSub
  rw [Nat.mod_eq_of_lt hb, Nat.mod_eq_of_lt (by omega)]
  omega

theorem sizeSub_lt (pf : Platform) (a b : Nat) (hM : 0 < pf.sizeMod) :
    sizeSub pf a b < pf.sizeMod :=
  Nat.mod_lt _ hM

theorem le_ngx_align_ptr (p a : Nat) (ha : 0 < a) : p ≤ ngx_align_ptr p a := by
  unfold ngx_align_ptr
  have h1 := Nat.div_add_mod (p + (a - 1)) a
  have h2 := Nat.mod_lt (p + (a - 1)) ha
  rw [Nat.mul_comm] at h1
  omega

theorem ngx_align_ptr_of_dvd (p a : Nat) (ha : 0 < a) (hd : a ∣ p) : ngx_align_ptr p a = p := by
  obtain ⟨k, rfl⟩ := hd
  unfold ngx_align_ptr
  rw [Nat.mul_add_div ha, Nat.div_eq_of_lt (by omega), Nat.add_zero, Nat.mul_comm]

theorem le_ngx_align (d a : Nat) (ha : 0 < a) : d ≤ ngx_align d a :=
  le_ngx_align_ptr d a ha

/-! ## Pool creation -/

/-- C1. When the raw allocator answers the request of `ngx_create_pool(size, log)` with a
non-null pointer `p`, the call returns a pool whose chain is the single head
block with `last = p + sizeof(ngx_pool_t)`, `end = p + size`, `failed = 0` and no
next block, whose `current` is the head block, whose large and cleanup
registries are empty, and whose `max` is the smaller of `size - sizeof(ngx_pool_t)`
and `ngx_pagesize - 1`, both differences being those of `size_t`; when
`sizeof(ngx_pool_t) <= size` and the page size is positive these are the plain
differences. -/
theorem ngx_create_pool_spec (pf : Platform) (size log : Nat) (w : World)
    (hraw : w.oracle w.calls ≠ 0) :
    ∃ pool w1, ngx_create_pool pf size log w = (some pool, w1) ∧
      pool.blocks = [{ addr := w.oracle w.calls,
                       last := w.oracle w.calls + pf.sizeof_ngx_pool_t,
                       end_ := w.oracle w.calls + size,
                       failed := 0 }] ∧
      pool.nextOf 0 = 0 ∧ pool.current = 0 ∧ pool.large = [] ∧ pool.cleanup = [] ∧
      pool.max = min (sizeSub pf size pf.sizeof_ngx_pool_t) (sizeSub pf pf.ngx_pagesize 1) ∧
      (pf.sizeof_ngx_pool_t ≤ size → size < pf.sizeMod → 0 < pf.ngx_pagesize →
        pf.ngx_pagesize ≤ pf.sizeMod →
        pool.max = min (size - pf.sizeof_ngx_pool_t) (pf.ngx_pagesize - 1)) := by
  have hmax : (if sizeSub pf size pf.sizeof_ngx_pool_t < NGX_MAX_ALLOC_FROM_POOL pf
        then sizeSub pf size pf.sizeof_ngx_pool_t else NGX_MAX_ALLOC_FROM_POOL pf) =
      min (sizeSub pf size pf.sizeof_ngx_pool_t) (sizeSub pf pf.ngx_pagesize 1) := by
    unfold NGX_MAX_ALLOC_FROM_POOL
    split <;> omega
  simp only [ngx_create_pool, ngx_memalign, hraw, if_false]
  refine ⟨_, _, rfl, rfl, rfl, rfl, rfl, rfl, hmax, ?_⟩
  intro h1 h2 h3 h4
  show (if _ then _ else _) = _
  rw [hmax, sizeSub_eq_sub pf size _ (by omega) h1 (by omega),
    sizeSub_eq_sub pf pf.ngx_pagesize 1 (by omega) (by omega) (by omega)]

/-- Witness of C1: an LP64 build, `ngx_create_pool(4096, 7)` answered with the address
`65536`. -/
theorem ngx_create_pool_spec_witness :
    answeringWorld.oracle answeringWorld.calls ≠ 0 ∧
    ∃ pool w1, ngx_create_pool lp64 4096 7 answeringWorld = (some pool, w1) ∧
      pool.blocks =
        [{ addr := answeringWorld.oracle answeringWorld.calls,
           last := answeringWorld.oracle answeringWorld.calls + lp64.sizeof_ngx_pool_t,
           end_ := answeringWorld.oracle answeringWorld.calls + 4096,
           failed := 0 }] ∧
      pool.nextOf 0 = 0 ∧ pool.current = 0 ∧ pool.large = [] ∧ pool.cleanup = [] ∧
      pool.max = min (sizeSub lp64 4096 lp64.sizeof_ngx_pool_t)
        (sizeSub lp64 lp64.ngx_pagesize 1) ∧
      (lp64.sizeof_ngx_pool_t ≤ 4096 → 4096 < lp64.sizeMod → 0 < lp64.ngx_pagesize →
        lp64.ngx_pagesize ≤ lp64.sizeMod →
        pool.max = min (4096 - lp64.sizeof_ngx_pool_t) (lp64.ngx_pagesize - 1)) :=
  ⟨by decide, ngx_create_pool_spec lp64 4096 7 answeringWorld (by decide)⟩

theorem ngx_create_pool_some (pf : Platform) (size log : Nat) (w w1 : World) (pool : Pool)
    (h : ngx_create_pool pf size log w = (some pool, w1)) :
    w.oracle w.calls ≠ 0 ∧
    pool =
      { blocks := [{ addr := w.oracle w.calls,
                     last := w.oracle w.calls + pf.sizeof_ngx_pool_t,
                     end_ := w.oracle w.calls + size,
                     failed := 0 }]
        max := min (sizeSub pf size pf.sizeof_ngx_pool_t) (NGX_MAX_ALLOC_FROM_POOL pf)
        current := 0
        chain := 0
        large := []
        cleanup := []
        log := log } := by
  have hmax : (if sizeSub pf size pf.sizeof_ngx_pool_t < NGX_MAX_ALLOC_FROM_POOL pf
        then sizeSub pf size pf.sizeof_ngx_pool_t else NGX_MAX_ALLOC_FROM_POOL pf) =
      min (sizeSub pf size pf.sizeof_ngx_pool_t) (NGX_MAX_ALLOC_FROM_POOL pf) := by
    split <;> omega
  by_cases h0 : w.oracle w.calls = 0
  · simp [ngx_create_pool, ngx_memalign, h0] at h
  · refine ⟨h0, ?_⟩
    simp only [ngx_create_pool, ngx_memalign, h0, if_false, Prod.mk.injEq, Option.some.injEq] at h
    rw [← h.1, hmax]

/-! ## The bump path -/

theorem ngx_palloc_small (pf : Platform) (fuel : Nat) (pool : Pool) (size : Nat) (w : World)
    (h : size ≤ pool.max) : ngx_palloc pf fuel pool size w = smallAlloc pf true pool size w := by
  cases fuel <;> simp [ngx_palloc, h]

theorem ngx_pnalloc_small (pf : Platform) (fuel : Nat) (pool : Pool) (size : Nat) (w : World)
    (h : size ≤ pool.max) : ngx_pnalloc pf fuel pool size w = smallAlloc pf false pool size w := by
  simp [ngx_pnalloc, h]

theorem ngx_palloc_big (pf : Platform) (fuel : Nat) (pool : Pool) (size : Nat) (w : World)
    (h : pool.max < size) :
    ngx_palloc pf fuel pool size w = ngx_palloc_large pf (nestedPalloc pf fuel) pool size w := by
  have h1 : ¬ size ≤ pool.max := by omega
  cases fuel <;> simp [ngx_palloc, nestedPalloc, h1]

theorem ngx_pnalloc_big (pf : Platform) (fuel : Nat) (pool : Pool) (size : Nat) (w : World)
    (h : pool.max < size) :
    ngx_pnalloc pf fuel pool size w = ngx_palloc_large pf (nestedPalloc pf fuel) pool size w := by
  have h1 : ¬ size ≤ pool.max := by omega
  simp [ngx_pnalloc, h1]

/-- The bump scan on a chain: when some block passes the test, the scan returns
the candidate start of the first one that does and only moves that block's
`last`. -/
theorem bumpScan_first (pf : Platform) (aligned : Bool) (size : Nat) :
    ∀ bs : List Block, (∃ b ∈ bs, fits pf aligned size b) →
      ∃ i b, bs[i]? = some b ∧ fits pf aligned size b ∧
        (∀ j c, j < i → bs[j]? = some c → ¬ fits pf aligned size c) ∧
        bumpScan pf aligned size bs =
          some (candidateStart pf aligned b, bs.set i (bump pf aligned size b)) := by
  intro bs
  induction bs with
  | nil => rintro ⟨b, hb, _⟩; simp at hb
  | cons x xs ih =>
    intro hex
    by_cases hx : fits pf aligned size x
    · refine ⟨0, x, by simp, hx, ?_, ?_⟩
      · intro j c hj; omega
      · simp [bumpScan, hx]
    · have hex1 : ∃ b ∈ xs, fits pf aligned size b := by
        obtain ⟨b, hb, hf⟩ := hex
        rcases List.mem_cons.mp hb with rfl | hb1
        · exact absurd hf hx
        · exact ⟨b, hb1, hf⟩
      obtain ⟨i, b, hib, hfb, hmin, hscan⟩ := ih hex1
      refine ⟨i + 1, b, by simpa using hib, hfb, ?_, ?_⟩
      · intro j c hj hjc
        cases j with
        | zero =>
          simp at hjc
          rw [← hjc]; exact hx
        | succ k =>
          simp at hjc
          exact hmin k c (by omega) hjc
      · simp [bumpScan, hx, hscan]

theorem bumpScan_none (pf : Platform) (aligned : Bool) (size : Nat) :
    ∀ bs : List Block, (∀ b ∈ bs, ¬ fits pf aligned size b) →
      bumpScan pf aligned size bs = none := by
  intro bs
  induction bs with
  | nil => intro _; rfl
  | cons x xs ih =>
    intro h
    have hx : ¬ fits pf aligned size x := h x (List.mem_cons_self _ _)
    have hxs := ih (fun b hb => h b (List.mem_cons_of_mem _ hb))
    simp [bumpScan, hx, hxs]

theorem set_self_of_getElem? {α : Type} :
    ∀ (l : List α) (i : Nat) (a : α), l[i]? = some a → l.set i a = l := by
  intro l
  induction l with
  | nil => intro i a h; simp at h
  | cons x xs ih =>
    intro i a h
    cases i with
    | zero => simp at h; simp [h]
    | succ k => simp at h; simp [ih k a h]

theorem take_append_set_drop {α : Type} (x : α) :
    ∀ (n : Nat) (l : List α) (i : Nat),
      l.take n ++ (l.drop n).set i x = l.set (n + i) x := by
  intro n
  induction n with
  | zero => intro l i; simp
  | succ k ih =>
    intro l i
    cases l with
    | nil => simp
    | cons y ys =>
      have h : k + 1 + i = (k + i) + 1 := by omega
      simp [h, ih ys i]

theorem smallAlloc_first_fit (pf : Platform) (aligned : Bool) (pool : Pool) (size : Nat)
    (w : World) (hroom : ∃ b ∈ pool.blocks.drop pool.current, fits pf aligned size b) :
    ∃ i b, pool.current ≤ i ∧ pool.blocks[i]? = some b ∧ fits pf aligned size b ∧
      (∀ j c, pool.current ≤ j → j < i → pool.blocks[j]? = some c → ¬ fits pf aligned size c) ∧
      smallAlloc pf aligned pool size w =
        .ok (candidateStart pf aligned b,
             { pool with blocks := pool.blocks.set i (bump pf aligned size b) }, w) := by
  have hcur : pool.current < pool.blocks.length := by
    obtain ⟨b, hb, _⟩ := hroom
    by_contra hge
    rw [List.drop_eq_nil_of_le (by omega)] at hb
    simp at hb
  obtain ⟨i, b, hib, hfb, hmin, hscan⟩ := bumpScan_first pf aligned size _ hroom
  refine ⟨pool.current + i, b, by omega, ?_, hfb, ?_, ?_⟩
  · rw [← hib, List.getElem?_drop]
  · intro j c hj1 hj2 hjc
    refine hmin (j - pool.current) c (by omega) ?_
    rw [List.getElem?_drop, ← hjc]
    congr 1; omega
  · simp only [smallAlloc, hcur, if_true, hscan]
    rw [take_append_set_drop]

/-- C2. For every pool and every `size <= pool->max` such that some block at or after
`pool->current` passes the test of the bump loop, `end - candidateStart >= size`
with the difference taken as the code takes it, `(size_t) (p->d.end - m)`, where
`candidateStart` is `last` rounded up to `NGX_ALIGNMENT` for `ngx_palloc`
(`aligned = true`) and `last` itself for `ngx_pnalloc` (`aligned = false`): the
call returns the candidate start of the first such block at or after `current`,
and the pool after the call is the pool before it with that one block's `last` set
to the returned address plus `size`.  Every other block, the order of the blocks,
`current`, `max`, the large registry, the cleanup registry and the external
world are unchanged. -/
theorem bump_alloc_first_fit (pf : Platform) (aligned : Bool) (fuel : Nat) (pool : Pool)
    (size : Nat) (w : World) (hsize : size ≤ pool.max)
    (hroom : ∃ b ∈ pool.blocks.drop pool.current, fits pf aligned size b) :
    ∃ i b, pool.current ≤ i ∧ pool.blocks[i]? = some b ∧ fits pf aligned size b ∧
      (∀ j c, pool.current ≤ j → j < i → pool.blocks[j]? = some c → ¬ fits pf aligned size c) ∧
      (if aligned then ngx_palloc pf fuel pool size w else ngx_pnalloc pf fuel pool size w) =
        .ok (candidateStart pf aligned b,
             { pool with
               blocks := pool.blocks.set i { b with last := candidateStart pf aligned b + size } },
             w) := by
  obtain ⟨i, b, h1, h2, h3, h4, h5⟩ := smallAlloc_first_fit pf aligned pool size w hroom
  refine ⟨i, b, h1, h2, h3, h4, ?_⟩
  cases aligned
  · simpa [ngx_pnalloc_small pf fuel pool size w hsize] using h5
  · simpa [ngx_palloc_small pf fuel pool size w hsize] using h5

/-- Witness of C2: an LP64 pool of two blocks of 1024 bytes whose head block has 4 bytes left;
`ngx_palloc(pool, 16)` is served by the second block. -/
theorem bump_alloc_first_fit_witness :
    (16 : Nat) ≤ pool1024Two.max ∧
    (∃ b ∈ pool1024Two.blocks.drop pool1024Two.current, fits lp64 true 16 b) ∧
    ∃ i b, pool1024Two.current ≤ i ∧ pool1024Two.blocks[i]? = some b ∧ fits lp64 true 16 b ∧
      (∀ j c, pool1024Two.current ≤ j → j < i → pool1024Two.blocks[j]? = some c →
        ¬ fits lp64 true 16 c) ∧
      (if true = true then ngx_palloc lp64 0 pool1024Two 16 answeringWorldGrown
        else ngx_pnalloc lp64 0 pool1024Two 16 answeringWorldGrown) =
        .ok (candidateStart lp64 true b,
             { pool1024Two with
               blocks := pool1024Two.blocks.set i
                 { b with last := candidateStart lp64 true b + 16 } },
             answeringWorldGrown) :=
  ⟨by decide, ⟨⟨131072, 131200, 132096, 0⟩, by decide, by decide⟩,
    bump_alloc_first_fit lp64 true 0 pool1024Two 16 answeringWorldGrown (by decide)
      ⟨⟨131072, 131200, 132096, 0⟩, by decide, by decide⟩⟩

/-- The bump path on a pool whose `current` is its only block, when the block
passes the test. -/
theorem smallAlloc_single (pf : Platform) (aligned : Bool) (pool : Pool) (size : Nat)
    (w : World) (b : Block) (hb : pool.blocks = [b]) (hc : pool.current = 0)
    (hfit : fits pf aligned size b) :
    smallAlloc pf aligned pool size w =
      .ok (candidateStart pf aligned b, { pool with blocks := [bump pf aligned size b] }, w) := by
  simp [smallAlloc, hb, hc, bumpScan, hfit]

theorem dvd_ngx_align_ptr (p a : Nat) : a ∣ ngx_align_ptr p a :=
  Nat.dvd_mul_left _ _

theorem ngx_align_ptr_lt_add (p a : Nat) (ha : 0 < a) : ngx_align_ptr p a < p + a := by
  unfold ngx_align_ptr
  have h1 := Nat.div_add_mod (p + (a - 1)) a
  rw [Nat.mul_comm] at h1
  omega

/-- Two consecutive calls of `ngx_palloc(pool, s)` on a fresh pool at address `p`
whose head block has room for both after the header end is rounded up, `s` being
a multiple of the alignment: the first returns the rounded header end, the second
the address `s` bytes after it. -/
theorem fresh_pool_two_allocs_at (pf : Platform) (size log s p : Nat) (pool : Pool)
    (hpool : pool =
      { blocks := [{ addr := p, last := p + pf.sizeof_ngx_pool_t, end_ := p + size, failed := 0 }]
        max := min (sizeSub pf size pf.sizeof_ngx_pool_t) (NGX_MAX_ALLOC_FROM_POOL pf)
        current := 0, chain := 0, large := [], cleanup := [], log := log })
    (hs : s ≤ pool.max) (halign : 0 < pf.NGX_ALIGNMENT) (hmul : pf.NGX_ALIGNMENT ∣ s)
    (hroom : ngx_align_ptr (p + pf.sizeof_ngx_pool_t) pf.NGX_ALIGNMENT + 2 * s ≤ p + size)
    (hsize : size < pf.sizeMod) (fuel1 fuel2 : Nat) (wa : World) :
    ∃ a1 pool1 a2 pool2,
      ngx_palloc pf fuel1 pool s wa = .ok (a1, pool1, wa) ∧
      ngx_palloc pf fuel2 pool1 s wa = .ok (a2, pool2, wa) ∧
      a1 = ngx_align_ptr (p + pf.sizeof_ngx_pool_t) pf.NGX_ALIGNMENT ∧
      a2 = a1 + s ∧ a2 - a1 = s := by
  have hM : 0 < pf.sizeMod := by omega
  have hle := le_ngx_align_ptr (p + pf.sizeof_ngx_pool_t) pf.NGX_ALIGNMENT halign
  generalize ha1 : ngx_align_ptr (p + pf.sizeof_ngx_pool_t) pf.NGX_ALIGNMENT = a1 at hroom hle
  have hdvd : pf.NGX_ALIGNMENT ∣ a1 := by rw [← ha1]; exact dvd_ngx_align_ptr _ _
  have hc1 : candidateStart pf true ⟨p, p + pf.sizeof_ngx_pool_t, p + size, 0⟩ = a1 := by
    simp [candidateStart, ha1]
  have hfit1 : fits pf true s ⟨p, p + pf.sizeof_ngx_pool_t, p + size, 0⟩ := by
    unfold fits
    rw [hc1]
    show s ≤ sizeSub pf (p + size) a1
    rw [sizeSub_eq_sub pf _ _ hM (by omega) (by omega)]
    omega
  have hc2 : candidateStart pf true ⟨p, a1 + s, p + size, 0⟩ = a1 + s := by
    simp [candidateStart, ngx_align_ptr_of_dvd _ _ halign (Nat.dvd_add hdvd hmul)]
  have hfit2 : fits pf true s ⟨p, a1 + s, p + size, 0⟩ := by
    unfold fits
    rw [hc2]
    show s ≤ sizeSub pf (p + size) (a1 + s)
    rw [sizeSub_eq_sub pf _ _ hM (by omega) (by omega)]
    omega
  have h1 := smallAlloc_single pf true pool s wa _ (by rw [hpool]) (by rw [hpool]) hfit1
  rw [hc1] at h1
  have hb1 : bump pf true s ⟨p, p + pf.sizeof_ngx_pool_t, p + size, 0⟩ =
      ⟨p, a1 + s, p + size, 0⟩ := by
    simp [bump, hc1]
  rw [hb1] at h1
  have h2 := smallAlloc_single pf true { pool with blocks := [⟨p, a1 + s, p + size, 0⟩] } s wa _
    rfl (by rw [hpool]) hfit2
  rw [hc2] at h2
  rw [← ngx_palloc_small pf fuel1 pool s wa hs] at h1
  rw [← ngx_palloc_small pf fuel2 { pool with blocks := [⟨p, a1 + s, p + size, 0⟩] } s wa hs]
    at h2
  exact ⟨_, _, _, _, h1, h2, rfl, rfl, by omega⟩

/-- C4. For a pool fresh from `ngx_create_pool(size, log)` whose head block has room for two
requests of `s` bytes, with `s <= pool->max`, `s` a multiple of `NGX_ALIGNMENT`
and the end of the pool header on an alignment boundary, two consecutive calls
`ngx_palloc(pool, s)` return addresses `a1` and `a2` with `a2 - a1 = s`: the first
is the end of the pool header and the second lies `s` bytes after it.  In
particular for `ngx_create_pool(4096, log)` and `s = 16` the two addresses differ
by 16 bytes, wherever the raw allocator placed the pool, on every platform whose
alignment divides 16, whose pool header leaves room in 4096 bytes and whose page
has more than 16 bytes (an LP64 build is one). -/
theorem fresh_pool_two_allocs :
    (∀ (pf : Platform) (size log s : Nat) (w w1 : World) (pool : Pool),
      ngx_create_pool pf size log w = (some pool, w1) →
      s ≤ pool.max → 0 < pf.NGX_ALIGNMENT → pf.NGX_ALIGNMENT ∣ s →
      pf.NGX_ALIGNMENT ∣ w.oracle w.calls + pf.sizeof_ngx_pool_t →
      pf.sizeof_ngx_pool_t + 2 * s ≤ size → size < pf.sizeMod →
      ∀ (fuel1 fuel2 : Nat) (wa : World),
        ∃ a1 pool1 a2 pool2,
          ngx_palloc pf fuel1 pool s wa = .ok (a1, pool1, wa) ∧
          ngx_palloc pf fuel2 pool1 s wa = .ok (a2, pool2, wa) ∧
          a1 = w.oracle w.calls + pf.sizeof_ngx_pool_t ∧ a2 = a1 + s ∧ a2 - a1 = s) ∧
    (∀ (pf : Platform) (log : Nat) (w w1 : World) (pool : Pool),
      ngx_create_pool pf 4096 log w = (some pool, w1) →
      0 < pf.NGX_ALIGNMENT → pf.NGX_ALIGNMENT ∣ 16 →
      pf.sizeof_ngx_pool_t + pf.NGX_ALIGNMENT + 2 * 16 ≤ 4096 → 4096 < pf.sizeMod →
      16 < pf.ngx_pagesize → pf.ngx_pagesize ≤ pf.sizeMod →
      ∀ (fuel1 fuel2 : Nat) (wa : World),
        ∃ a1 pool1 a2 pool2,
          ngx_palloc pf fuel1 pool 16 wa = .ok (a1, pool1, wa) ∧
          ngx_palloc pf fuel2 pool1 16 wa = .ok (a2, pool2, wa) ∧ a2 - a1 = 16) := by
  constructor
  · intro pf size log s w w1 pool hcreate hs halign hmul hhdr hroom hsize fuel1 fuel2 wa
    obtain ⟨_, hpool⟩ := ngx_create_pool_some pf size log w w1 pool hcreate
    have hal := ngx_align_ptr_of_dvd _ _ halign hhdr
    obtain ⟨a1, pool1, a2, pool2, h1, h2, h3, h4, h5⟩ :=
      fresh_pool_two_allocs_at pf size log s _ pool hpool hs halign hmul
        (by rw [hal]; omega) hsize fuel1 fuel2 wa
    exact ⟨a1, pool1, a2, pool2, h1, h2, by rw [h3, hal], h4, h5⟩
  · intro pf log w w1 pool hcreate halign hmul hroom hsize hpage hpage2 fuel1 fuel2 wa
    obtain ⟨_, hpool⟩ := ngx_create_pool_some pf 4096 log w w1 pool hcreate
    have hlt := ngx_align_ptr_lt_add (w.oracle w.calls + pf.sizeof_ngx_pool_t)
      pf.NGX_ALIGNMENT halign
    have hs : 16 ≤ pool.max := by
      rw [hpool]
      show 16 ≤ min (sizeSub pf 4096 pf.sizeof_ngx_pool_t) (NGX_MAX_ALLOC_FROM_POOL pf)
      unfold NGX_MAX_ALLOC_FROM_POOL
      rw [sizeSub_eq_sub pf 4096 _ (by omega) (by omega) (by omega),
        sizeSub_eq_sub pf _ 1 (by omega) (by omega) (by omega)]
      omega
    obtain ⟨a1, pool1, a2, pool2, h1, h2, _, _, h5⟩ :=
      fresh_pool_two_allocs_at pf 4096 log 16 _ pool hpool hs halign hmul (by omega) hsize
        fuel1 fuel2 wa
    exact ⟨a1, pool1, a2, pool2, h1, h2, h5⟩

/-- Witness of C4: an LP64 build, `ngx_create_pool(4096, 7)` answered with the address
`65536`, then `ngx_palloc(pool, 16)` twice: the addresses are `65616` and `65632`. -/
theorem fresh_pool_two_allocs_witness :
    ngx_create_pool lp64 4096 7 answeringWorld = (some pool4096, answeringWorldAfterCreate 4096) ∧
    (16 : Nat) ≤ pool4096.max ∧ 0 < lp64.NGX_ALIGNMENT ∧ lp64.NGX_ALIGNMENT ∣ 16 ∧
    lp64.NGX_ALIGNMENT ∣ answeringWorld.oracle answeringWorld.calls + lp64.sizeof_ngx_pool_t ∧
    lp64.sizeof_ngx_pool_t + 2 * 16 ≤ 4096 ∧ 4096 < lp64.sizeMod ∧
    lp64.sizeof_ngx_pool_t + lp64.NGX_ALIGNMENT + 2 * 16 ≤ 4096 ∧
    16 < lp64.ngx_pagesize ∧ lp64.ngx_pagesize ≤ lp64.sizeMod ∧
    (∃ a1 pool1 a2 pool2,
      ngx_palloc lp64 0 pool4096 16 (answeringWorldAfterCreate 4096) =
        .ok (a1, pool1, answeringWorldAfterCreate 4096) ∧
      ngx_palloc lp64 0 pool1 16 (answeringWorldAfterCreate 4096) =
        .ok (a2, pool2, answeringWorldAfterCreate 4096) ∧
      a1 = answeringWorld.oracle answeringWorld.calls + lp64.sizeof_ngx_pool_t ∧
      a2 = a1 + 16 ∧ a2 - a1 = 16) ∧
    (∃ a1 pool1 a2 pool2,
      ngx_palloc lp64 0 pool4096 16 (answeringWorldAfterCreate 4096) =
        .ok (a1, pool1, answeringWorldAfterCreate 4096) ∧
      ngx_palloc lp64 0 pool1 16 (answeringWorldAfterCreate 4096) =
        .ok (a2, pool2, answeringWorldAfterCreate 4096) ∧ a2 - a1 = 16) :=
  ⟨rfl, by decide, by decide, by decide, by decide, by decide, by decide, by decide, by decide,
    by decide,
    fresh_pool_two_allocs.1 lp64 4096 7 16 answeringWorld (answeringWorldAfterCreate 4096)
      pool4096 rfl (by decide) (by decide) (by decide) (by decide) (by decide) (by decide) 0 0
      (answeringWorldAfterCreate 4096),
    fresh_pool_two_allocs.2 lp64 7 answeringWorld (answeringWorldAfterCreate 4096)
      pool4096 rfl (by decide) (by decide) (by decide) (by decide) (by decide) (by decide) 0 0
      (answeringWorldAfterCreate 4096)⟩

/-! ## A pool too small for a registry node -/

/-- The large path never returns on a pool whose `max` is below the size of a
registry node and whose registry is empty, when the raw allocator answers every
request: each call needs a node, and the `ngx_palloc` for the node takes the
large path again. -/
theorem large_path_diverges (pf : Platform) (pool : Pool)
    (hmax : pool.max < pf.sizeof_ngx_pool_large_t) (hl : pool.large = []) :
    ∀ (fuel size : Nat) (w : World), (∀ k, w.oracle k ≠ 0) →
      ngx_palloc_large pf (nestedPalloc pf fuel) pool size w = .error .outOfFuel := by
  intro fuel
  induction fuel with
  | zero =>
    intro size w hw
    simp [ngx_palloc_large, nestedPalloc, ngx_alloc, hw, hl, largeScan]
  | succ k ih =>
    intro size w hw
    have hrec := ih pf.sizeof_ngx_pool_large_t (ngx_alloc size w).2 hw
    rw [← ngx_palloc_big pf k pool _ _ hmax] at hrec
    have hrec1 : ngx_palloc pf k pool pf.sizeof_ngx_pool_large_t
        ⟨w.oracle, w.calls + 1, w.trace ++ [Event.alloc size (w.oracle w.calls)]⟩ =
        .error .outOfFuel := hrec
    simp [ngx_palloc_large, nestedPalloc, ngx_alloc, hw, hl, largeScan, hrec1]

/-- Counterexample to C5 as stated: on an LP64 build `ngx_create_pool(80, log)` returns a
pool with `max = 0`; with a raw allocator that answers every request,
`ngx_palloc(pool, 1)` and `ngx_pnalloc(pool, 1)` never return, whatever the
fuel. -/
theorem tiny_pool_alloc_never_returns :
    ngx_create_pool lp64 80 7 answeringWorld = (some pool80, answeringWorldAfterCreate 80) ∧
    (∀ k, (answeringWorldAfterCreate 80).oracle k ≠ 0) ∧
    (∀ fuel, ngx_palloc lp64 fuel pool80 1 (answeringWorldAfterCreate 80) =
      .error .outOfFuel) ∧
    (∀ fuel, ngx_pnalloc lp64 fuel pool80 1 (answeringWorldAfterCreate 80) =
      .error .outOfFuel) := by
  have hw : ∀ k, (answeringWorldAfterCreate 80).oracle k ≠ 0 := by
    intro k; simp [answeringWorldAfterCreate]
  refine ⟨rfl, hw, ?_, ?_⟩
  · intro fuel
    rw [ngx_palloc_big lp64 fuel pool80 1 _ (by decide)]
    exact large_path_diverges lp64 pool80 (by decide) rfl fuel 1 _ hw
  · intro fuel
    rw [ngx_pnalloc_big lp64 fuel pool80 1 _ (by decide)]
    exact large_path_diverges lp64 pool80 (by decide) rfl fuel 1 _ hw

/-! ## The large registry -/

theorem largeScan_mem (p : Nat) :
    ∀ (ls ls1 : List LargeNode) (n : Nat), largeScan p n ls = some ls1 →
      ∃ x ∈ ls1, x.alloc = p := by
  intro ls
  induction ls with
  | nil => intro ls1 n h; simp [largeScan] at h
  | cons l ls ih =>
    intro ls1 n h
    unfold largeScan at h
    split at h
    · simp only [Option.some.injEq] at h
      exact ⟨{ l with alloc := p }, by rw [← h]; simp, rfl⟩
    · split at h
      · simp at h
      · split at h
        · rename_i ls2 h2
          simp only [Option.some.injEq] at h
          obtain ⟨x, hx, hxa⟩ := ih ls2 (n + 1) h2
          exact ⟨x, by rw [← h]; exact List.mem_cons_of_mem _ hx, hxa⟩
        · simp at h

/-- What a call of `ngx_palloc_large` that returns a non-null pointer returned,
whatever `ngx_palloc` it uses for the node. -/
theorem ngx_palloc_large_ok (pf : Platform) (palloc : Pool → Nat → World → Res) (pool : Pool)
    (size : Nat) (w : World) (a : Nat) (pool1 : Pool) (w1 : World)
    (hok : ngx_palloc_large pf palloc pool size w = .ok (a, pool1, w1)) (ha : a ≠ 0) :
    a = (ngx_alloc size w).1 ∧ ∃ n ∈ pool1.large, n.alloc = a := by
  unfold ngx_palloc_large at hok
  simp only at hok
  split at hok
  · simp only [Except.ok.injEq, Prod.mk.injEq] at hok
    exact absurd hok.1.symm ha
  · split at hok
    · rename_i ls hls
      simp only [Except.ok.injEq, Prod.mk.injEq] at hok
      obtain ⟨x, hx, hxa⟩ := largeScan_mem _ _ _ _ hls
      refine ⟨hok.1.symm, x, ?_, by rw [hxa, hok.1]⟩
      rw [← hok.2.1]; exact hx
    · split at hok
      · simp at hok
      · split at hok
        · simp only [Except.ok.injEq, Prod.mk.injEq] at hok
          exact absurd hok.1.symm ha
        · simp only [Except.ok.injEq, Prod.mk.injEq] at hok
          rename_i large _ _ _ _
          refine ⟨hok.1.symm, ⟨large, (ngx_alloc size w).1⟩, ?_, hok.1⟩
          rw [← hok.2.1]; simp

/-- C6. For every pool and every `size > pool->max`, whatever the blocks hold: when
`ngx_palloc(pool, size)` returns a non-null address, that address is the pointer
the raw allocator returned to the request `ngx_alloc(size)` made by the call,
and after the call a node of the large registry has it as its `alloc`. -/
theorem large_alloc_tracked (pf : Platform) (fuel : Nat) (pool : Pool) (size : Nat)
    (w : World) (a : Nat) (pool1 : Pool) (w1 : World) (hsize : pool.max < size)
    (hok : ngx_palloc pf fuel pool size w = .ok (a, pool1, w1)) (ha : a ≠ 0) :
    a = (ngx_alloc size w).1 ∧ ∃ n ∈ pool1.large, n.alloc = a := by
  rw [ngx_palloc_big pf fuel pool size w hsize] at hok
  exact ngx_palloc_large_ok pf _ pool size w a pool1 w1 hok ha

/-- Witness of C6: the LP64 pool of 4096 bytes and a request of 5000 bytes, answered by the
raw allocator with `131072`. -/
theorem large_alloc_tracked_witness :
    pool4096.max < 5000 ∧
    ngx_palloc lp64 1 pool4096 5000 (answeringWorldAfterCreate 4096) =
      .ok (131072, pool4096Large, answeringWorldAfterLarge) ∧
    (131072 : Nat) ≠ 0 ∧
    131072 = (ngx_alloc 5000 (answeringWorldAfterCreate 4096)).1 ∧
    ∃ n ∈ pool4096Large.large, n.alloc = 131072 :=
  ⟨by decide, rfl, by decide,
    large_alloc_tracked lp64 1 pool4096 5000 (answeringWorldAfterCreate 4096) 131072
      pool4096Large answeringWorldAfterLarge (by decide) rfl (by decide)⟩

/-! ## `ngx_pfree` -/

/-- The scan of `ngx_pfree`: either it clears the first slot holding `p`, or no
slot holds `p`. -/
theorem pfreeScan_spec (p : Nat) :
    ∀ ls : List LargeNode,
      (∃ i n, ls[i]? = some n ∧ n.alloc = p ∧
          (∀ j m, j < i → ls[j]? = some m → m.alloc ≠ p) ∧
          pfreeScan p ls = some (ls.set i { n with alloc := 0 })) ∨
      ((∀ n ∈ ls, n.alloc ≠ p) ∧ pfreeScan p ls = none) := by
  intro ls
  induction ls with
  | nil => right; simp [pfreeScan]
  | cons l ls ih =>
    by_cases hl : p = l.alloc
    · left
      refine ⟨0, l, by simp, hl.symm, ?_, by simp [pfreeScan, hl]⟩
      intro j m hj; omega
    · rcases ih with ⟨i, n, hin, hn, hmin, hscan⟩ | ⟨hall, hscan⟩
      · left
        refine ⟨i + 1, n, by simpa using hin, hn, ?_, by simp [pfreeScan, hl, hscan]⟩
        intro j m hj hjm
        cases j with
        | zero =>
          simp at hjm
          rw [← hjm]; exact fun h => hl h.symm
        | succ k =>
          simp at hjm
          exact hmin k m (by omega) hjm
      · right
        refine ⟨?_, by simp [pfreeScan, hl, hscan]⟩
        intro n hn
        rcases List.mem_cons.mp hn with rfl | hn1
        · exact fun h => hl h.symm
        · exact hall n hn1

/-- C8. For every pool and address `p`, `ngx_pfree(pool, p)` either returns `NGX_OK`, and
then the pool after the call is the pool before it with the `alloc` of the first
registry node (from the head) holding `p` set to `NULL`, the node staying where
it is; or it returns `NGX_DECLINED`, no node holds `p`, and the pool is unchanged.
In both cases the registry has the same nodes at the same addresses in the same
order, and the blocks, `current`, `max` and the cleanup registry are
unchanged. -/
theorem ngx_pfree_frame (pool : Pool) (p : Nat) (w : World) :
    (((ngx_pfree pool p w).1 = NGX_OK ∧
        ∃ i n, pool.large[i]? = some n ∧ n.alloc = p ∧
          (∀ j m, j < i → pool.large[j]? = some m → m.alloc ≠ p) ∧
          (ngx_pfree pool p w).2.1 =
            { pool with large := pool.large.set i { n with alloc := 0 } }) ∨
      ((ngx_pfree pool p w).1 = NGX_DECLINED ∧ (∀ n ∈ pool.large, n.alloc ≠ p) ∧
        (ngx_pfree pool p w).2.1 = pool)) ∧
    (ngx_pfree pool p w).2.1.large.length = pool.large.length ∧
    (ngx_pfree pool p w).2.1.large.map LargeNode.addr = pool.large.map LargeNode.addr ∧
    (ngx_pfree pool p w).2.1.blocks = pool.blocks ∧
    (ngx_pfree pool p w).2.1.current = pool.current ∧
    (ngx_pfree pool p w).2.1.max = pool.max ∧
    (ngx_pfree pool p w).2.1.cleanup = pool.cleanup := by
  rcases pfreeScan_spec p pool.large with ⟨i, n, hin, hn, hmin, hscan⟩ | ⟨hall, hscan⟩
  · have hres : ngx_pfree pool p w =
        (NGX_OK, { pool with large := pool.large.set i { n with alloc := 0 } }, ngx_free p w) := by
      simp [ngx_pfree, hscan]
    rw [hres]
    refine ⟨Or.inl ⟨rfl, i, n, hin, hn, hmin, rfl⟩, by simp, ?_, rfl, rfl, rfl, rfl⟩
    show (pool.large.set i { n with alloc := 0 }).map LargeNode.addr = _
    rw [List.map_set]
    have hi : (pool.large.map LargeNode.addr)[i]? = some n.addr := by simp [hin]
    exact set_self_of_getElem? _ _ _ hi
  · have hres : ngx_pfree pool p w = (NGX_DECLINED, pool, w) := by
      simp [ngx_pfree, hscan]
    rw [hres]
    exact ⟨Or.inr ⟨rfl, hall, rfl⟩, rfl, rfl, rfl, rfl, rfl, rfl⟩

theorem pfreeScan_none_of_not_mem (p : Nat) :
    ∀ ls : List LargeNode, (∀ n ∈ ls, n.alloc ≠ p) → pfreeScan p ls = none := by
  intro ls h
  rcases pfreeScan_spec p ls with ⟨i, n, hin, hn, _, _⟩ | ⟨_, hscan⟩
  · exact absurd hn (h n (List.getElem?_mem hin))
  · exact hscan

/-- After the scan of `ngx_pfree` cleared a slot holding a non-null `p` that no
other slot holds, no slot holds `p`. -/
theorem pfreeScan_twice (p : Nat) (hp : p ≠ 0) :
    ∀ ls ls1 : List LargeNode, (ls.map LargeNode.alloc).count p ≤ 1 →
      pfreeScan p ls = some ls1 → pfreeScan p ls1 = none := by
  intro ls
  induction ls with
  | nil => intro ls1 _ h; simp [pfreeScan] at h
  | cons l ls ih =>
    intro ls1 hcount h
    by_cases hl : p = l.alloc
    · simp only [pfreeScan, hl, if_true, Option.some.injEq] at h
      rw [← h]
      have hnot : ∀ n ∈ ls, n.alloc ≠ p := by
        intro n hn hnp
        have h1 : 0 < (ls.map LargeNode.alloc).count p :=
          List.count_pos_iff.mpr (List.mem_map.mpr ⟨n, hn, hnp⟩)
        rw [List.map_cons, ← hl, List.count_cons_self] at hcount
        omega
      have h2 := pfreeScan_none_of_not_mem p ls hnot
      have h3 : ¬ p = 0 := hp
      simp [pfreeScan, h3, h2]
    · have hcount1 : (ls.map LargeNode.alloc).count p ≤ 1 := by
        rw [List.map_cons, List.count_cons_of_ne hl] at hcount
        exact hcount
      unfold pfreeScan at h
      simp only [hl, if_false] at h
      split at h
      · rename_i ls2 h2
        simp only [Option.some.injEq] at h
        rw [← h]
        simp [pfreeScan, hl, ih ls2 hcount1 h2]
      · simp at h

/-- C7, amended. For every pool and every non-null address `p` that at most one node of the
large registry holds: when `ngx_pfree(pool, p)` returns `NGX_OK`, an immediately
following `ngx_pfree(pool, p)` returns `NGX_DECLINED`. -/
theorem ngx_pfree_twice (pool : Pool) (p : Nat) (w : World) (hp : p ≠ 0)
    (hone : (pool.large.map LargeNode.alloc).count p ≤ 1)
    (hfound : (ngx_pfree pool p w).1 = NGX_OK) :
    (ngx_pfree (ngx_pfree pool p w).2.1 p (ngx_pfree pool p w).2.2).1 = NGX_DECLINED := by
  cases hscan : pfreeScan p pool.large with
  | none =>
    simp [ngx_pfree, hscan, NGX_OK, NGX_DECLINED] at hfound
  | some ls =>
    have h2 := pfreeScan_twice p hp pool.large ls hone hscan
    simp [ngx_pfree, hscan, h2]

/-- Witness of C7, amended: the LP64 pool holding the payload `131072`. -/
theorem ngx_pfree_twice_witness :
    (131072 : Nat) ≠ 0 ∧
    (pool4096Large.large.map LargeNode.alloc).count 131072 ≤ 1 ∧
    (ngx_pfree pool4096Large 131072 answeringWorldAfterLarge).1 = NGX_OK ∧
    (ngx_pfree (ngx_pfree pool4096Large 131072 answeringWorldAfterLarge).2.1 131072
      (ngx_pfree pool4096Large 131072 answeringWorldAfterLarge).2.2).1 = NGX_DECLINED :=
  ⟨by decide, by decide, by decide,
    ngx_pfree_twice pool4096Large 131072 answeringWorldAfterLarge (by decide) (by decide)
      (by decide)⟩

/-- Counterexample to C7 as stated: the LP64 pool of 4096 bytes after `ngx_palloc(pool, 5000)`
and `ngx_pfree` of the returned address holds one vacant slot; on that pool
`ngx_pfree(pool, NULL)` returns `NGX_OK`, and so does the `ngx_pfree(pool, NULL)`
that follows it.  Likewise, on a pool whose registry holds the address `131072`
in two nodes, `ngx_pfree(pool, 131072)` returns `NGX_OK` twice in a row. -/
theorem ngx_pfree_null_twice :
    ngx_palloc lp64 1 pool4096 5000 (answeringWorldAfterCreate 4096) =
      .ok (131072, pool4096Large, answeringWorldAfterLarge) ∧
    (ngx_pfree pool4096Large 131072 answeringWorldAfterLarge).1 = NGX_OK ∧
    (ngx_pfree pool4096Large 131072 answeringWorldAfterLarge).2.1 = pool4096Vacant ∧
    (ngx_pfree pool4096Vacant 0 (ngx_free 131072 answeringWorldAfterLarge)).1 = NGX_OK ∧
    (ngx_pfree (ngx_pfree pool4096Vacant 0 (ngx_free 131072 answeringWorldAfterLarge)).2.1 0
      (ngx_pfree pool4096Vacant 0 (ngx_free 131072 answeringWorldAfterLarge)).2.2).1 = NGX_OK ∧
    (ngx_pfree { pool4096Large with large := [⟨65616, 131072⟩, ⟨65632, 131072⟩] } 131072
      answeringWorldAfterLarge).1 = NGX_OK ∧
    (ngx_pfree
      (ngx_pfree { pool4096Large with large := [⟨65616, 131072⟩, ⟨65632, 131072⟩] } 131072
        answeringWorldAfterLarge).2.1 131072
      (ngx_pfree { pool4096Large with large := [⟨65616, 131072⟩, ⟨65632, 131072⟩] } 131072
        answeringWorldAfterLarge).2.2).1 = NGX_OK ∧
    NGX_OK ≠ NGX_DECLINED := by
  refine ⟨rfl, by decide, by decide, by decide, by decide, by decide, by decide, by decide⟩

/-! ## Relations that hold across every operation -/

theorem ngx_palloc_large_rel {pf : Platform} {R : Pool → Pool → Prop} (hR : StepRel pf R)
    (palloc : Pool → Nat → World → Res)
    (hp : ∀ pool size w a pool1 w1, palloc pool size w = .ok (a, pool1, w1) → R pool pool1)
    (pool : Pool) (size : Nat) (w : World) (a : Nat) (pool1 : Pool) (w1 : World)
    (h : ngx_palloc_large pf palloc pool size w = .ok (a, pool1, w1)) : R pool pool1 := by
  unfold ngx_palloc_large at h
  simp only at h
  split at h
  · simp only [Except.ok.injEq, Prod.mk.injEq] at h
    rw [← h.2.1]; exact hR.refl pool
  · split at h
    · simp only [Except.ok.injEq, Prod.mk.injEq] at h
      rw [← h.2.1]; exact hR.large pool _
    · split at h
      · simp at h
      · rename_i l pool2 w2 hn
        have h2 := hp _ _ _ _ _ _ hn
        split at h
        · simp only [Except.ok.injEq, Prod.mk.injEq] at h
          rw [← h.2.1]; exact h2
        · simp only [Except.ok.injEq, Prod.mk.injEq] at h
          rw [← h.2.1]; exact hR.trans _ _ _ h2 (hR.large pool2 _)

theorem ngx_palloc_rel {pf : Platform} {R : Pool → Pool → Prop} (hR : StepRel pf R) :
    ∀ (fuel : Nat) (pool : Pool) (size : Nat) (w : World) (a : Nat) (pool1 : Pool) (w1 : World),
      ngx_palloc pf fuel pool size w = .ok (a, pool1, w1) → R pool pool1 := by
  intro fuel
  induction fuel with
  | zero =>
    intro pool size w a pool1 w1 h
    by_cases hs : size ≤ pool.max
    · rw [ngx_palloc_small pf 0 pool size w hs] at h
      exact hR.small true pool size w a pool1 w1 h
    · rw [ngx_palloc_big pf 0 pool size w (by omega)] at h
      refine ngx_palloc_large_rel hR _ ?_ pool size w a pool1 w1 h
      intro pool size w a pool1 w1 h0
      simp [nestedPalloc] at h0
  | succ k ih =>
    intro pool size w a pool1 w1 h
    by_cases hs : size ≤ pool.max
    · rw [ngx_palloc_small pf _ pool size w hs] at h
      exact hR.small true pool size w a pool1 w1 h
    · rw [ngx_palloc_big pf _ pool size w (by omega)] at h
      exact ngx_palloc_large_rel hR _ ih pool size w a pool1 w1 h

theorem nestedPalloc_rel {pf : Platform} {R : Pool → Pool → Prop} (hR : StepRel pf R)
    (fuel : Nat) (pool : Pool) (size : Nat) (w : World) (a : Nat) (pool1 : Pool) (w1 : World)
    (h : nestedPalloc pf fuel pool size w = .ok (a, pool1, w1)) : R pool pool1 := by
  cases fuel with
  | zero => simp [nestedPalloc] at h
  | succ k => exact ngx_palloc_rel hR k pool size w a pool1 w1 h

theorem ngx_pnalloc_rel {pf : Platform} {R : Pool → Pool → Prop} (hR : StepRel pf R)
    (fuel : Nat) (pool : Pool) (size : Nat) (w : World) (a : Nat) (pool1 : Pool) (w1 : World)
    (h : ngx_pnalloc pf fuel pool size w = .ok (a, pool1, w1)) : R pool pool1 := by
  by_cases hs : size ≤ pool.max
  · rw [ngx_pnalloc_small pf fuel pool size w hs] at h
    exact hR.small false pool size w a pool1 w1 h
  · rw [ngx_pnalloc_big pf fuel pool size w (by omega)] at h
    exact ngx_palloc_large_rel hR _ (nestedPalloc_rel hR fuel) pool size w a pool1 w1 h

theorem ngx_pmemalign_rel {pf : Platform} {R : Pool → Pool → Prop} (hR : StepRel pf R)
    (fuel : Nat) (pool : Pool) (size alignment : Nat) (w : World) (a : Nat) (pool1 : Pool)
    (w1 : World) (h : ngx_pmemalign pf fuel pool size alignment w = .ok (a, pool1, w1)) :
    R pool pool1 := by
  unfold ngx_pmemalign at h
  simp only at h
  split at h
  · simp only [Except.ok.injEq, Prod.mk.injEq] at h
    rw [← h.2.1]; exact hR.refl pool
  · split at h
    · simp at h
    · rename_i l pool2 w2 hn
      have h2 := ngx_palloc_rel hR _ _ _ _ _ _ _ hn
      split at h
      · simp only [Except.ok.injEq, Prod.mk.injEq] at h
        rw [← h.2.1]; exact h2
      · simp only [Except.ok.injEq, Prod.mk.injEq] at h
        rw [← h.2.1]; exact hR.trans _ _ _ h2 (hR.large pool2 _)

theorem ngx_pool_cleanup_add_rel {pf : Platform} {R : Pool → Pool → Prop} (hR : StepRel pf R)
    (fuel : Nat) (pool : Pool) (size : Nat) (w : World) (c : Nat) (pool1 : Pool) (w1 : World)
    (h : ngx_pool_cleanup_add pf fuel pool size w = .ok (c, pool1, w1)) : R pool pool1 := by
  unfold ngx_pool_cleanup_add at h
  split at h
  · simp at h
  · rename_i c1 pool2 w2 hc
    have h2 := ngx_palloc_rel hR _ _ _ _ _ _ _ hc
    split at h
    · simp only [Except.ok.injEq, Prod.mk.injEq] at h
      rw [← h.2.1]; exact h2
    · split at h
      · split at h
        · simp at h
        · rename_i d pool3 w3 hd
          have h3 := ngx_palloc_rel hR _ _ _ _ _ _ _ hd
          have h23 := hR.trans _ _ _ h2 h3
          split at h
          · simp only [Except.ok.injEq, Prod.mk.injEq] at h
            rw [← h.2.1]; exact h23
          · simp only [Except.ok.injEq, Prod.mk.injEq] at h
            rw [← h.2.1]; exact hR.trans _ _ _ h23 (hR.cleanup pool3 _)
      · simp only [Except.ok.injEq, Prod.mk.injEq] at h
        rw [← h.2.1]; exact hR.trans _ _ _ h2 (hR.cleanup pool2 _)

theorem ngx_pfree_rel {pf : Platform} {R : Pool → Pool → Prop} (hR : StepRel pf R)
    (pool : Pool) (p : Nat) (w : World) : R pool (ngx_pfree pool p w).2.1 := by
  unfold ngx_pfree
  split
  · exact hR.large pool _
  · exact hR.refl pool

theorem ngx_pool_run_cleanup_file_rel {pf : Platform} {R : Pool → Pool → Prop}
    (hR : StepRel pf R) (fdAt : Nat → Int) (pool : Pool) (fd : Int) (w : World) (pool1 : Pool)
    (w1 : World) (h : ngx_pool_run_cleanup_file pf fdAt pool fd w = .ok (pool1, w1)) :
    R pool pool1 := by
  unfold ngx_pool_run_cleanup_file at h
  split at h
  · simp at h
  · simp only [Except.ok.injEq, Prod.mk.injEq] at h
    rw [← h.1]; exact hR.cleanup pool _

/-- A relation that holds across the bump path and the reset holds between a pool
and every state reachable from it. -/
theorem Reachable.rel {pf : Platform} {R : Pool → Pool → Prop} (hR : StepRel pf R)
    {pool0 pool : Pool} (h : Reachable pf pool0 pool) : R pool0 pool := by
  induction h with
  | init => exact hR.refl pool0
  | palloc _ hop ih => exact hR.trans _ _ _ ih (ngx_palloc_rel hR _ _ _ _ _ _ _ hop)
  | pnalloc _ hop ih => exact hR.trans _ _ _ ih (ngx_pnalloc_rel hR _ _ _ _ _ _ _ hop)
  | pmemalign _ hop ih => exact hR.trans _ _ _ ih (ngx_pmemalign_rel hR _ _ _ _ _ _ _ _ hop)
  | pfree p w _ ih => exact hR.trans _ _ _ ih (ngx_pfree_rel hR _ p w)
  | cleanup_add _ hop ih =>
    exact hR.trans _ _ _ ih (ngx_pool_cleanup_add_rel hR _ _ _ _ _ _ _ hop)
  | set_handler c h _ ih => exact hR.trans _ _ _ ih (hR.cleanup _ _)
  | run_cleanup_file _ hop ih =>
    exact hR.trans _ _ _ ih (ngx_pool_run_cleanup_file_rel hR _ _ _ _ _ _ hop)
  | reset w _ ih => exact hR.trans _ _ _ ih (hR.reset _ w)

/-! ## What the operations leave in place -/

theorem Pool.ExtendedBy.refl (pool : Pool) : pool.ExtendedBy pool :=
  ⟨rfl, [], by simp⟩

theorem Pool.ExtendedBy.trans {p1 p2 p3 : Pool} (h12 : p1.ExtendedBy p2)
    (h23 : p2.ExtendedBy p3) : p1.ExtendedBy p3 := by
  obtain ⟨hm1, e1, he1⟩ := h12
  obtain ⟨hm2, e2, he2⟩ := h23
  exact ⟨by rw [hm2, hm1], e1 ++ e2, by rw [he2, he1, List.append_assoc]⟩

theorem bumpScan_extent (pf : Platform) (aligned : Bool) (size : Nat) :
    ∀ (bs bs1 : List Block) (m : Nat), bumpScan pf aligned size bs = some (m, bs1) →
      bs1.map Block.extent = bs.map Block.extent := by
  intro bs
  induction bs with
  | nil => intro bs1 m h; simp [bumpScan] at h
  | cons b bs ih =>
    intro bs1 m h
    unfold bumpScan at h
    split at h
    · simp only [Option.some.injEq, Prod.mk.injEq] at h
      rw [← h.2]
      simp [bump, Block.extent]
    · split at h
      · rename_i m2 bs2 h2
        simp only [Option.some.injEq, Prod.mk.injEq] at h
        rw [← h.2]
        simp [ih bs2 m2 h2]
      · simp at h

theorem failScan_extent :
    ∀ (bs : List Block) (i cur : Nat),
      (failScan i cur bs).2.map Block.extent = bs.map Block.extent := by
  intro bs
  induction bs with
  | nil => intro i cur; simp [failScan]
  | cons b bs ih =>
    intro i cur
    cases bs with
    | nil => simp [failScan]
    | cons b2 bs2 =>
      simp only [failScan, List.map_cons]
      rw [ih]
      simp [Block.extent]

theorem ngx_palloc_block_extends (pf : Platform) (pool : Pool) (size : Nat) (w : World)
    (a : Nat) (pool1 : Pool) (w1 : World)
    (h : ngx_palloc_block pf pool size w = .ok (a, pool1, w1)) : pool.ExtendedBy pool1 := by
  unfold ngx_palloc_block at h
  split at h
  · simp at h
  · simp only at h
    split at h
    · simp only [Except.ok.injEq, Prod.mk.injEq] at h
      rw [← h.2.1]; exact Pool.ExtendedBy.refl pool
    · split at h
      · simp only [Except.ok.injEq, Prod.mk.injEq] at h
        rw [← h.2.1]
        refine ⟨rfl, ?_⟩
        simp only [List.map_append, failScan_extent, List.map_cons, List.map_nil]
        rw [← List.map_append, List.take_append_drop]
        exact ⟨_, rfl⟩
      · simp at h

theorem smallAlloc_extends (pf : Platform) (aligned : Bool) (pool : Pool) (size : Nat)
    (w : World) (a : Nat) (pool1 : Pool) (w1 : World)
    (h : smallAlloc pf aligned pool size w = .ok (a, pool1, w1)) : pool.ExtendedBy pool1 := by
  unfold smallAlloc at h
  split at h
  · split at h
    · rename_i m bs hscan
      simp only [Except.ok.injEq, Prod.mk.injEq] at h
      rw [← h.2.1]
      refine ⟨rfl, [], ?_⟩
      simp only [List.map_append, bumpScan_extent pf aligned size _ _ _ hscan, List.append_nil]
      rw [← List.map_append, List.take_append_drop]
    · exact ngx_palloc_block_extends pf pool size w a pool1 w1 h
  · simp at h

theorem extendedBy_stepRel (pf : Platform) : StepRel pf Pool.ExtendedBy where
  refl := Pool.ExtendedBy.refl
  trans := fun _ _ _ h12 h23 => h12.trans h23
  small := smallAlloc_extends pf
  large := fun _ _ => ⟨rfl, [], by simp⟩
  cleanup := fun _ _ => ⟨rfl, [], by simp⟩
  reset := fun _ _ => ⟨rfl, [], by simp [ngx_reset_pool, Block.extent, Function.comp_def]⟩

/-- Every pool state reachable from `pool0` has the `max` of `pool0` and its
blocks at the head of the chain, at the same addresses with the same ends. -/
theorem Reachable.extends {pf : Platform} {pool0 pool : Pool}
    (h : Reachable pf pool0 pool) : pool0.ExtendedBy pool :=
  h.rel (extendedBy_stepRel pf)

/-! ## Validity of the pointers of a pool -/

theorem le_candidateStart (pf : Platform) (aligned : Bool) (b : Block)
    (halign : 0 < pf.NGX_ALIGNMENT) : b.last ≤ candidateStart pf aligned b := by
  unfold candidateStart
  cases aligned
  · simp
  · simpa using le_ngx_align_ptr b.last pf.NGX_ALIGNMENT halign

theorem bumpScan_pos (pf : Platform) (aligned : Bool) (size : Nat)
    (halign : 0 < pf.NGX_ALIGNMENT) :
    ∀ (bs bs1 : List Block) (m : Nat), (∀ b ∈ bs, 0 < b.addr ∧ 0 < b.last) →
      bumpScan pf aligned size bs = some (m, bs1) →
      0 < m ∧ bs1.length = bs.length ∧ ∀ b ∈ bs1, 0 < b.addr ∧ 0 < b.last := by
  intro bs
  induction bs with
  | nil => intro bs1 m _ h; simp [bumpScan] at h
  | cons b bs ih =>
    intro bs1 m hpos h
    have hb := hpos b (List.mem_cons_self _ _)
    have hc := le_candidateStart pf aligned b halign
    unfold bumpScan at h
    split at h
    · simp only [Option.some.injEq, Prod.mk.injEq] at h
      rw [← h.1, ← h.2]
      refine ⟨by omega, by simp, ?_⟩
      intro c hcm
      rcases List.mem_cons.mp hcm with rfl | hcm1
      · exact ⟨hb.1, by show 0 < candidateStart pf aligned b + size; omega⟩
      · exact hpos c (List.mem_cons_of_mem _ hcm1)
    · split at h
      · rename_i m2 bs2 h2
        simp only [Option.some.injEq, Prod.mk.injEq] at h
        obtain ⟨hm, hlen, hall⟩ := ih bs2 m2 (fun c hc => hpos c (List.mem_cons_of_mem _ hc)) h2
        rw [← h.1, ← h.2]
        refine ⟨hm, by simp [hlen], ?_⟩
        intro c hcm
        rcases List.mem_cons.mp hcm with rfl | hcm1
        · exact hb
        · exact hall c hcm1
      · simp at h

theorem failScan_pos :
    ∀ (bs : List Block) (i cur : Nat), (∀ b ∈ bs, 0 < b.addr ∧ 0 < b.last) →
      (failScan i cur bs).2.length = bs.length ∧
      (∀ b ∈ (failScan i cur bs).2, 0 < b.addr ∧ 0 < b.last) ∧
      (bs ≠ [] → cur < i + bs.length → (failScan i cur bs).1 < i + bs.length) := by
  intro bs
  induction bs with
  | nil => intro i cur _; simp [failScan]
  | cons b bs ih =>
    intro i cur hpos
    have hb := hpos b (List.mem_cons_self _ _)
    cases bs with
    | nil =>
      refine ⟨by simp [failScan], ?_, ?_⟩
      · intro c hc
        simp [failScan] at hc
        rw [hc]; exact hb
      · intro _ h; simpa [failScan] using h
    | cons b2 bs2 =>
      obtain ⟨hlen, hall, hcur⟩ := ih (i + 1) (if b.failed > 4 then i + 1 else cur)
        (fun c hc => hpos c (List.mem_cons_of_mem _ hc))
      refine ⟨by simp [failScan, hlen], ?_, ?_⟩
      · intro c hc
        simp only [failScan, List.mem_cons] at hc
        rcases hc with rfl | hc1
        · exact hb
        · exact hall c hc1
      · intro _ h
        have h2 := hcur (by simp) (by
          simp only [List.length_cons] at h ⊢
          split <;> omega)
        simp only [failScan, List.length_cons] at h2 ⊢
        omega

theorem ngx_palloc_block_valid (pf : Platform) (halign : 0 < pf.NGX_ALIGNMENT) (pool : Pool)
    (size : Nat) (w : World) (a : Nat) (pool1 : Pool) (w1 : World)
    (h : ngx_palloc_block pf pool size w = .ok (a, pool1, w1)) (hv : pool.Valid) :
    pool1.Valid := by
  unfold ngx_palloc_block at h
  split at h
  · simp at h
  · simp only at h
    split at h
    · simp only [Except.ok.injEq, Prod.mk.injEq] at h
      rw [← h.2.1]; exact hv
    · rename_i hm
      split at h
      · simp only [Except.ok.injEq, Prod.mk.injEq] at h
        rw [← h.2.1]
        obtain ⟨hcur, hpos⟩ := hv
        obtain ⟨hlen, hall, hc⟩ := failScan_pos (pool.blocks.drop pool.current) pool.current
          pool.current (fun b hb => hpos b (List.mem_of_mem_drop hb))
        have hne : pool.blocks.drop pool.current ≠ [] := by
          intro h0
          have := congrArg List.length h0
          simp at this
          omega
        have hc1 := hc hne (by simp; omega)
        simp only [List.length_drop] at hc1 hlen
        constructor
        · simp only [List.length_append, List.length_take, hlen, List.length_singleton]
          omega
        · intro b hb
          simp only [List.mem_append, List.mem_singleton] at hb
          rcases hb with (hb | hb) | hb
          · exact hpos b (List.mem_of_mem_take hb)
          · exact hall b hb
          · rw [hb]
            refine ⟨Nat.pos_of_ne_zero hm, ?_⟩
            show 0 < ngx_align_ptr _ _ + size
            exact Nat.lt_of_lt_of_le
              (Nat.lt_of_lt_of_le
                (Nat.lt_of_lt_of_le (Nat.pos_of_ne_zero hm) (Nat.le_add_right _ _))
                (le_ngx_align_ptr _ _ halign))
              (Nat.le_add_right _ _)
      · simp at h

theorem smallAlloc_valid (pf : Platform) (halign : 0 < pf.NGX_ALIGNMENT) (aligned : Bool)
    (pool : Pool) (size : Nat) (w : World) (a : Nat) (pool1 : Pool) (w1 : World)
    (h : smallAlloc pf aligned pool size w = .ok (a, pool1, w1)) (hv : pool.Valid) :
    pool1.Valid := by
  unfold smallAlloc at h
  split at h
  · split at h
    · rename_i m bs hscan
      simp only [Except.ok.injEq, Prod.mk.injEq] at h
      rw [← h.2.1]
      obtain ⟨hcur, hpos⟩ := hv
      obtain ⟨_, hlen, hall⟩ := bumpScan_pos pf aligned size halign _ _ _
        (fun b hb => hpos b (List.mem_of_mem_drop hb)) hscan
      constructor
      · simp only [List.length_append, List.length_take, hlen, List.length_drop]
        omega
      · intro b hb
        simp only [List.mem_append] at hb
        rcases hb with hb | hb
        · exact hpos b (List.mem_of_mem_take hb)
        · exact hall b hb
    · exact ngx_palloc_block_valid pf halign pool size w a pool1 w1 h hv
  · simp at h

theorem valid_stepRel (pf : Platform) (halign : 0 < pf.NGX_ALIGNMENT) :
    StepRel pf fun pool pool1 => pool.Valid → pool1.Valid where
  refl := fun _ h => h
  trans := fun _ _ _ h12 h23 h => h23 (h12 h)
  small := fun aligned pool size w a pool1 w1 h hv =>
    smallAlloc_valid pf halign aligned pool size w a pool1 w1 h hv
  large := fun _ _ h => h
  cleanup := fun _ _ h => h
  reset := fun pool w h => by
    obtain ⟨hcur, hpos⟩ := h
    refine ⟨by simpa [ngx_reset_pool] using hcur, ?_⟩
    intro b hb
    simp only [ngx_reset_pool, List.mem_map] at hb
    obtain ⟨c, hc, rfl⟩ := hb
    have := hpos c hc
    exact ⟨this.1, by show 0 < c.addr + pf.sizeof_ngx_pool_t; omega⟩

/-- In every state reachable from a pool fresh from `ngx_create_pool`, `current`
is a block of the chain and no block has a null address or a null `last`. -/
theorem Reachable.valid {pf : Platform} (halign : 0 < pf.NGX_ALIGNMENT) {size log : Nat}
    {w w1 : World} {pool0 pool : Pool}
    (hcreate : ngx_create_pool pf size log w = (some pool0, w1))
    (h : Reachable pf pool0 pool) : pool.Valid := by
  obtain ⟨hp0, hpool⟩ := ngx_create_pool_some pf size log w w1 pool0 hcreate
  refine h.rel (valid_stepRel pf halign) ?_
  rw [hpool]
  refine ⟨by simp, ?_⟩
  intro b hb
  simp only [List.mem_singleton] at hb
  rw [hb]
  exact ⟨by show 0 < w.oracle w.calls; omega,
    by show 0 < w.oracle w.calls + pf.sizeof_ngx_pool_t; omega⟩

/-! ## Termination of an allocation -/

/-- The bump path on a pool with valid pointers, when the raw allocator answers
the next request: the call returns a non-null address. -/
theorem smallAlloc_ok (pf : Platform) (halign : 0 < pf.NGX_ALIGNMENT) (aligned : Bool)
    (pool : Pool) (size : Nat) (w : World) (hv : pool.Valid) (hraw : w.oracle w.calls ≠ 0) :
    ∃ a pool1 w1, smallAlloc pf aligned pool size w = .ok (a, pool1, w1) ∧ a ≠ 0 := by
  obtain ⟨hcur, hpos⟩ := hv
  cases hscan : bumpScan pf aligned size (pool.blocks.drop pool.current) with
  | some r =>
    obtain ⟨m, bs⟩ := r
    obtain ⟨hm, _, _⟩ := bumpScan_pos pf aligned size halign _ _ _
      (fun b hb => hpos b (List.mem_of_mem_drop hb)) hscan
    simp only [smallAlloc, hcur, if_true, hscan]
    exact ⟨_, _, _, rfl, by omega⟩
  | none =>
    have heq : smallAlloc pf aligned pool size w = ngx_palloc_block pf pool size w := by
      simp only [smallAlloc, hcur, if_true, hscan]
    rw [heq]
    cases hbl : pool.blocks with
    | nil => rw [hbl] at hcur; simp at hcur
    | cons hd tl =>
      have hlen : pool.current < (hd :: tl).length := by rw [← hbl]; exact hcur
      simp only [ngx_palloc_block, hbl, ngx_memalign, hraw, if_false, hlen, if_true]
      refine ⟨_, _, _, rfl, ?_⟩
      have hle := le_ngx_align_ptr (w.oracle w.calls + pf.sizeof_ngx_pool_data_t)
        pf.NGX_ALIGNMENT halign
      omega

theorem NGX_MIN_POOL_SIZE_le (pf : Platform) :
    pf.sizeof_ngx_pool_t + 2 * pf.sizeof_ngx_pool_large_t ≤ NGX_MIN_POOL_SIZE pf :=
  le_ngx_align _ _ (by decide)

/-- The `max` of a pool created with at least `NGX_MIN_POOL_SIZE` bytes admits a
registry node. -/
theorem large_node_le_max (pf : Platform) (hpf : pf.WF) (size : Nat)
    (hmin : NGX_MIN_POOL_SIZE pf ≤ size) (hsize : size < pf.sizeMod) :
    pf.sizeof_ngx_pool_large_t ≤
      min (sizeSub pf size pf.sizeof_ngx_pool_t) (NGX_MAX_ALLOC_FROM_POOL pf) := by
  have h1 := NGX_MIN_POOL_SIZE_le pf
  have h2 := hpf.large_lt_page
  have h3 := hpf.page_lt
  unfold NGX_MAX_ALLOC_FROM_POOL
  rw [sizeSub_eq_sub pf size _ (by omega) (by omega) (by omega),
    sizeSub_eq_sub pf _ 1 (by omega) (by omega) (by omega)]
  omega

/-- The large path on a pool with valid pointers whose `max` admits a registry
node, when the raw allocator answers the next two requests: the call returns the
non-null address of the payload. -/
theorem ngx_palloc_large_valid_ok (pf : Platform) (halign : 0 < pf.NGX_ALIGNMENT) (fuel : Nat)
    (pool : Pool) (size : Nat) (w : World) (hv : pool.Valid)
    (hnode : pf.sizeof_ngx_pool_large_t ≤ pool.max)
    (hraw : ∀ k, k < 2 → w.oracle (w.calls + k) ≠ 0) :
    ∃ a pool1 w1,
      ngx_palloc_large pf (nestedPalloc pf (fuel + 1)) pool size w = .ok (a, pool1, w1) ∧
        a ≠ 0 := by
  have h0 : w.oracle w.calls ≠ 0 := hraw 0 (by omega)
  have h1 : w.oracle (w.calls + 1) ≠ 0 := hraw 1 (by omega)
  cases hscan : largeScan (w.oracle w.calls) 0 pool.large with
  | some ls =>
    simp only [ngx_palloc_large, ngx_alloc, h0, if_false, hscan]
    exact ⟨_, _, _, rfl, h0⟩
  | none =>
    obtain ⟨l, pool1, w1, hn, hl0⟩ := smallAlloc_ok pf halign true pool
      pf.sizeof_ngx_pool_large_t (ngx_alloc size w).2 hv h1
    rw [← ngx_palloc_small pf fuel pool _ _ hnode] at hn
    have hn1 : ngx_palloc pf fuel pool pf.sizeof_ngx_pool_large_t
        ⟨w.oracle, w.calls + 1, w.trace ++ [Event.alloc size (w.oracle w.calls)]⟩ =
        .ok (l, pool1, w1) := hn
    simp only [ngx_palloc_large, nestedPalloc, ngx_alloc, h0, if_false, hscan, hn1, hl0]
    exact ⟨_, _, _, rfl, h0⟩

/-- C5, amended. For a pool created by `ngx_create_pool(size, log)` whose `max` is at least the
size of a node of the large registry, every state reachable from it and every
request size: when the raw allocator answers the (at most two) requests of the
call, `ngx_palloc` and `ngx_pnalloc` return a non-null address; a fuel of one
nested call is enough.  Every pool created with `NGX_MIN_POOL_SIZE <= size` has
such a `max`. -/
theorem pool_alloc_succeeds (pf : Platform) (hpf : pf.WF) (size log : Nat)
    (w w1 : World) (pool0 pool : Pool)
    (hcreate : ngx_create_pool pf size log w = (some pool0, w1))
    (hreach : Reachable pf pool0 pool) :
    (NGX_MIN_POOL_SIZE pf ≤ size → size < pf.sizeMod →
      pf.sizeof_ngx_pool_large_t ≤ pool.max) ∧
    (pf.sizeof_ngx_pool_large_t ≤ pool.max →
      ∀ (sz fuel : Nat) (wa : World), (∀ k, k < 2 → wa.oracle (wa.calls + k) ≠ 0) →
        (∃ a pool1 wb, ngx_palloc pf (fuel + 1) pool sz wa = .ok (a, pool1, wb) ∧ a ≠ 0) ∧
        (∃ a pool1 wb, ngx_pnalloc pf (fuel + 1) pool sz wa = .ok (a, pool1, wb) ∧ a ≠ 0)) := by
  obtain ⟨hp0, hpool⟩ := ngx_create_pool_some pf size log w w1 pool0 hcreate
  have hmax0 : pool.max = pool0.max := hreach.extends.1
  have hv : pool.Valid := hreach.valid hpf.align_pos hcreate
  refine ⟨fun hmin hsize => ?_, ?_⟩
  · rw [hmax0, hpool]
    exact large_node_le_max pf hpf size hmin hsize
  · intro hmax sz fuel wa hraw
    have h0 : wa.oracle wa.calls ≠ 0 := hraw 0 (by omega)
    by_cases hsz : sz ≤ pool.max
    · rw [ngx_palloc_small pf _ pool sz wa hsz, ngx_pnalloc_small pf _ pool sz wa hsz]
      exact ⟨smallAlloc_ok pf hpf.align_pos true pool sz wa hv h0,
        smallAlloc_ok pf hpf.align_pos false pool sz wa hv h0⟩
    · rw [ngx_palloc_big pf _ pool sz wa (by omega), ngx_pnalloc_big pf _ pool sz wa (by omega)]
      exact ⟨ngx_palloc_large_valid_ok pf hpf.align_pos fuel pool sz wa hv hmax hraw,
        ngx_palloc_large_valid_ok pf hpf.align_pos fuel pool sz wa hv hmax hraw⟩

/-- Witness of C5, amended: an LP64 pool of 4096 bytes and a request of 5000 bytes. -/
theorem pool_alloc_succeeds_witness :
    ngx_create_pool lp64 4096 7 answeringWorld = (some pool4096, answeringWorldAfterCreate 4096) ∧
    Reachable lp64 pool4096 pool4096 ∧
    NGX_MIN_POOL_SIZE lp64 ≤ 4096 ∧ lp64.sizeof_ngx_pool_large_t ≤ pool4096.max ∧
    (∀ k, k < 2 →
      (answeringWorldAfterCreate 4096).oracle ((answeringWorldAfterCreate 4096).calls + k) ≠ 0) ∧
    (∃ a pool1 wb, ngx_palloc lp64 (0 + 1) pool4096 5000 (answeringWorldAfterCreate 4096) =
      .ok (a, pool1, wb) ∧ a ≠ 0) ∧
    (∃ a pool1 wb, ngx_pnalloc lp64 (0 + 1) pool4096 5000 (answeringWorldAfterCreate 4096) =
      .ok (a, pool1, wb) ∧ a ≠ 0) :=
  ⟨rfl, Reachable.init, by decide, by decide, fun k _ => by simp [answeringWorldAfterCreate],
    (pool_alloc_succeeds lp64
      ⟨by decide, by decide, by decide, by decide, by decide, by decide⟩
      4096 7 answeringWorld (answeringWorldAfterCreate 4096) pool4096 pool4096 rfl
      Reachable.init).2 (by decide)
      5000 0 (answeringWorldAfterCreate 4096) (fun k _ => by simp [answeringWorldAfterCreate])⟩

theorem runCalls_reachable (pf : Platform) (pool0 : Pool) :
    ∀ (cs : List Call) (pool : Pool) (w : World) (as : List Nat) (pool1 : Pool) (w1 : World),
      Reachable pf pool0 pool → runCalls pf cs pool w = .ok (as, pool1, w1) →
      Reachable pf pool0 pool1 := by
  intro cs
  induction cs with
  | nil =>
    intro pool w as pool1 w1 hr h
    simp only [runCalls, Except.ok.injEq, Prod.mk.injEq] at h
    rw [← h.2.1]; exact hr
  | cons c cs ih =>
    intro pool w as pool1 w1 hr h
    unfold runCalls at h
    split at h
    · simp at h
    · rename_i a pool2 w2 hc
      have hr2 : Reachable pf pool0 pool2 := by
        cases c with
        | palloc size => exact Reachable.palloc hr hc
        | pnalloc size => exact Reachable.pnalloc hr hc
      split at h
      · simp at h
      · rename_i as2 pool3 w3 hrest
        simp only [Except.ok.injEq, Prod.mk.injEq] at h
        rw [← h.2.1]
        exact ih pool2 w2 as2 pool3 w3 hr2 hrest

/-! ## `ngx_reset_pool` -/

/-- The world after the loop that frees the payloads of the large registry: one
`ngx_free` for each node still holding a payload, in registry order. -/
theorem freeLarge_eq :
    ∀ (ls : List LargeNode) (w : World),
      freeLarge ls w =
        { oracle := w.oracle, calls := w.calls
          trace := w.trace ++
            (ls.filter fun n => n.alloc ≠ 0).map fun n => Event.free n.alloc } := by
  intro ls
  induction ls with
  | nil => intro w; simp [freeLarge]
  | cons l ls ih =>
    intro w
    by_cases hl : l.alloc = 0
    · simp [freeLarge, hl, ih]
    · simp [freeLarge, hl, ih, ngx_free]

/-- The test of the bump loop on a block whose candidate start is not past its
end compares the request with the bytes from the candidate start to the end. -/
theorem fits_iff_of_le (pf : Platform) (aligned : Bool) (size : Nat) (b : Block)
    (hle : candidateStart pf aligned b ≤ b.end_)
    (hlt : b.end_ - candidateStart pf aligned b < pf.sizeMod) :
    fits pf aligned size b ↔ size ≤ b.end_ - candidateStart pf aligned b := by
  unfold fits
  rw [sizeSub_eq_sub pf _ _ (by omega) hle hlt]

/-- The test of the bump loop on a block whose candidate start is past its end:
the unsigned difference wraps around, and the test passes for every request up
to `sizeMod` minus the overshoot. -/
theorem fits_of_past_end (pf : Platform) (aligned : Bool) (size : Nat) (b : Block)
    (hgt : b.end_ < candidateStart pf aligned b)
    (hlt : candidateStart pf aligned b < pf.sizeMod)
    (hsize : size + (candidateStart pf aligned b - b.end_) ≤ pf.sizeMod) :
    fits pf aligned size b := by
  unfold fits
  rw [sizeSub_eq_wrap pf _ _ hgt hlt]
  omega

theorem fits_congr (pf : Platform) (aligned : Bool) (size : Nat) (b c : Block)
    (hlast : b.last = c.last) (hend : b.end_ = c.end_) :
    candidateStart pf aligned b = candidateStart pf aligned c ∧
      (fits pf aligned size b ↔ fits pf aligned size c) := by
  unfold fits candidateStart
  rw [hlast, hend]
  exact ⟨rfl, Iff.rfl⟩

/-- C9, amended. For a pool created by `ngx_create_pool(size, log)`, every state reachable from
it in which `current` is still the head block, and every `s <= pool->max` for
which the head block of the fresh pool passes the test of the bump loop:
`ngx_palloc(pool, s)` right after `ngx_reset_pool` returns the address that
`ngx_palloc(pool, s)` returns as the first call on the fresh pool.  Moreover
`ngx_reset_pool` frees every payload that the large registry held, one
`ngx_free` each, and leaves the registry empty. -/
theorem reset_then_alloc_same (pf : Platform) (size log : Nat) (w w1 : World)
    (pool0 pool : Pool) (hcreate : ngx_create_pool pf size log w = (some pool0, w1))
    (hreach : Reachable pf pool0 pool) (hcur : pool.current = 0)
    (s : Nat) (hs : s ≤ pool0.max) (hfit : ∃ b ∈ pool0.blocks, fits pf true s b)
    (fuel1 fuel2 : Nat) (wr wa wb : World) :
    (∃ a poolA poolB,
      ngx_palloc pf fuel1 pool0 s wa = .ok (a, poolA, wa) ∧
      ngx_palloc pf fuel2 (ngx_reset_pool pf pool wr).1 s wb = .ok (a, poolB, wb)) ∧
    (ngx_reset_pool pf pool wr).1.large = [] ∧
    (ngx_reset_pool pf pool wr).2.trace =
      wr.trace ++ (pool.large.filter fun n => n.alloc ≠ 0).map fun n => Event.free n.alloc := by
  obtain ⟨_, hpool0⟩ := ngx_create_pool_some pf size log w w1 pool0 hcreate
  generalize w.oracle w.calls = p at hpool0
  have hb0 : pool0.blocks = [⟨p, p + pf.sizeof_ngx_pool_t, p + size, 0⟩] := by rw [hpool0]
  have hc0 : pool0.current = 0 := by rw [hpool0]
  have hfit0 : fits pf true s ⟨p, p + pf.sizeof_ngx_pool_t, p + size, 0⟩ := by
    obtain ⟨b, hb, hf⟩ := hfit
    rw [hb0] at hb
    simp at hb
    rw [← hb]; exact hf
  obtain ⟨hmax, ext, hext⟩ := hreach.extends
  rw [hb0] at hext
  obtain ⟨b, rest, hblocks, hbaddr, hbend⟩ :
      ∃ b rest, pool.blocks = b :: rest ∧ b.addr = p ∧ b.end_ = p + size := by
    cases hbl : pool.blocks with
    | nil => rw [hbl] at hext; simp at hext
    | cons b rest =>
      rw [hbl] at hext
      simp [Block.extent] at hext
      exact ⟨b, rest, rfl, hext.1.1, hext.1.2⟩
  have hrb : (ngx_reset_pool pf pool wr).1.blocks =
      ⟨b.addr, p + pf.sizeof_ngx_pool_t, b.end_, b.failed⟩ ::
        rest.map fun c => { c with last := c.addr + pf.sizeof_ngx_pool_t } := by
    simp [ngx_reset_pool, hblocks, hbaddr]
  obtain ⟨hcand, hiff⟩ := fits_congr pf true s
    ⟨b.addr, p + pf.sizeof_ngx_pool_t, b.end_, b.failed⟩
    ⟨p, p + pf.sizeof_ngx_pool_t, p + size, 0⟩ rfl hbend
  have hfitr := hiff.mpr hfit0
  have hA := smallAlloc_single pf true pool0 s wa _ hb0 hc0 hfit0
  rw [← ngx_palloc_small pf fuel1 pool0 s wa hs] at hA
  have hB : smallAlloc pf true (ngx_reset_pool pf pool wr).1 s wb =
      .ok (candidateStart pf true ⟨p, p + pf.sizeof_ngx_pool_t, p + size, 0⟩,
        { (ngx_reset_pool pf pool wr).1 with
          blocks := bump pf true s ⟨b.addr, p + pf.sizeof_ngx_pool_t, b.end_, b.failed⟩ ::
            rest.map fun c => { c with last := c.addr + pf.sizeof_ngx_pool_t } }, wb) := by
    have hcr : (ngx_reset_pool pf pool wr).1.current = 0 := hcur
    simp [smallAlloc, hrb, hcr, bumpScan, hfitr, hcand]
  rw [← ngx_palloc_small pf fuel2 (ngx_reset_pool pf pool wr).1 s wb
    (by show s ≤ pool.max; rw [hmax]; exact hs)] at hB
  refine ⟨⟨_, _, _, hA, hB⟩, rfl, ?_⟩
  simp [ngx_reset_pool, freeLarge_eq]

/-- Witness of C9, amended: the LP64 pool of 4096 bytes after a large allocation of 5000 bytes,
then reset; the next `ngx_palloc(pool, 16)` returns `65616` as on the fresh
pool, and the payload `131072` has been freed. -/
theorem reset_then_alloc_same_witness :
    ngx_create_pool lp64 4096 7 answeringWorld = (some pool4096, answeringWorldAfterCreate 4096) ∧
    Reachable lp64 pool4096 pool4096Large ∧ pool4096Large.current = 0 ∧
    (16 : Nat) ≤ pool4096.max ∧ (∃ b ∈ pool4096.blocks, fits lp64 true 16 b) ∧
    (∃ a poolA poolB,
      ngx_palloc lp64 1 pool4096 16 answeringWorldAfterLarge =
        .ok (a, poolA, answeringWorldAfterLarge) ∧
      ngx_palloc lp64 1 (ngx_reset_pool lp64 pool4096Large answeringWorldAfterLarge).1 16
          answeringWorldAfterLarge =
        .ok (a, poolB, answeringWorldAfterLarge)) ∧
    (ngx_reset_pool lp64 pool4096Large answeringWorldAfterLarge).1.large = [] ∧
    (ngx_reset_pool lp64 pool4096Large answeringWorldAfterLarge).2.trace =
      answeringWorldAfterLarge.trace ++
        (pool4096Large.large.filter fun n => n.alloc ≠ 0).map fun n => Event.free n.alloc :=
  have hreach : Reachable lp64 pool4096 pool4096Large :=
    @Reachable.palloc lp64 pool4096 pool4096 pool4096Large 1 5000 131072
      (answeringWorldAfterCreate 4096) answeringWorldAfterLarge Reachable.init rfl
  ⟨rfl, hreach, rfl, by decide, ⟨_, List.mem_singleton.mpr rfl, by decide⟩,
    reset_then_alloc_same lp64 4096 7 answeringWorld (answeringWorldAfterCreate 4096)
      pool4096 pool4096Large rfl hreach rfl 16 (by decide)
      ⟨_, List.mem_singleton.mpr rfl, by decide⟩ 1 1
      answeringWorldAfterLarge answeringWorldAfterLarge answeringWorldAfterLarge⟩

/-- Counterexample to C9 as stated: the LP64 pool of 1024 bytes after eight calls
`ngx_palloc(pool, 944)`: seven blocks were appended and `current` is the second
block.  After `ngx_reset_pool`, `ngx_palloc(pool, 16)` returns `131152`, an
address in the second block, while the first `ngx_palloc(pool, 16)` on the fresh
pool returns `65616`. -/
theorem reset_keeps_current :
    ngx_create_pool lp64 1024 7 answeringWorld = (some pool1024, answeringWorldAfterCreate 1024) ∧
    runCalls lp64 (List.replicate 8 (Call.palloc 944)) pool1024 (answeringWorldAfterCreate 1024) =
      .ok ([65616, 131104, 196640, 262176, 327712, 393248, 458784, 524320],
        pool1024Grown, answeringWorldGrown) ∧
    (16 : Nat) ≤ 1024 - lp64.sizeof_ngx_pool_t ∧
    (∃ poolA, ngx_palloc lp64 1 pool1024 16 (answeringWorldAfterCreate 1024) =
      .ok (65616, poolA, answeringWorldAfterCreate 1024)) ∧
    (∃ poolB wB,
      ngx_palloc lp64 1 (ngx_reset_pool lp64 pool1024Grown answeringWorldGrown).1 16
        (ngx_reset_pool lp64 pool1024Grown answeringWorldGrown).2 = .ok (131152, poolB, wB)) ∧
    (131152 : Nat) ≠ 65616 :=
  ⟨rfl, rfl, by decide, ⟨_, rfl⟩, ⟨_, _, rfl⟩, by decide⟩

/-! ## Two consecutive allocations in a chain in good order -/

theorem spansApart_symm {t u : Nat × Nat × Nat} (h : spansApart t u) : spansApart u t :=
  h.symm

theorem pairwise_apart_getElem? (L : List (Nat × Nat × Nat)) (hap : L.Pairwise spansApart)
    (i j : Nat) (t u : Nat × Nat × Nat) (hi : L[i]? = some t) (hj : L[j]? = some u)
    (hij : i ≠ j) : spansApart t u := by
  rw [List.pairwise_iff_getElem] at hap
  obtain ⟨hil, rfl⟩ := List.getElem?_eq_some_iff.mp hi
  obtain ⟨hjl, rfl⟩ := List.getElem?_eq_some_iff.mp hj
  rcases Nat.lt_or_gt_of_ne hij with h | h
  · exact hap i j hil hjl h
  · exact (hap j i hjl hil h).symm

theorem spanStep_twice_apart (pf : Platform) (L L1 L2 : List (Nat × Nat × Nat))
    (a1 s1 a2 s2 : Nat) (hok : ∀ t ∈ L, SpanOk pf t) (hap : L.Pairwise spansApart)
    (h1 : SpanStep pf L a1 s1 L1) (h2 : SpanStep pf L1 a2 s2 L2) :
    a1 + s1 ≤ a2 ∨ a2 + s2 ≤ a1 := by
  rcases h1 with ⟨i, t, hit, hta, hte, rfl⟩ | ⟨t1, _, rfl, ht1a, ht1l, ht1ok, ht1ap⟩
  · have hil : i < L.length := (List.getElem?_eq_some_iff.mp hit).1
    have htok := hok t (List.getElem?_mem hit)
    rcases h2 with ⟨j, u, hju, hua, hue, _⟩ | ⟨t2, _, _, ht2a, ht2l, ht2ok, ht2ap⟩
    · by_cases hij : i = j
      · subst hij
        rw [List.getElem?_set_self hil] at hju
        simp only [Option.some.injEq] at hju
        rw [← hju] at hua
        left; exact hua
      · rw [List.getElem?_set_ne hij] at hju
        have huok := hok u (List.getElem?_mem hju)
        have hap2 := pairwise_apart_getElem? L hap i j t u hit hju hij
        unfold SpanOk at htok huok
        unfold spansApart at hap2
        omega
    · have hmem : (t.1, a1 + s1, t.2.2) ∈ L.set i (t.1, a1 + s1, t.2.2) :=
        List.mem_set L i hil _
      have hap2 := ht2ap _ hmem
      unfold SpanOk at htok ht2ok
      unfold spansApart at hap2
      simp only at hap2
      omega
  · rcases h2 with ⟨j, u, hju, hua, hue, _⟩ | ⟨t2, _, _, ht2a, ht2l, ht2ok, ht2ap⟩
    · by_cases hjl : j < L.length
      · rw [List.getElem?_append_left hjl] at hju
        have huok := hok u (List.getElem?_mem hju)
        have hap2 := ht1ap u (List.getElem?_mem hju)
        unfold SpanOk at huok ht1ok
        unfold spansApart at hap2
        omega
      · rw [List.getElem?_append_right (by omega)] at hju
        have hj0 : j - L.length = 0 := by
          by_contra hne
          rw [List.getElem?_eq_none (by simp; omega)] at hju
          simp at hju
        rw [hj0] at hju
        simp only [List.getElem?_cons_zero, Option.some.injEq] at hju
        rw [← hju] at hua
        left; omega
    · have hap2 := ht2ap t1 (by simp)
      unfold SpanOk at ht1ok ht2ok
      unfold spansApart at hap2
      omega

theorem ngx_align_ptr_le_of_dvd (p e a : Nat) (ha : 0 < a) (hd : a ∣ e) (hpe : p ≤ e) :
    ngx_align_ptr p a ≤ e := by
  obtain ⟨k, rfl⟩ := hd
  unfold ngx_align_ptr
  have h1 : (p + (a - 1)) / a ≤ k := by
    have : (p + (a - 1)) / a < k + 1 := by
      rw [Nat.div_lt_iff_lt_mul ha]
      have : (k + 1) * a = a * k + a := by rw [Nat.add_mul, Nat.one_mul, Nat.mul_comm]
      omega
    omega
  calc (p + (a - 1)) / a * a ≤ k * a := Nat.mul_le_mul_right a h1
    _ = a * k := Nat.mul_comm _ _

theorem bumpScan_some (pf : Platform) (aligned : Bool) (size : Nat) :
    ∀ (bs bs1 : List Block) (m : Nat), bumpScan pf aligned size bs = some (m, bs1) →
      ∃ i b, bs[i]? = some b ∧ fits pf aligned size b ∧ m = candidateStart pf aligned b ∧
        bs1 = bs.set i (bump pf aligned size b) := by
  intro bs
  induction bs with
  | nil => intro bs1 m h; simp [bumpScan] at h
  | cons x xs ih =>
    intro bs1 m h
    unfold bumpScan at h
    split at h
    · rename_i hx
      simp only [Option.some.injEq, Prod.mk.injEq] at h
      exact ⟨0, x, by simp, hx, h.1.symm, by rw [← h.2]; simp⟩
    · split at h
      · rename_i m2 bs2 h2
        simp only [Option.some.injEq, Prod.mk.injEq] at h
        obtain ⟨i, b, hib, hfb, hm, hbs⟩ := ih bs2 m2 h2
        exact ⟨i + 1, b, by simpa using hib, hfb, by rw [← h.1]; exact hm,
          by rw [← h.2, hbs]; simp⟩
      · simp at h

theorem failScan_span :
    ∀ (bs : List Block) (i cur : Nat),
      (failScan i cur bs).2.map Block.span = bs.map Block.span := by
  intro bs
  induction bs with
  | nil => intro i cur; simp [failScan]
  | cons b bs ih =>
    intro i cur
    cases bs with
    | nil => simp [failScan]
    | cons b2 bs2 =>
      simp only [failScan, List.map_cons]
      rw [ih]
      simp [Block.span]

theorem smallAlloc_spanStep (pf : Platform) (hM : 0 < pf.sizeMod)
    (halign : 0 < pf.NGX_ALIGNMENT) (aligned : Bool) (pool : Pool) (size : Nat) (w : World)
    (a : Nat) (pool1 : Pool) (w1 : World) (ht : pool.Tidy pf) (hs : size ≤ pool.max)
    (hf : FreshBlock pf pool w)
    (h : smallAlloc pf aligned pool size w = .ok (a, pool1, w1)) (ha : a ≠ 0) :
    SpanStep pf (pool.blocks.map Block.span) a size (pool1.blocks.map Block.span) ∧
      pool1.max = pool.max := by
  unfold smallAlloc at h
  split at h
  · rename_i hcur
    split at h
    · rename_i m bs hscan
      simp only [Except.ok.injEq, Prod.mk.injEq] at h
      obtain ⟨i, b, hib, hfb, hm, hbs⟩ := bumpScan_some pf aligned size _ _ _ hscan
      rw [List.getElem?_drop] at hib
      have hbok : SpanOk pf b.span := ht.1 _ (List.mem_map.mpr ⟨b, List.getElem?_mem hib, rfl⟩)
      obtain ⟨hb1, hb2, hb3, hb4⟩ := hbok
      simp only [Block.span] at hb1 hb2 hb3 hb4
      have hcle : candidateStart pf aligned b ≤ b.end_ := by
        unfold candidateStart
        cases aligned
        · simpa using hb2
        · simpa using ngx_align_ptr_le_of_dvd _ _ _ halign hb3 hb2
      have hlc := le_candidateStart pf aligned b halign
      have hfit := (fits_iff_of_le pf aligned size b hcle (by omega)).mp hfb
      refine ⟨Or.inl ⟨pool.current + i, b.span, by simp [hib], ?_, ?_, ?_⟩, by rw [← h.2.1]⟩
      · show b.last ≤ a
        rw [← h.1, hm]; exact hlc
      · show a + size ≤ b.end_
        rw [← h.1, hm]; omega
      · rw [← h.2.1, hbs]
        show (pool.blocks.take pool.current ++ _).map Block.span = _
        rw [take_append_set_drop, List.map_set, ← h.1, hm]
        rfl
    · -- growth
      unfold ngx_palloc_block at h
      split at h
      · simp at h
      · rename_i hd tl hbl
        simp only at h
        split at h
        · simp only [Except.ok.injEq, Prod.mk.injEq] at h
          exact absurd h.1.symm ha
        · rename_i hm0
          · simp only [hcur, if_true, Except.ok.injEq, Prod.mk.injEq] at h
            have hhd : hd.span ∈ (pool.blocks.map Block.span).head? := by
              rw [hbl]; simp
            have hhdok : SpanOk pf hd.span := ht.1 _ (by rw [hbl]; simp)
            obtain ⟨hd1, hd2, hd3, hd4⟩ := hhdok
            obtain ⟨hh1, hh2⟩ := ht.2.2 _ hhd
            obtain ⟨hfa, hfap⟩ := hf _ hhd
            simp only [Block.span] at hd1 hd2 hd3 hd4 hh1 hh2 hfa hfap
            have hps : sizeSub pf hd.end_ hd.addr = hd.end_ - hd.addr :=
              sizeSub_eq_sub pf _ _ hM (by omega) hd4
            simp only [ngx_memalign] at h hm0
            rw [hps] at h
            generalize hmdef : w.oracle w.calls = m at h hm0 hfa hfap
            have hle := le_ngx_align_ptr (m + pf.sizeof_ngx_pool_data_t) pf.NGX_ALIGNMENT halign
            have hlt := ngx_align_ptr_lt_add (m + pf.sizeof_ngx_pool_data_t) pf.NGX_ALIGNMENT halign
            refine ⟨Or.inr ⟨(m, a + size, m + (hd.end_ - hd.addr)), ?_, ?_, ?_, rfl, ?_, ?_⟩,
              by rw [← h.2.1]⟩
            · rw [hbl]; simp
            · rw [← h.2.1, ← h.1]
              simp only [List.map_append, failScan_span, List.map_cons, List.map_nil]
              rw [← List.map_append, List.take_append_drop]
              rfl
            · show m ≤ a
              rw [← h.1]; omega
            · refine ⟨?_, ?_, ?_, ?_⟩
              · show m ≤ a + size
                rw [← h.1]; omega
              · show a + size ≤ m + (hd.end_ - hd.addr)
                rw [← h.1]; omega
              · show pf.NGX_ALIGNMENT ∣ m + (hd.end_ - hd.addr)
                exact Nat.dvd_add hfa (Nat.dvd_sub' hd3 hh1)
              · show m + (hd.end_ - hd.addr) - m < pf.sizeMod
                omega
            · intro u hu
              have := hfap u hu
              unfold spansApart at this ⊢
              simpa using this
  · simp at h

theorem spansTidy_step (pf : Platform) (max : Nat) (L L1 : List (Nat × Nat × Nat))
    (a size : Nat) (ht : SpansTidy pf max L) (hstep : SpanStep pf L a size L1) :
    SpansTidy pf max L1 := by
  obtain ⟨hok, hap, hhead⟩ := ht
  rcases hstep with ⟨i, t, hit, hta, hte, rfl⟩ | ⟨t, hne, rfl, hta, htl, htok, htap⟩
  · have htok := hok t (List.getElem?_mem hit)
    refine ⟨?_, ?_, ?_⟩
    · intro x hx
      rcases List.mem_or_eq_of_mem_set hx with hx | rfl
      · exact hok x hx
      · unfold SpanOk at htok ⊢
        simp only
        omega
    · have hext : (L.set i (t.1, a + size, t.2.2)).map (fun t => (t.1, t.2.2)) =
          L.map (fun t => (t.1, t.2.2)) := by
        rw [List.map_set]
        exact set_self_of_getElem? _ _ _ (by simp [hit])
      have h1 : (L.map (fun t : Nat × Nat × Nat => (t.1, t.2.2))).Pairwise
          (fun e1 e2 : Nat × Nat => e1.2 ≤ e2.1 ∨ e2.2 ≤ e1.1) :=
        List.pairwise_map.mpr hap
      rw [← hext] at h1
      have h2 := List.pairwise_map.mp h1
      exact h2
    · intro x hx
      cases L with
      | nil => simp at hit
      | cons y ys =>
        cases i with
        | zero =>
          simp at hit hx
          have := hhead y (by simp)
          rw [← hx]
          rw [hit] at this
          exact this
        | succ k =>
          simp at hx
          rw [← hx]
          exact hhead y (by simp)
  · refine ⟨?_, ?_, ?_⟩
    · intro x hx
      rcases List.mem_append.mp hx with hx | hx
      · exact hok x hx
      · simp at hx; rw [hx]; exact htok
    · rw [List.pairwise_append]
      refine ⟨hap, by simp, ?_⟩
      intro u hu v hv
      simp at hv
      rw [hv]; exact htap u hu
    · intro x hx
      cases L with
      | nil => exact absurd rfl hne
      | cons y ys =>
        simp at hx
        rw [← hx]
        exact hhead y (by simp)

theorem tidy_of_spanStep (pf : Platform) (pool pool1 : Pool) (a size : Nat) (ht : pool.Tidy pf)
    (hmax : pool1.max = pool.max)
    (hstep : SpanStep pf (pool.blocks.map Block.span) a size (pool1.blocks.map Block.span)) :
    pool1.Tidy pf := by
  unfold Pool.Tidy
  rw [hmax]
  exact spansTidy_step pf _ _ _ a size ht hstep

/-- In a tidy pool two consecutive successful calls of `ngx_palloc` on the bump
path return ranges that do not overlap, when the blocks that the raw allocator
hands out are aligned and overlap no block of the pool. -/
theorem tidy_allocs_apart (pf : Platform) (hM : 0 < pf.sizeMod) (halign : 0 < pf.NGX_ALIGNMENT)
    (pool pool1 pool2 : Pool) (s1 s2 a1 a2 fuel1 fuel2 : Nat) (w w1 w2 : World)
    (ht : pool.Tidy pf) (hs1 : s1 ≤ pool.max) (hs2 : s2 ≤ pool.max)
    (hf1 : FreshBlock pf pool w) (hf2 : FreshBlock pf pool1 w1)
    (h1 : ngx_palloc pf fuel1 pool s1 w = .ok (a1, pool1, w1)) (ha1 : a1 ≠ 0)
    (h2 : ngx_palloc pf fuel2 pool1 s2 w1 = .ok (a2, pool2, w2)) (ha2 : a2 ≠ 0) :
    (a1 + s1 ≤ a2 ∨ a2 + s2 ≤ a1) ∧ pool2.Tidy pf := by
  rw [ngx_palloc_small pf fuel1 pool s1 w hs1] at h1
  obtain ⟨hstep1, hmax1⟩ := smallAlloc_spanStep pf hM halign true pool s1 w a1 pool1 w1 ht hs1
    hf1 h1 ha1
  have ht1 := tidy_of_spanStep pf pool pool1 a1 s1 ht hmax1 hstep1
  have hs2' : s2 ≤ pool1.max := by rw [hmax1]; exact hs2
  rw [ngx_palloc_small pf fuel2 pool1 s2 w1 hs2'] at h2
  obtain ⟨hstep2, hmax2⟩ := smallAlloc_spanStep pf hM halign true pool1 s2 w1 a2 pool2 w2 ht1 hs2'
    hf2 h2 ha2
  exact ⟨spanStep_twice_apart pf _ _ _ a1 s1 a2 s2 ht.1 ht.2.1 hstep1 hstep2,
    tidy_of_spanStep pf pool1 pool2 a2 s2 ht1 hmax2 hstep2⟩


/-- In a chain in good order the test of the bump loop is the plain comparison:
a block passes it exactly when the request fits between its candidate start and
its end. -/
theorem fits_iff_plain_of_tidy (pf : Platform)
    (halign : 0 < pf.NGX_ALIGNMENT) (aligned : Bool) (size : Nat) (pool : Pool)
    (ht : pool.Tidy pf) (b : Block) (hb : b ∈ pool.blocks) :
    fits pf aligned size b ↔ candidateStart pf aligned b + size ≤ b.end_ := by
  obtain ⟨hb1, hb2, hb3, hb4⟩ := ht.1 _ (List.mem_map.mpr ⟨b, hb, rfl⟩)
  simp only [Block.span] at hb1 hb2 hb3 hb4
  have hcle : candidateStart pf aligned b ≤ b.end_ := by
    unfold candidateStart
    cases aligned
    · simpa using hb2
    · simpa using ngx_align_ptr_le_of_dvd _ _ _ halign hb3 hb2
  have hlc := le_candidateStart pf aligned b halign
  rw [fits_iff_of_le pf aligned size b hcle (by omega)]
  omega

/-- A pool fresh from `ngx_create_pool(size, log)` is in good order when its
address and its size are multiples of the alignment, the size is at least the
pool header, and the pool header is at least the block header plus one
alignment unit. -/
theorem tidy_of_create (pf : Platform) (size log : Nat) (w w1 : World) (pool : Pool)
    (hcreate : ngx_create_pool pf size log w = (some pool, w1))
    (hp : pf.NGX_ALIGNMENT ∣ w.oracle w.calls) (hsz : pf.NGX_ALIGNMENT ∣ size)
    (hhdr : pf.sizeof_ngx_pool_t ≤ size) (hlt : size < pf.sizeMod)
    (hfit : pf.sizeof_ngx_pool_data_t + pf.NGX_ALIGNMENT ≤ pf.sizeof_ngx_pool_t) :
    pool.Tidy pf := by
  obtain ⟨_, hpool⟩ := ngx_create_pool_some pf size log w w1 pool hcreate
  have hmax : pool.max ≤ size - pf.sizeof_ngx_pool_t := by
    rw [hpool]
    show min (sizeSub pf size pf.sizeof_ngx_pool_t) (NGX_MAX_ALLOC_FROM_POOL pf) ≤ _
    rw [sizeSub_eq_sub pf size _ (by omega) hhdr (by omega)]
    exact Nat.min_le_left _ _
  have hb : pool.blocks.map Block.span =
      [(w.oracle w.calls, w.oracle w.calls + pf.sizeof_ngx_pool_t, w.oracle w.calls + size)] := by
    rw [hpool]; rfl
  unfold Pool.Tidy SpansTidy
  rw [hb]
  refine ⟨?_, by simp, ?_⟩
  · intro t ht
    simp only [List.mem_singleton] at ht
    rw [ht]
    exact ⟨by simp, by simp; omega, Nat.dvd_add hp hsz, by simp; omega⟩
  · intro t ht
    simp only [List.head?_cons, Option.mem_def, Option.some.injEq] at ht
    rw [← ht]
    exact ⟨hp, by simp; omega⟩

/-- An instance of `tidy_allocs_apart`: on the LP64 pool of 4096 bytes,
`ngx_palloc(pool, 4000)` is served by the head block and the following
`ngx_palloc(pool, 100)` by a new block; the two ranges share no byte. -/
theorem tidy_allocs_apart_example :
    ∃ a1 pool1 w1 a2 pool2 w2,
      ngx_palloc lp64 1 pool4096 4000 (answeringWorldAfterCreate 4096) = .ok (a1, pool1, w1) ∧
      ngx_palloc lp64 1 pool1 100 w1 = .ok (a2, pool2, w2) ∧
      pool1.blocks.length = 1 ∧ pool2.blocks.length = 2 ∧
      (a1 + 4000 ≤ a2 ∨ a2 + 100 ≤ a1) ∧ pool2.Tidy lp64 := by
  have ht : pool4096.Tidy lp64 :=
    tidy_of_create lp64 4096 7 answeringWorld (answeringWorldAfterCreate 4096) pool4096 rfl
      (by decide) (by decide) (by decide) (by decide) (by decide)
  have hfresh : ∀ (pool : Pool) (w : World) (last : Nat),
      pool.blocks.map Block.span = [(65536, last, 69632)] →
      w.oracle w.calls = 131072 → FreshBlock lp64 pool w := by
    intro pool w last hb hw t ht
    rw [hb] at ht ⊢
    simp only [List.head?_cons, Option.mem_def, Option.some.injEq] at ht
    rw [← ht, hw]
    refine ⟨by decide, ?_⟩
    intro u hu
    simp only [List.mem_singleton] at hu
    rw [hu]
    left
    show (69632 : Nat) ≤ 131072
    decide
  have h1 : ngx_palloc lp64 1 pool4096 4000 (answeringWorldAfterCreate 4096) =
      .ok (65616, { pool4096 with blocks := [⟨65536, 69616, 69632, 0⟩] },
        answeringWorldAfterCreate 4096) := rfl
  have h2 : ngx_palloc lp64 1 { pool4096 with blocks := [⟨65536, 69616, 69632, 0⟩] } 100
      (answeringWorldAfterCreate 4096) =
      .ok (131104,
        { pool4096 with blocks := [⟨65536, 69616, 69632, 0⟩, ⟨131072, 131204, 135168, 0⟩] },
        ⟨fun n => 65536 * (n + 1), 2,
          [Event.memalign 16 4096 65536, Event.memalign 16 4096 131072]⟩) := rfl
  exact ⟨_, _, _, _, _, _, h1, h2, rfl, rfl,
    tidy_allocs_apart lp64 (by decide) (by decide) _ _ _ 4000 100 _ _ 1 1 _ _ _ ht
      (by decide) (by decide)
      (hfresh pool4096 (answeringWorldAfterCreate 4096) 65616 rfl rfl)
      (hfresh { pool4096 with blocks := [⟨65536, 69616, 69632, 0⟩] }
        (answeringWorldAfterCreate 4096) 69616 rfl rfl)
      h1 (by decide) h2 (by decide)⟩

/-! ## Two consecutive allocations -/

/-- C3, evaluation at the failing input. An LP64 pool created with 201 bytes at `3200`; three
calls of `ngx_pnalloc` (38, 85 and 84 bytes) leave 83 bytes in the head block
and fill the second block, which the raw allocator placed at `2992`, up to its
end `3193`.  Then `ngx_palloc(pool, 121)` returns `3200` and the next
`ngx_palloc(pool, 8)` returns `3320`: the byte `3320` lies in both ranges.  The
first of the two is served by the second block although `3200`, its `last`
rounded up, is past its end: the difference `3193 - 3200` taken as a `size_t`
is `2 ^ 64 - 7`. -/
theorem consecutive_allocs_overlap :
    ngx_create_pool lp64 201 7 descendingWorld = (some pool201, descendingWorldAfterCreate) ∧
    runCalls lp64 [Call.pnalloc 38, Call.pnalloc 85, Call.pnalloc 84] pool201
        descendingWorldAfterCreate =
      .ok ([3280, 3024, 3109], pool201Full, descendingWorldAfterBlock) ∧
    (121 : Nat) ≤ pool201Full.max ∧ (8 : Nat) ≤ pool201Full.max ∧
    runCalls lp64 [Call.palloc 121, Call.palloc 8] pool201Full descendingWorldAfterBlock =
      .ok ([3200, 3320], pool201Overrun, descendingWorldAfterBlock) ∧
    (3200 : Nat) ≤ 3320 ∧ (3320 : Nat) < 3200 + 121 ∧
    sizeSub lp64 3193 (ngx_align_ptr 3193 lp64.NGX_ALIGNMENT) = 2 ^ 64 - 7 :=
  ⟨rfl, rfl, by decide, by decide, rfl, by decide, by decide, by decide⟩

/-! ## `ngx_destroy_pool` -/

theorem runCleanups_eq :
    ∀ (cs : List CleanupNode) (w : World),
      runCleanups cs w =
        { oracle := w.oracle, calls := w.calls
          trace := w.trace ++
            (cs.filter fun c => c.handler ≠ 0).map fun c => Event.handler c.handler c.data } := by
  intro cs
  induction cs with
  | nil => intro w; simp [runCleanups]
  | cons c cs ih =>
    intro w
    by_cases hc : c.handler = 0
    · simp [runCleanups, hc, ih]
    · simp [runCleanups, hc, ih, callHandler]

/-- The last loop of `ngx_destroy_pool`, entered with the chain after the head
block: it frees the blocks of that chain other than the last one. -/
theorem destroyBlocks_eq :
    ∀ (bs : List Block) (w : World), bs ≠ [] →
      destroyBlocks bs w =
        .ok { oracle := w.oracle, calls := w.calls
              trace := w.trace ++ bs.dropLast.map fun b => Event.free b.addr } := by
  intro bs
  induction bs with
  | nil => intro w h; exact absurd rfl h
  | cons b bs ih =>
    intro w _
    cases bs with
    | nil => simp [destroyBlocks]
    | cons b2 bs2 =>
      simp only [destroyBlocks]
      rw [ih _ (by simp)]
      simp [ngx_free]

/-- The effects of `ngx_destroy_pool` on a pool of at least two blocks: the
handlers that are present, in registry order, then the payloads still held, then
the blocks other than the head block and the tail block. -/
theorem ngx_destroy_pool_eq (pool : Pool) (w : World) (b0 b1 : Block) (rest : List Block)
    (hb : pool.blocks = b0 :: b1 :: rest) :
    ngx_destroy_pool pool w =
      .ok { oracle := w.oracle, calls := w.calls
            trace := w.trace ++
              ((pool.cleanup.filter fun c => c.handler ≠ 0).map fun c =>
                Event.handler c.handler c.data) ++
              ((pool.large.filter fun n => n.alloc ≠ 0).map fun n => Event.free n.alloc) ++
              ((b1 :: rest).dropLast.map fun b => Event.free b.addr) } := by
  simp only [ngx_destroy_pool, hb]
  rw [destroyBlocks_eq _ _ (by simp), freeLarge_eq, runCleanups_eq]

/-- Under the header of the sibling loop the last loop of `ngx_destroy_pool` would
free every block of the chain, the head block first. -/
theorem destroyBlocksSiblingHeader_eq :
    ∀ (rest : List Block) (p : Block) (w : World),
      destroyBlocksSiblingHeader p rest w =
        { oracle := w.oracle, calls := w.calls
          trace := w.trace ++ (p :: rest).map fun b => Event.free b.addr } := by
  intro rest
  induction rest with
  | nil => intro p w; simp [destroyBlocksSiblingHeader, ngx_free]
  | cons n rest ih =>
    intro p w
    simp only [destroyBlocksSiblingHeader]
    rw [ih]
    simp [ngx_free]

/-- C10, evaluation at the failing inputs. On the pool of one block that
`ngx_create_pool(4096, log)` returns, the last loop of `ngx_destroy_pool`
dereferences `n = NULL`.  On a pool of three blocks with an armed and a disarmed
cleanup entry and a held and a vacant large slot, `ngx_destroy_pool` calls the
armed handler, frees the payload and frees the second block; neither the head
block `65536` nor the last block `196608` is freed. -/
theorem ngx_destroy_pool_skips_head :
    ngx_destroy_pool pool4096 (answeringWorldAfterCreate 4096) = .error .wildPointer ∧
    (∃ w1, ngx_destroy_pool pool1024Three answeringWorldGrown = .ok w1 ∧
      w1.trace = answeringWorldGrown.trace ++
        [Event.handler 4198400 65672, Event.free 262144, Event.free 131072]) ∧
    Event.free 65536 ∉
      ([Event.handler 4198400 65672, Event.free 262144, Event.free 131072] : List Event) :=
  ⟨rfl, ⟨_, rfl, rfl⟩, by decide⟩

/-! ## The bump pointer and the end of its block -/

/-- C14, evaluation at the failing input. An LP64 pool created with 201 bytes (the pool header
takes 80) at `3200`: the head block ends at `3401`, which is not a multiple of
the alignment 8.  `ngx_pnalloc(pool, 121)` returns `3280` and moves `last` to
`3401`, the end of the block.  Then `ngx_palloc(pool, 8)` rounds `last` up to
`3408`, past the end; the difference `3401 - 3408` taken as a `size_t` is
`2 ^ 64 - 7`, the test `(size_t) (p->d.end - m) >= size` holds, the call returns
`3408` and leaves `last = 3416 > 3401 = end`. -/
theorem last_past_end_reachable :
    ngx_create_pool lp64 201 7 descendingWorld = (some pool201, descendingWorldAfterCreate) ∧
    lp64.sizeof_ngx_pool_t ≤ 201 ∧
    runCalls lp64 [Call.pnalloc 121, Call.palloc 8] pool201 descendingWorldAfterCreate =
      .ok ([3280, 3408], pool201PastEnd, descendingWorldAfterCreate) ∧
    Reachable lp64 pool201 pool201PastEnd ∧
    (∃ b ∈ pool201PastEnd.blocks, b.end_ < b.last) ∧
    ngx_align_ptr 3401 lp64.NGX_ALIGNMENT = 3408 ∧
    sizeSub lp64 3401 3408 = 2 ^ 64 - 7 :=
  ⟨rfl, by decide, rfl,
    runCalls_reachable lp64 pool201 [Call.pnalloc 121, Call.palloc 8] pool201
      descendingWorldAfterCreate _ _ _ Reachable.init rfl,
    ⟨_, List.mem_singleton.mpr rfl, by decide⟩, by decide, by decide⟩

/-! ## The position of `current` -/

/-- C15. In every state reachable from a pool created by `ngx_create_pool` through
`ngx_palloc`, `ngx_pnalloc`, `ngx_pmemalign`, `ngx_pfree`, `ngx_pool_cleanup_add`,
an assignment to a handler, `ngx_pool_run_cleanup_file` and `ngx_reset_pool`,
`pool->current` is a block of the chain: the block reached from the head block
(position 0) by `current` steps along `next`, and its address is not null.  The
alignment is taken to be positive. -/
theorem current_in_chain (pf : Platform) (halign : 0 < pf.NGX_ALIGNMENT) (size log : Nat)
    (w w1 : World) (pool0 pool : Pool)
    (hcreate : ngx_create_pool pf size log w = (some pool0, w1))
    (hreach : Reachable pf pool0 pool) :
    ∃ b, pool.blocks[pool.current]? = some b ∧ b.addr ≠ 0 := by
  obtain ⟨hcur, hpos⟩ := hreach.valid halign hcreate
  refine ⟨pool.blocks[pool.current], List.getElem?_eq_getElem hcur, ?_⟩
  have := (hpos _ (List.getElem_mem hcur)).1
  omega

/-- Witness of C15: the LP64 pool of 1024 bytes after eight calls
`ngx_palloc(pool, 944)`, where `current` is the second block. -/
theorem current_in_chain_witness :
    ngx_create_pool lp64 1024 7 answeringWorld = (some pool1024, answeringWorldAfterCreate 1024) ∧
    Reachable lp64 pool1024 pool1024Grown ∧
    ∃ b, pool1024Grown.blocks[pool1024Grown.current]? = some b ∧ b.addr ≠ 0 :=
  have hreach : Reachable lp64 pool1024 pool1024Grown :=
    runCalls_reachable lp64 pool1024 (List.replicate 8 (Call.palloc 944)) pool1024
      (answeringWorldAfterCreate 1024) _ _ _ Reachable.init rfl
  ⟨rfl, hreach,
    current_in_chain lp64 (by decide) 1024 7 answeringWorld (answeringWorldAfterCreate 1024)
      pool1024 pool1024Grown rfl hreach⟩

/-! ## What `ngx_reset_pool` does to the blocks -/

/-- Counterexample to C19 as stated: an LP64 pool of three blocks of 1024 bytes.  After
`ngx_reset_pool` the `last` of the second block, at `131072`, is `131152`, its
address plus `sizeof(ngx_pool_t) = 80`, and not its address plus
`sizeof(ngx_pool_data_t) = 32`, where `ngx_palloc_block` starts the usable
region of a block it appends. -/
theorem reset_later_block_full_header :
    (ngx_reset_pool lp64 pool1024Three answeringWorld).1.blocks =
      [⟨65536, 65616, 66560, 1⟩, ⟨131072, 131152, 132096, 0⟩, ⟨196608, 196688, 197632, 0⟩] ∧
    (131152 : Nat) = 131072 + lp64.sizeof_ngx_pool_t ∧
    (131152 : Nat) ≠ 131072 + lp64.sizeof_ngx_pool_data_t ∧
    131152 ≠ ngx_align_ptr (131072 + lp64.sizeof_ngx_pool_data_t) lp64.NGX_ALIGNMENT :=
  ⟨rfl, by decide, by decide, by decide⟩

/-- C19, amended. For every pool, after `ngx_reset_pool` the chain has the same blocks in the
same order, and every block, the head block and the later ones alike, has its
`last` at its own address plus `sizeof(ngx_pool_t)`, the size of the full pool
header; its address, `end` and `failed` are as before, and so are the `next` of
every block, `current`, `max` and the cleanup registry. -/
theorem ngx_reset_pool_rewinds (pf : Platform) (pool : Pool) (w : World) :
    (ngx_reset_pool pf pool w).1.blocks.length = pool.blocks.length ∧
    (∀ (i : Nat) (b : Block), pool.blocks[i]? = some b →
      (ngx_reset_pool pf pool w).1.blocks[i]? =
        some { b with last := b.addr + pf.sizeof_ngx_pool_t }) ∧
    (∀ i, (ngx_reset_pool pf pool w).1.nextOf i = pool.nextOf i) ∧
    (ngx_reset_pool pf pool w).1.current = pool.current ∧
    (ngx_reset_pool pf pool w).1.max = pool.max ∧
    (ngx_reset_pool pf pool w).1.cleanup = pool.cleanup := by
  refine ⟨by simp [ngx_reset_pool], ?_, ?_, rfl, rfl, rfl⟩
  · intro i b hb
    simp [ngx_reset_pool, hb]
  · intro i
    simp only [Pool.nextOf, ngx_reset_pool, List.getElem?_map]
    cases pool.blocks[i + 1]? <;> rfl

/-- Witness of C19, amended: the second block of the LP64 pool of three blocks of 1024
bytes. -/
theorem ngx_reset_pool_rewinds_witness :
    pool1024Three.blocks[1]? = some ⟨131072, 132048, 132096, 0⟩ ∧
    (ngx_reset_pool lp64 pool1024Three answeringWorld).1.blocks[1]? =
      some ⟨131072, 131072 + lp64.sizeof_ngx_pool_t, 132096, 0⟩ :=
  ⟨rfl, (ngx_reset_pool_rewinds lp64 pool1024Three answeringWorld).2.1 1 _ rfl⟩

/-! ## Block growth -/

/-- The bump path of a pool in which no block from `current` on has room is the
block growth. -/
theorem smallAlloc_grow (pf : Platform) (aligned : Bool) (pool : Pool) (size : Nat) (w : World)
    (hcur : pool.current < pool.blocks.length)
    (hfull : ∀ b ∈ pool.blocks.drop pool.current, ¬ fits pf aligned size b) :
    smallAlloc pf aligned pool size w = ngx_palloc_block pf pool size w := by
  simp only [smallAlloc, hcur, if_true, bumpScan_none pf aligned size _ hfull]

/-- The block growth when the raw allocator answers the request. -/
theorem ngx_palloc_block_grow (pf : Platform) (pool : Pool) (size : Nat) (w : World)
    (hd : Block) (tl : List Block) (hblocks : pool.blocks = hd :: tl)
    (hcur : pool.current < pool.blocks.length) (hraw : w.oracle w.calls ≠ 0) :
    ngx_palloc_block pf pool size w =
      .ok (ngx_align_ptr (w.oracle w.calls + pf.sizeof_ngx_pool_data_t) pf.NGX_ALIGNMENT,
        { pool with
          blocks := pool.blocks.take pool.current ++
            (failScan pool.current pool.current (pool.blocks.drop pool.current)).2 ++
            [{ addr := w.oracle w.calls
               last := ngx_align_ptr (w.oracle w.calls + pf.sizeof_ngx_pool_data_t)
                 pf.NGX_ALIGNMENT + size
               end_ := w.oracle w.calls + sizeSub pf hd.end_ hd.addr
               failed := 0 }]
          current := (failScan pool.current pool.current (pool.blocks.drop pool.current)).1 },
        (ngx_memalign NGX_POOL_ALIGNMENT (sizeSub pf hd.end_ hd.addr) w).2) := by
  have hlen : pool.current < (hd :: tl).length := by rw [← hblocks]; exact hcur
  simp only [ngx_palloc_block, hblocks, ngx_memalign, hraw, if_false, hlen, if_true]

theorem failScan_length (bs : List Block) (i cur : Nat) :
    (failScan i cur bs).2.length = bs.length := by
  have h := congrArg List.length (failScan_span bs i cur)
  simpa using h

theorem grown_blocks_length (pool : Pool) (new : Block) (hcur : pool.current < pool.blocks.length) :
    (pool.blocks.take pool.current ++
      (failScan pool.current pool.current (pool.blocks.drop pool.current)).2 ++ [new]).length =
      pool.blocks.length + 1 := by
  simp only [List.length_append, List.length_take, failScan_length, List.length_drop,
    List.length_singleton]
  omega

theorem grown_blocks_span (pool : Pool) (new : Block) :
    (pool.blocks.take pool.current ++
      (failScan pool.current pool.current (pool.blocks.drop pool.current)).2 ++ [new]).map
        Block.span = pool.blocks.map Block.span ++ [new.span] := by
  simp only [List.map_append, failScan_span, List.map_cons, List.map_nil]
  rw [← List.map_append, List.take_append_drop]

/-- C16. For every pool with `current` in its chain and every `size <= pool->max`: when
no block from `current` on has room (for `ngx_palloc` on the aligned test, for
`ngx_pnalloc` on the unaligned one) and the raw allocator answers the request
with the address `m`, the call makes one request `ngx_memalign` of
`(size_t) (pool->d.end - (u_char *) pool)` bytes, the `end` of the head block
minus its address; the chain after the call is the chain before it, every block
with its address, `last` and `end`, followed by one new block at `m` that ends
at `m` plus that size; the new block is the `next` of the previous tail, its own
`next` is `NULL` and its `failed` is 0; the call returns
`m + sizeof(ngx_pool_data_t)` rounded up to `NGX_ALIGNMENT`, and the `last` of
the new block is that address plus `size`. -/
theorem block_growth_spec (pf : Platform) (fuel : Nat) (pool : Pool) (size : Nat) (w : World)
    (hd : Block) (tl : List Block) (hblocks : pool.blocks = hd :: tl)
    (hsize : size ≤ pool.max) (hcur : pool.current < pool.blocks.length)
    (hraw : w.oracle w.calls ≠ 0) :
    ∃ pool1 w1,
      ((∀ b ∈ pool.blocks.drop pool.current, ¬ fits pf true size b) →
        ngx_palloc pf fuel pool size w =
          .ok (ngx_align_ptr (w.oracle w.calls + pf.sizeof_ngx_pool_data_t) pf.NGX_ALIGNMENT,
            pool1, w1)) ∧
      ((∀ b ∈ pool.blocks.drop pool.current, ¬ fits pf false size b) →
        ngx_pnalloc pf fuel pool size w =
          .ok (ngx_align_ptr (w.oracle w.calls + pf.sizeof_ngx_pool_data_t) pf.NGX_ALIGNMENT,
            pool1, w1)) ∧
      w1.trace = w.trace ++
        [Event.memalign NGX_POOL_ALIGNMENT (sizeSub pf hd.end_ hd.addr) (w.oracle w.calls)] ∧
      pool1.blocks.length = pool.blocks.length + 1 ∧
      pool1.blocks.map Block.span = pool.blocks.map Block.span ++
        [(w.oracle w.calls,
          ngx_align_ptr (w.oracle w.calls + pf.sizeof_ngx_pool_data_t) pf.NGX_ALIGNMENT + size,
          w.oracle w.calls + sizeSub pf hd.end_ hd.addr)] ∧
      pool1.blocks[pool.blocks.length]? =
        some { addr := w.oracle w.calls
               last := ngx_align_ptr (w.oracle w.calls + pf.sizeof_ngx_pool_data_t)
                 pf.NGX_ALIGNMENT + size
               end_ := w.oracle w.calls + sizeSub pf hd.end_ hd.addr
               failed := 0 } ∧
      pool1.nextOf (pool.blocks.length - 1) = w.oracle w.calls ∧
      pool1.nextOf pool.blocks.length = 0 := by
  have hg := ngx_palloc_block_grow pf pool size w hd tl hblocks hcur hraw
  have hlen := grown_blocks_length pool
    { addr := w.oracle w.calls
      last := ngx_align_ptr (w.oracle w.calls + pf.sizeof_ngx_pool_data_t) pf.NGX_ALIGNMENT + size
      end_ := w.oracle w.calls + sizeSub pf hd.end_ hd.addr
      failed := 0 } hcur
  have hlen2 : (pool.blocks.take pool.current ++
      (failScan pool.current pool.current (pool.blocks.drop pool.current)).2).length =
      pool.blocks.length := by
    simp only [List.length_append, List.length_take, failScan_length, List.length_drop]
    omega
  have hnew : ∀ new : Block, (pool.blocks.take pool.current ++
      (failScan pool.current pool.current (pool.blocks.drop pool.current)).2 ++
        [new])[pool.blocks.length]? = some new := by
    intro new
    rw [List.getElem?_append_right (by omega), hlen2]
    simp
  refine ⟨{ pool with
      blocks := pool.blocks.take pool.current ++
        (failScan pool.current pool.current (pool.blocks.drop pool.current)).2 ++
        [{ addr := w.oracle w.calls
           last := ngx_align_ptr (w.oracle w.calls + pf.sizeof_ngx_pool_data_t)
             pf.NGX_ALIGNMENT + size
           end_ := w.oracle w.calls + sizeSub pf hd.end_ hd.addr
           failed := 0 }]
      current := (failScan pool.current pool.current (pool.blocks.drop pool.current)).1 },
    (ngx_memalign NGX_POOL_ALIGNMENT (sizeSub pf hd.end_ hd.addr) w).2,
    ?_, ?_, rfl, hlen, grown_blocks_span pool _, hnew _, ?_, ?_⟩
  · intro hfull
    rw [ngx_palloc_small pf fuel pool size w hsize, smallAlloc_grow pf true pool size w hcur hfull]
    exact hg
  · intro hfull
    rw [ngx_pnalloc_small pf fuel pool size w hsize,
      smallAlloc_grow pf false pool size w hcur hfull]
    exact hg
  · have h1 : pool.blocks.length - 1 + 1 = pool.blocks.length := by omega
    simp only [Pool.nextOf, h1, hnew]
  · simp only [Pool.nextOf]
    rw [List.getElem?_eq_none (by omega)]

/-- Witness of C16: the LP64 pool of 1024 bytes after eight calls
`ngx_palloc(pool, 944)`, no block of which has 944 bytes left; the raw allocator
answers with `589824`. -/
theorem block_growth_spec_witness :
    pool1024Grown.blocks = ⟨65536, 66560, 66560, 6⟩ :: pool1024Grown.blocks.tail ∧
    (944 : Nat) ≤ pool1024Grown.max ∧
    pool1024Grown.current < pool1024Grown.blocks.length ∧
    answeringWorldGrown.oracle answeringWorldGrown.calls ≠ 0 ∧
    (∀ b ∈ pool1024Grown.blocks.drop pool1024Grown.current, ¬ fits lp64 true 944 b) ∧
    ∃ pool1 w1,
      ngx_palloc lp64 0 pool1024Grown 944 answeringWorldGrown = .ok (589856, pool1, w1) ∧
      w1.trace = answeringWorldGrown.trace ++ [Event.memalign 16 1024 589824] ∧
      pool1.blocks.length = 9 ∧
      pool1.blocks[8]? = some ⟨589824, 590800, 590848, 0⟩ ∧
      pool1.nextOf 7 = 589824 ∧ pool1.nextOf 8 = 0 := by
  obtain ⟨pool1, w1, hA, _, ht, hl, _, hn, hx, hy⟩ :=
    block_growth_spec lp64 0 pool1024Grown 944 answeringWorldGrown _ _ rfl (by decide)
      (by decide) (by decide)
  exact ⟨rfl, by decide, by decide, by decide, by decide, pool1, w1, hA (by decide), ht, hl, hn,
    hx, hy⟩

/-! ## The failure counters across a block growth -/

/-- Counterexample to C18 as stated: the LP64 pool of 1024 bytes after eight calls
`ngx_palloc(pool, 944)`: eight blocks with the counters 6, 5, 4, 3, 2, 1, 0, 0 and
`current` at the second block.  One more `ngx_palloc(pool, 944)` finds no room
and grows the chain.  The old tail, the eighth block, keeps its counter 0: the
loop `for (p = current; p->d.next != NULL; p = p->d.next)` ends before it.  After
the call the third block has the counter 5, which exceeds 4, and `current` is
that block, not a block after it. -/
theorem growth_skips_old_tail :
    runCalls lp64 (List.replicate 8 (Call.palloc 944)) pool1024 (answeringWorldAfterCreate 1024) =
      .ok ([65616, 131104, 196640, 262176, 327712, 393248, 458784, 524320],
        pool1024Grown, answeringWorldGrown) ∧
    ngx_palloc lp64 0 pool1024Grown 944 answeringWorldGrown =
      .ok (589856, pool1024Nine, answeringWorldNine) ∧
    ngx_palloc_block lp64 pool1024Grown 944 answeringWorldGrown =
      .ok (589856, pool1024Nine, answeringWorldNine) ∧
    pool1024Grown.current = 1 ∧
    pool1024Grown.counters = [6, 5, 4, 3, 2, 1, 0, 0] ∧
    pool1024Nine.counters = [6, 6, 5, 4, 3, 2, 1, 0, 0] ∧
    pool1024Grown.blocks[7]? = some ⟨524288, 525264, 525312, 0⟩ ∧
    pool1024Grown.nextOf 7 = 0 ∧
    pool1024Nine.blocks[7]? = some ⟨524288, 525264, 525312, 0⟩ ∧
    pool1024Nine.blocks[2]? = some ⟨196608, 197584, 197632, 5⟩ ∧
    pool1024Nine.current = 2 :=
  ⟨rfl, rfl, rfl, rfl, rfl, rfl, rfl, rfl, rfl, rfl, rfl⟩

/-- The counters after the loop of `ngx_palloc_block`: every block but the last of
the scanned part was counted once more. -/
theorem failScan_getElem? :
    ∀ (bs : List Block) (i cur j : Nat) (b : Block), bs[j]? = some b →
      (failScan i cur bs).2[j]? =
        some { b with failed := if j + 1 < bs.length then b.failed + 1 else b.failed } := by
  intro bs
  induction bs with
  | nil => intro i cur j b h; simp at h
  | cons x xs ih =>
    intro i cur j b h
    cases xs with
    | nil =>
      cases j with
      | zero =>
        simp only [List.getElem?_cons_zero, Option.some.injEq] at h
        simp [failScan, h]
      | succ k => simp at h
    | cons y ys =>
      cases j with
      | zero =>
        simp only [List.getElem?_cons_zero, Option.some.injEq] at h
        simp [failScan, h]
      | succ k =>
        simp only [List.getElem?_cons_succ] at h
        have h2 := ih (i + 1) (if x.failed > 4 then i + 1 else cur) k b h
        simp only [failScan, List.getElem?_cons_succ, h2, List.length_cons]
        simp

/-- The value of `current` after the loop of `ngx_palloc_block`: the position
after the last scanned block whose counter was above 4 before the loop, or the
value before the loop when there is no such block. -/
theorem failScan_current :
    ∀ (bs : List Block) (i cur : Nat),
      ((∀ (j : Nat) (b : Block), j + 1 < bs.length → bs[j]? = some b → b.failed ≤ 4) ∧
        (failScan i cur bs).1 = cur) ∨
      (∃ (j : Nat) (b : Block), j + 1 < bs.length ∧ bs[j]? = some b ∧ 4 < b.failed ∧
        (failScan i cur bs).1 = i + j + 1 ∧
        ∀ (k : Nat) (c : Block), j < k → k + 1 < bs.length → bs[k]? = some c → c.failed ≤ 4) := by
  intro bs
  induction bs with
  | nil => intro i cur; left; simp [failScan]
  | cons x xs ih =>
    intro i cur
    cases xs with
    | nil => left; simp [failScan]
    | cons y ys =>
      rcases ih (i + 1) (if x.failed > 4 then i + 1 else cur) with ⟨hall, hcur⟩ | ⟨j, b, hj, hb, hf, hcur, hrest⟩
      · by_cases hx : x.failed > 4
        · right
          rw [if_pos hx] at hcur
          refine ⟨0, x, by simp, by simp, hx, ?_, ?_⟩
          · simp only [failScan, if_pos hx, hcur]
          · intro k c hk hkl hc
            cases k with
            | zero => omega
            | succ k1 =>
              simp only [List.getElem?_cons_succ] at hc
              simp only [List.length_cons] at hkl
              exact hall k1 c (by simp only [List.length_cons]; omega) hc
        · left
          rw [if_neg hx] at hcur
          refine ⟨?_, by simp only [failScan, if_neg hx, hcur]⟩
          intro k c hkl hc
          cases k with
          | zero =>
            simp only [List.getElem?_cons_zero, Option.some.injEq] at hc
            rw [← hc]; omega
          | succ k1 =>
            simp only [List.getElem?_cons_succ] at hc
            simp only [List.length_cons] at hkl
            exact hall k1 c (by simp only [List.length_cons]; omega) hc
      · right
        refine ⟨j + 1, b, by simp only [List.length_cons] at hj ⊢; omega,
          by simpa using hb, hf, ?_, ?_⟩
        · simp only [failScan, hcur]; omega
        · intro k c hk hkl hc
          cases k with
          | zero => omega
          | succ k1 =>
            simp only [List.getElem?_cons_succ] at hc
            simp only [List.length_cons] at hkl
            exact hrest k1 c (by omega) (by simp only [List.length_cons]; omega) hc

theorem grown_blocks_getElem? (pool : Pool) (new : Block)
    (hcur : pool.current < pool.blocks.length) (i : Nat) (b : Block)
    (hb : pool.blocks[i]? = some b) :
    (pool.blocks.take pool.current ++
      (failScan pool.current pool.current (pool.blocks.drop pool.current)).2 ++ [new])[i]? =
      some { b with
        failed := if pool.current ≤ i ∧ i + 1 < pool.blocks.length then b.failed + 1
          else b.failed } := by
  have hi : i < pool.blocks.length := by
    by_contra hc
    rw [List.getElem?_eq_none (by omega)] at hb
    simp at hb
  have hlen2 : (pool.blocks.take pool.current ++
      (failScan pool.current pool.current (pool.blocks.drop pool.current)).2).length =
      pool.blocks.length := by
    simp only [List.length_append, List.length_take, failScan_length, List.length_drop]
    omega
  rw [List.getElem?_append_left (by omega)]
  by_cases hic : i < pool.current
  · rw [List.getElem?_append_left (by simp only [List.length_take]; omega),
      List.getElem?_take_of_lt hic, hb]
    have hn : ¬ (pool.current ≤ i ∧ i + 1 < pool.blocks.length) := by omega
    simp only [hn, if_false]
  · have htl : (pool.blocks.take pool.current).length = pool.current := by
      simp only [List.length_take]; omega
    rw [List.getElem?_append_right (by omega), htl]
    have hd : (pool.blocks.drop pool.current)[i - pool.current]? = some b := by
      rw [List.getElem?_drop]
      have : pool.current + (i - pool.current) = i := by omega
      rw [this]; exact hb
    rw [failScan_getElem? _ _ _ _ _ hd]
    simp only [List.length_drop]
    by_cases hlast : i + 1 < pool.blocks.length
    · have h1 : i - pool.current + 1 < pool.blocks.length - pool.current := by omega
      have h2 : pool.current ≤ i ∧ i + 1 < pool.blocks.length := ⟨by omega, hlast⟩
      simp only [h1, h2, if_true, and_self]
    · have h1 : ¬ i - pool.current + 1 < pool.blocks.length - pool.current := by omega
      have h2 : ¬ (pool.current ≤ i ∧ i + 1 < pool.blocks.length) := by omega
      simp only [h1, h2, if_false]

theorem grown_current (pool : Pool) (hcur : pool.current < pool.blocks.length) :
    ((∀ (i : Nat) (b : Block), pool.current ≤ i → i + 1 < pool.blocks.length →
        pool.blocks[i]? = some b → b.failed ≤ 4) ∧
      (failScan pool.current pool.current (pool.blocks.drop pool.current)).1 = pool.current) ∨
    (∃ (i : Nat) (b : Block), pool.current ≤ i ∧ i + 1 < pool.blocks.length ∧
      pool.blocks[i]? = some b ∧ 4 < b.failed ∧
      (failScan pool.current pool.current (pool.blocks.drop pool.current)).1 = i + 1 ∧
      ∀ (k : Nat) (c : Block), i < k → k + 1 < pool.blocks.length →
        pool.blocks[k]? = some c → c.failed ≤ 4) := by
  rcases failScan_current (pool.blocks.drop pool.current) pool.current pool.current with
    ⟨hall, hc⟩ | ⟨j, b, hj, hb, hf, hc, hrest⟩
  · left
    refine ⟨?_, hc⟩
    intro i b hi hil hb
    refine hall (i - pool.current) b (by simp only [List.length_drop]; omega) ?_
    rw [List.getElem?_drop]
    have : pool.current + (i - pool.current) = i := by omega
    rw [this]; exact hb
  · right
    simp only [List.length_drop] at hj
    rw [List.getElem?_drop] at hb
    refine ⟨pool.current + j, b, by omega, by omega, hb, hf, by omega, ?_⟩
    intro k c hk hkl hcb
    refine hrest (k - pool.current) c (by omega) (by simp only [List.length_drop]; omega) ?_
    rw [List.getElem?_drop]
    have : pool.current + (k - pool.current) = k := by omega
    rw [this]; exact hcb

/-- C18, amended. On every block growth that the raw allocator answers, with `current` in the
chain: every block from the old `current` up to, but not including, the old tail
has its `failed` incremented by exactly one; the old tail, the blocks before the
old `current` keep their counters, and no other field of a block changes; the
appended block has `failed = 0`.  The new `current` is not before the old one,
lies in the old chain, and lies strictly after every block from the old
`current` up to the one before the old tail whose counter was above 4 before
the call (the test `p->d.failed++ > 4` reads the counter before it is
incremented); it is the old `current` or the block after such a block. -/
theorem block_growth_counters (pf : Platform) (pool : Pool) (size : Nat) (w : World)
    (hd : Block) (tl : List Block) (hblocks : pool.blocks = hd :: tl)
    (hcur : pool.current < pool.blocks.length) (hraw : w.oracle w.calls ≠ 0) :
    ∃ a pool1 w1,
      ngx_palloc_block pf pool size w = .ok (a, pool1, w1) ∧
      pool1.blocks.length = pool.blocks.length + 1 ∧
      (∀ (i : Nat) (b : Block), pool.blocks[i]? = some b →
        pool1.blocks[i]? =
          some { b with
            failed := if pool.current ≤ i ∧ i + 1 < pool.blocks.length then b.failed + 1
              else b.failed }) ∧
      (∃ b, pool1.blocks[pool.blocks.length]? = some b ∧ b.failed = 0) ∧
      pool.current ≤ pool1.current ∧ pool1.current < pool.blocks.length ∧
      (∀ (i : Nat) (b : Block), pool.current ≤ i → i + 1 < pool.blocks.length →
        pool.blocks[i]? = some b → 4 < b.failed → i < pool1.current) ∧
      (pool1.current = pool.current ∨
        ∃ (i : Nat) (b : Block), pool.current ≤ i ∧ i + 1 < pool.blocks.length ∧
          pool.blocks[i]? = some b ∧ 4 < b.failed ∧ pool1.current = i + 1) := by
  have hg := ngx_palloc_block_grow pf pool size w hd tl hblocks hcur hraw
  refine ⟨_, _, _, hg, grown_blocks_length pool _ hcur,
    fun i b hb => grown_blocks_getElem? pool _ hcur i b hb, ?_, ?_⟩
  · have hlen2 : (pool.blocks.take pool.current ++
        (failScan pool.current pool.current (pool.blocks.drop pool.current)).2).length =
        pool.blocks.length := by
      simp only [List.length_append, List.length_take, failScan_length, List.length_drop]
      omega
    refine ⟨{ addr := w.oracle w.calls
              last := ngx_align_ptr (w.oracle w.calls + pf.sizeof_ngx_pool_data_t)
                pf.NGX_ALIGNMENT + size
              end_ := w.oracle w.calls + sizeSub pf hd.end_ hd.addr
              failed := 0 }, ?_, rfl⟩
    show (_ ++ [_])[pool.blocks.length]? = some _
    rw [List.getElem?_append_right (by omega), hlen2]
    simp
  · have key : ∀ c : Nat,
        (((∀ (i : Nat) (b : Block), pool.current ≤ i → i + 1 < pool.blocks.length →
            pool.blocks[i]? = some b → b.failed ≤ 4) ∧ c = pool.current) ∨
          (∃ (i : Nat) (b : Block), pool.current ≤ i ∧ i + 1 < pool.blocks.length ∧
            pool.blocks[i]? = some b ∧ 4 < b.failed ∧ c = i + 1 ∧
            ∀ (k : Nat) (d : Block), i < k → k + 1 < pool.blocks.length →
              pool.blocks[k]? = some d → d.failed ≤ 4)) →
        pool.current ≤ c ∧ c < pool.blocks.length ∧
        (∀ (i : Nat) (b : Block), pool.current ≤ i → i + 1 < pool.blocks.length →
          pool.blocks[i]? = some b → 4 < b.failed → i < c) ∧
        (c = pool.current ∨
          ∃ (i : Nat) (b : Block), pool.current ≤ i ∧ i + 1 < pool.blocks.length ∧
            pool.blocks[i]? = some b ∧ 4 < b.failed ∧ c = i + 1) := by
      intro c hc
      rcases hc with ⟨hall, hc⟩ | ⟨i, b, hi, hil, hb, hf, hc, hrest⟩
      · refine ⟨by omega, by omega, ?_, Or.inl hc⟩
        intro i b hi hil hb hf
        have := hall i b hi hil hb
        omega
      · refine ⟨by omega, by omega, ?_, Or.inr ⟨i, b, hi, hil, hb, hf, hc⟩⟩
        intro k d hk hkl hdb hdf
        by_contra hlt
        have := hrest k d (by omega) hkl hdb
        omega
    exact key _ (grown_current pool hcur)

/-- Witness of C18, amended: the growth of the LP64 pool of 1024 bytes after eight calls
`ngx_palloc(pool, 944)`: the second block goes from 5 to 6, the old tail stays
at 0, and `current` moves past the second block. -/
theorem block_growth_counters_witness :
    pool1024Grown.blocks = ⟨65536, 66560, 66560, 6⟩ :: pool1024Grown.blocks.tail ∧
    pool1024Grown.current < pool1024Grown.blocks.length ∧
    answeringWorldGrown.oracle answeringWorldGrown.calls ≠ 0 ∧
    ∃ a pool1 w1,
      ngx_palloc_block lp64 pool1024Grown 944 answeringWorldGrown = .ok (a, pool1, w1) ∧
      pool1.blocks[1]? = some ⟨131072, 132048, 132096, 6⟩ ∧
      pool1.blocks[7]? = some ⟨524288, 525264, 525312, 0⟩ ∧
      1 < pool1.current := by
  obtain ⟨a, pool1, w1, h, _, hget, _, _, _, hpast, _⟩ :=
    block_growth_counters lp64 pool1024Grown 944 answeringWorldGrown _ _ rfl (by decide)
      (by decide)
  exact ⟨rfl, by decide, by decide, a, pool1, w1, h, hget 1 ⟨131072, 132048, 132096, 5⟩ rfl,
    hget 7 ⟨524288, 525264, 525312, 0⟩ rfl,
    hpast 1 ⟨131072, 132048, 132096, 5⟩ (by decide) (by decide) rfl (by decide)⟩

/-! ## The bound of the scan for a vacant slot -/

/-- Counterexample to C17 as stated: the LP64 pool of 4096 bytes after five large allocations
and the release of the first: the registry has five nodes, the first four from
the head hold payloads and the fifth is vacant.  The next
`ngx_palloc(pool, 5000)`, answered with `458752`, stores the payload in the fifth
node and links no fresh node: the registry still has five nodes, at the same
addresses, and the arena is untouched. -/
theorem large_reuses_fifth_slot :
    (∃ as pool5 w5,
      runCalls lp64 (List.replicate 5 (Call.palloc 5000)) pool4096
        (answeringWorldAfterCreate 4096) = .ok (as, pool5, w5) ∧
      ngx_pfree pool5 131072 w5 = (NGX_OK, pool4096Five, answeringWorldFive)) ∧
    (∀ l ∈ pool4096Five.large.take 4, l.alloc ≠ 0) ∧
    pool4096Five.large[4]? = some ⟨65616, 0⟩ ∧
    pool4096Five.max < 5000 ∧
    ngx_palloc lp64 1 pool4096Five 5000 answeringWorldFive =
      .ok (458752,
        { pool4096Five with
          large := [⟨65680, 393216⟩, ⟨65664, 327680⟩, ⟨65648, 262144⟩, ⟨65632, 196608⟩,
                    ⟨65616, 458752⟩] },
        (ngx_alloc 5000 answeringWorldFive).2) :=
  ⟨⟨_, _, _, rfl, rfl⟩, by decide, rfl, by decide, rfl⟩

/-- The bump path, block growth included, leaves the two registries and `max` as
they are. -/
theorem smallAlloc_registries (pf : Platform) (aligned : Bool) (pool : Pool) (size : Nat)
    (w : World) (a : Nat) (pool1 : Pool) (w1 : World)
    (h : smallAlloc pf aligned pool size w = .ok (a, pool1, w1)) :
    pool1.large = pool.large ∧ pool1.cleanup = pool.cleanup ∧ pool1.max = pool.max := by
  unfold smallAlloc at h
  split at h
  · split at h
    · simp only [Except.ok.injEq, Prod.mk.injEq] at h
      rw [← h.2.1]; exact ⟨rfl, rfl, rfl⟩
    · unfold ngx_palloc_block at h
      split at h
      · simp at h
      · simp only at h
        split at h
        · simp only [Except.ok.injEq, Prod.mk.injEq] at h
          rw [← h.2.1]; exact ⟨rfl, rfl, rfl⟩
        · simp only [Except.ok.injEq, Prod.mk.injEq] at h
          rw [← h.2.1]; exact ⟨rfl, rfl, rfl⟩
  · simp at h

/-- The loop of `ngx_palloc_large` entered with the counter at `n`: a vacant slot
among the first `5 - n` nodes is found, and the first such slot is filled. -/
theorem largeScan_reuse (p : Nat) :
    ∀ (ls : List LargeNode) (n : Nat), n ≤ 4 → (∃ l ∈ ls.take (5 - n), l.alloc = 0) →
      ∃ pre l post, ls = pre ++ l :: post ∧ pre.length < 5 - n ∧ (∀ x ∈ pre, x.alloc ≠ 0) ∧
        l.alloc = 0 ∧ largeScan p n ls = some (pre ++ { l with alloc := p } :: post) := by
  intro ls
  induction ls with
  | nil => intro n _ h; simp at h
  | cons l ls ih =>
    intro n hn h
    by_cases hl : l.alloc = 0
    · exact ⟨[], l, ls, rfl, by simp only [List.length_nil]; omega, by simp, hl,
        by simp [largeScan, hl]⟩
    · obtain ⟨x, hx, hx0⟩ := h
      have h5 : 5 - n = (4 - n) + 1 := by omega
      rw [h5, List.take_succ_cons] at hx
      rcases List.mem_cons.mp hx with rfl | hx1
      · exact absurd hx0 hl
      · have hn3 : ¬ n > 3 := by
          intro hc
          have : 4 - n = 0 := by omega
          rw [this] at hx1
          simp at hx1
        have h4 : 4 - n = 5 - (n + 1) := by omega
        rw [h4] at hx1
        obtain ⟨pre, m, post, hls, hlen, hpre, hm, hscan⟩ := ih (n + 1) (by omega) ⟨x, hx1, hx0⟩
        refine ⟨l :: pre, m, post, by rw [hls]; rfl, by simp only [List.length_cons]; omega, ?_,
          hm, ?_⟩
        · intro y hy
          rcases List.mem_cons.mp hy with rfl | hy1
          · exact hl
          · exact hpre y hy1
        · simp [largeScan, hl, hn3, hscan]

/-- The loop of `ngx_palloc_large` entered with the counter at `n`: when the first
`5 - n` nodes all hold payloads, the loop ends without a slot. -/
theorem largeScan_full (p : Nat) :
    ∀ (ls : List LargeNode) (n : Nat), n ≤ 4 → (∀ l ∈ ls.take (5 - n), l.alloc ≠ 0) →
      largeScan p n ls = none := by
  intro ls
  induction ls with
  | nil => intro n _ _; rfl
  | cons l ls ih =>
    intro n hn h
    have h5 : 5 - n = (4 - n) + 1 := by omega
    rw [h5, List.take_succ_cons] at h
    have hl : l.alloc ≠ 0 := h l (List.mem_cons_self _ _)
    by_cases hn3 : n > 3
    · simp [largeScan, hl, hn3]
    · have h4 : 4 - n = 5 - (n + 1) := by omega
      rw [h4] at h
      have := ih (n + 1) (by omega) (fun x hx => h x (List.mem_cons_of_mem _ hx))
      simp [largeScan, hl, hn3, this]

/-- C17, amended. For every pool, every `size > pool->max` and a raw allocator that answers the
request with `p`: the loop of `ngx_palloc_large` looks at the first 5 nodes of
the registry (it tests `large->alloc == NULL` before `n++ > 3`, so the fifth node
is still tested).  When one of the first 5 nodes is vacant, `ngx_palloc` stores
`p` in the first vacant one and links no node.  When the first 5 nodes all hold
payloads, then, in a pool with valid pointers whose `max` admits a registry node
and with the node request answered, `ngx_palloc` takes a node from the arena and
links it at the head of the registry, whether or not a node further down is
vacant. -/
theorem large_scan_bound (pf : Platform) (halign : 0 < pf.NGX_ALIGNMENT) (fuel : Nat)
    (pool : Pool) (size : Nat) (w : World) (hsize : pool.max < size)
    (hraw : w.oracle w.calls ≠ 0) :
    ((∃ l ∈ pool.large.take 5, l.alloc = 0) →
      ∃ pre l post, pool.large = pre ++ l :: post ∧ pre.length < 5 ∧
        (∀ x ∈ pre, x.alloc ≠ 0) ∧ l.alloc = 0 ∧
        ngx_palloc pf (fuel + 1) pool size w =
          .ok (w.oracle w.calls,
            { pool with large := pre ++ { l with alloc := w.oracle w.calls } :: post },
            (ngx_alloc size w).2)) ∧
    ((∀ l ∈ pool.large.take 5, l.alloc ≠ 0) → pool.Valid →
      pf.sizeof_ngx_pool_large_t ≤ pool.max → w.oracle (w.calls + 1) ≠ 0 →
      ∃ node pool1 w1,
        ngx_palloc pf fuel pool pf.sizeof_ngx_pool_large_t (ngx_alloc size w).2 =
          .ok (node, pool1, w1) ∧
        node ≠ 0 ∧ pool1.large = pool.large ∧
        ngx_palloc pf (fuel + 1) pool size w =
          .ok (w.oracle w.calls,
            { pool1 with large := { addr := node, alloc := w.oracle w.calls } :: pool.large },
            w1)) := by
  constructor
  · intro hvac
    obtain ⟨pre, l, post, hls, hlen, hpre, hl, hscan⟩ :=
      largeScan_reuse (w.oracle w.calls) pool.large 0 (by omega) hvac
    refine ⟨pre, l, post, hls, hlen, hpre, hl, ?_⟩
    rw [ngx_palloc_big pf _ pool size w hsize]
    simp only [ngx_palloc_large, ngx_alloc, hraw, if_false, hscan]
  · intro hfull hv hnode hraw1
    have hscan := largeScan_full (w.oracle w.calls) pool.large 0 (by omega) hfull
    obtain ⟨node, pool1, w1, hn, hn0⟩ := smallAlloc_ok pf halign true pool
      pf.sizeof_ngx_pool_large_t (ngx_alloc size w).2 hv hraw1
    have hreg := (smallAlloc_registries pf true pool _ _ node pool1 w1 hn).1
    rw [← ngx_palloc_small pf fuel pool _ _ hnode] at hn
    refine ⟨node, pool1, w1, hn, hn0, hreg, ?_⟩
    rw [ngx_palloc_big pf _ pool size w hsize]
    have hn1 : ngx_palloc pf fuel pool pf.sizeof_ngx_pool_large_t
        ⟨w.oracle, w.calls + 1, w.trace ++ [Event.alloc size (w.oracle w.calls)]⟩ =
        .ok (node, pool1, w1) := hn
    simp only [ngx_palloc_large, nestedPalloc, ngx_alloc, hraw, if_false, hscan, hn1, hn0, hreg]

/-- Witness of C17, amended: the registry of five nodes with the fifth vacant, where the slot
is reused, and the registry of six nodes with only the sixth vacant, where a node
is linked at the head. -/
theorem large_scan_bound_witness :
    pool4096Five.max < 5000 ∧ answeringWorldFive.oracle answeringWorldFive.calls ≠ 0 ∧
    (∃ l ∈ pool4096Five.large.take 5, l.alloc = 0) ∧
    (∃ pre l post, pool4096Five.large = pre ++ l :: post ∧ pre.length < 5 ∧
      (∀ x ∈ pre, x.alloc ≠ 0) ∧ l.alloc = 0 ∧
      ngx_palloc lp64 (0 + 1) pool4096Five 5000 answeringWorldFive =
        .ok (answeringWorldFive.oracle answeringWorldFive.calls,
          { pool4096Five with
            large := pre ++
              { l with alloc := answeringWorldFive.oracle answeringWorldFive.calls } :: post },
          (ngx_alloc 5000 answeringWorldFive).2)) ∧
    pool4096Six.max < 5000 ∧ answeringWorldSix.oracle answeringWorldSix.calls ≠ 0 ∧
    (∀ l ∈ pool4096Six.large.take 5, l.alloc ≠ 0) ∧
    pool4096Six.large[5]? = some ⟨65616, 0⟩ ∧
    lp64.sizeof_ngx_pool_large_t ≤ pool4096Six.max ∧
    answeringWorldSix.oracle (answeringWorldSix.calls + 1) ≠ 0 ∧
    (∃ node pool1 w1,
      ngx_palloc lp64 0 pool4096Six lp64.sizeof_ngx_pool_large_t
        (ngx_alloc 5000 answeringWorldSix).2 = .ok (node, pool1, w1) ∧
      node ≠ 0 ∧ pool1.large = pool4096Six.large ∧
      ngx_palloc lp64 (0 + 1) pool4096Six 5000 answeringWorldSix =
        .ok (answeringWorldSix.oracle answeringWorldSix.calls,
          { pool1 with
            large := { addr := node, alloc := answeringWorldSix.oracle answeringWorldSix.calls } ::
              pool4096Six.large },
          w1)) :=
  ⟨by decide, by decide, ⟨⟨65616, 0⟩, by decide, rfl⟩,
    (large_scan_bound lp64 (by decide) 0 pool4096Five 5000 answeringWorldFive (by decide)
      (by decide)).1 ⟨⟨65616, 0⟩, by decide, rfl⟩,
    by decide, by decide, by decide, rfl, by decide, by decide,
    (large_scan_bound lp64 (by decide) 0 pool4096Six 5000 answeringWorldSix (by decide)
      (by decide)).2 (by decide) ⟨by decide, by decide⟩ (by decide) (by decide)⟩

/-! ## `ngx_pool_run_cleanup_file` -/

theorem runCleanups_append :
    ∀ (cs ds : List CleanupNode) (w : World),
      runCleanups (cs ++ ds) w = runCleanups ds (runCleanups cs w) := by
  intro cs
  induction cs with
  | nil => intro ds w; rfl
  | cons c cs ih =>
    intro ds w
    show runCleanups (cs ++ ds) _ = runCleanups ds (runCleanups cs _)
    exact ih ds _

/-- The cleanup loop of `ngx_destroy_pool` passes over an entry without handler. -/
theorem runCleanups_disarmed (pre post : List CleanupNode) (c : CleanupNode) (w : World) :
    runCleanups (pre ++ { c with handler := 0 } :: post) w = runCleanups (pre ++ post) w := by
  rw [runCleanups_append, runCleanups_append]
  simp only [runCleanups, if_true]

theorem runCleanupFileScan_found (pf : Platform) (fdAt : Nat → Int) (fd : Int) :
    ∀ (cs : List CleanupNode) (w : World),
      (∀ c ∈ cs, c.handler = pf.ngx_pool_cleanup_file → c.data ≠ 0) →
      (∃ c ∈ cs, c.handler = pf.ngx_pool_cleanup_file ∧ fdAt c.data = fd) →
      ∃ pre c post, cs = pre ++ c :: post ∧
        (∀ x ∈ pre, ¬ (x.handler = pf.ngx_pool_cleanup_file ∧ fdAt x.data = fd)) ∧
        c.handler = pf.ngx_pool_cleanup_file ∧ fdAt c.data = fd ∧
        runCleanupFileScan pf fdAt fd cs w =
          .ok (pre ++ { c with handler := 0 } :: post,
            callHandler pf.ngx_pool_cleanup_file c.data w) := by
  intro cs
  induction cs with
  | nil => intro w _ h; simp at h
  | cons c cs ih =>
    intro w hdata h
    have hnull : ¬ (c.handler = pf.ngx_pool_cleanup_file ∧ c.data = 0) :=
      fun hc => hdata c (List.mem_cons_self _ _) hc.1 hc.2
    by_cases hc : c.handler = pf.ngx_pool_cleanup_file ∧ fdAt c.data = fd
    · refine ⟨[], c, cs, rfl, by simp, hc.1, hc.2, ?_⟩
      have hd0 : c.data ≠ 0 := hdata c (List.mem_cons_self _ _) hc.1
      simp [runCleanupFileScan, hc.1, hc.2, hd0]
    · obtain ⟨x, hx, hxm⟩ := h
      rcases List.mem_cons.mp hx with rfl | hx1
      · exact absurd hxm hc
      · obtain ⟨pre, d, post, hcs, hpre, hd1, hd2, hscan⟩ :=
          ih w (fun y hy => hdata y (List.mem_cons_of_mem _ hy)) ⟨x, hx1, hxm⟩
        refine ⟨c :: pre, d, post, by rw [hcs]; rfl, ?_, hd1, hd2, ?_⟩
        · intro y hy
          rcases List.mem_cons.mp hy with rfl | hy1
          · exact hc
          · exact hpre y hy1
        · simp only [runCleanupFileScan, hnull, if_false, hc, hscan, List.cons_append]

theorem runCleanupFileScan_none (pf : Platform) (fdAt : Nat → Int) (fd : Int) :
    ∀ (cs : List CleanupNode) (w : World),
      (∀ c ∈ cs, c.handler = pf.ngx_pool_cleanup_file → c.data ≠ 0) →
      (∀ c ∈ cs, ¬ (c.handler = pf.ngx_pool_cleanup_file ∧ fdAt c.data = fd)) →
      runCleanupFileScan pf fdAt fd cs w = .ok (cs, w) := by
  intro cs
  induction cs with
  | nil => intro w _ _; rfl
  | cons c cs ih =>
    intro w hdata h
    have hnull : ¬ (c.handler = pf.ngx_pool_cleanup_file ∧ c.data = 0) :=
      fun hc => hdata c (List.mem_cons_self _ _) hc.1 hc.2
    have hc := h c (List.mem_cons_self _ _)
    have := ih w (fun y hy => hdata y (List.mem_cons_of_mem _ hy))
      (fun y hy => h y (List.mem_cons_of_mem _ hy))
    simp only [runCleanupFileScan, hnull, if_false, hc, this]

/-- C13. For every pool in which every entry with the handler `ngx_pool_cleanup_file` has
a payload, every descriptor `fd` and every content of the payloads (`fdAt`):
if the registry has an entry whose handler is `ngx_pool_cleanup_file` and whose
payload holds `fd`, then `ngx_pool_run_cleanup_file(p, fd)` calls the handler of
the first such entry from the head, once, with the payload of that entry, sets
that handler to `NULL` and leaves every other entry, and the entry's address and
data, as they are; the cleanup loop of a later `ngx_destroy_pool` then does what
it does on the registry without that entry, so the handler is not called
again.  If the registry has no such entry, nothing is called and the pool is
unchanged. -/
theorem run_cleanup_file_spec (pf : Platform) (fdAt : Nat → Int) (pool : Pool) (fd : Int)
    (w : World)
    (hdata : ∀ c ∈ pool.cleanup, c.handler = pf.ngx_pool_cleanup_file → c.data ≠ 0) :
    ((∃ c ∈ pool.cleanup, c.handler = pf.ngx_pool_cleanup_file ∧ fdAt c.data = fd) →
      ∃ pre c post, pool.cleanup = pre ++ c :: post ∧
        (∀ x ∈ pre, ¬ (x.handler = pf.ngx_pool_cleanup_file ∧ fdAt x.data = fd)) ∧
        c.handler = pf.ngx_pool_cleanup_file ∧ fdAt c.data = fd ∧
        (∃ w1,
          ngx_pool_run_cleanup_file pf fdAt pool fd w =
            .ok ({ pool with cleanup := pre ++ { c with handler := 0 } :: post }, w1) ∧
          w1.trace = w.trace ++ [Event.handler pf.ngx_pool_cleanup_file c.data]) ∧
        (∀ w2, runCleanups (pre ++ { c with handler := 0 } :: post) w2 =
          runCleanups (pre ++ post) w2) ∧
        ∀ w2, ngx_destroy_pool { pool with cleanup := pre ++ { c with handler := 0 } :: post } w2 =
          ngx_destroy_pool { pool with cleanup := pre ++ post } w2) ∧
    ((∀ c ∈ pool.cleanup, ¬ (c.handler = pf.ngx_pool_cleanup_file ∧ fdAt c.data = fd)) →
      ngx_pool_run_cleanup_file pf fdAt pool fd w = .ok (pool, w)) := by
  constructor
  · intro h
    obtain ⟨pre, c, post, hcs, hpre, hc1, hc2, hscan⟩ :=
      runCleanupFileScan_found pf fdAt fd pool.cleanup w hdata h
    refine ⟨pre, c, post, hcs, hpre, hc1, hc2,
      ⟨callHandler pf.ngx_pool_cleanup_file c.data w, ?_, rfl⟩,
      fun w2 => runCleanups_disarmed pre post c w2, ?_⟩
    · simp only [ngx_pool_run_cleanup_file, hscan]
    · intro w2
      simp only [ngx_destroy_pool, runCleanups_disarmed]
  · intro h
    simp only [ngx_pool_run_cleanup_file, runCleanupFileScan_none pf fdAt fd pool.cleanup w hdata h]

/-- Witness of C13: a registry of four entries; the first from the head is a file entry for
the descriptor 4, the second holds the descriptor 5 under another handler, the
third and the fourth are file entries for the descriptor 5.  For `fd = 5` the
third is run and disarmed; for `fd = 9` nothing happens. -/
theorem run_cleanup_file_spec_witness :
    (∀ c ∈ pool1024Files.cleanup, c.handler = lp64.ngx_pool_cleanup_file → c.data ≠ 0) ∧
    (∃ c ∈ pool1024Files.cleanup,
      c.handler = lp64.ngx_pool_cleanup_file ∧ fileDescriptors c.data = 5) ∧
    (∃ pre c post, pool1024Files.cleanup = pre ++ c :: post ∧
      (∀ x ∈ pre, ¬ (x.handler = lp64.ngx_pool_cleanup_file ∧ fileDescriptors x.data = 5)) ∧
      c.handler = lp64.ngx_pool_cleanup_file ∧ fileDescriptors c.data = 5 ∧
      (∃ w1,
        ngx_pool_run_cleanup_file lp64 fileDescriptors pool1024Files 5
            (answeringWorldAfterCreate 1024) =
          .ok ({ pool1024Files with cleanup := pre ++ { c with handler := 0 } :: post }, w1) ∧
        w1.trace = (answeringWorldAfterCreate 1024).trace ++
          [Event.handler lp64.ngx_pool_cleanup_file c.data]) ∧
      (∀ w2, runCleanups (pre ++ { c with handler := 0 } :: post) w2 =
        runCleanups (pre ++ post) w2) ∧
      ∀ w2,
        ngx_destroy_pool
            { pool1024Files with cleanup := pre ++ { c with handler := 0 } :: post } w2 =
          ngx_destroy_pool { pool1024Files with cleanup := pre ++ post } w2) ∧
    ngx_pool_run_cleanup_file lp64 fileDescriptors pool1024Files 5
        (answeringWorldAfterCreate 1024) =
      .ok ({ pool1024Files with
             cleanup := [⟨65760, 4198400, 65784⟩, ⟨65712, 8392704, 65736⟩, ⟨65664, 0, 65688⟩,
                         ⟨65616, 4198400, 65640⟩] },
        callHandler 4198400 65688 (answeringWorldAfterCreate 1024)) ∧
    (∀ c ∈ pool1024Files.cleanup,
      ¬ (c.handler = lp64.ngx_pool_cleanup_file ∧ fileDescriptors c.data = 9)) ∧
    ngx_pool_run_cleanup_file lp64 fileDescriptors pool1024Files 9
        (answeringWorldAfterCreate 1024) =
      .ok (pool1024Files, answeringWorldAfterCreate 1024) :=
  ⟨by decide, ⟨⟨65664, 4198400, 65688⟩, by decide, by decide⟩,
    (run_cleanup_file_spec lp64 fileDescriptors pool1024Files 5 (answeringWorldAfterCreate 1024)
      (by decide)).1 ⟨⟨65664, 4198400, 65688⟩, by decide, by decide⟩,
    rfl, by decide,
    (run_cleanup_file_spec lp64 fileDescriptors pool1024Files 9 (answeringWorldAfterCreate 1024)
      (by decide)).2 (by decide)⟩

/-! ## Failed allocations -/

theorem outstandingFrom_append :
    ∀ (e1 e2 : List Event) (held : List Nat),
      outstandingFrom held (e1 ++ e2) = outstandingFrom (outstandingFrom held e1) e2 := by
  intro e1
  induction e1 with
  | nil => intro e2 held; rfl
  | cons e es ih =>
    intro e2 held
    cases e with
    | alloc sz ret =>
      show outstandingFrom _ (es ++ e2) = outstandingFrom (outstandingFrom _ es) e2
      exact ih e2 _
    | memalign al sz ret =>
      show outstandingFrom _ (es ++ e2) = outstandingFrom (outstandingFrom _ es) e2
      exact ih e2 _
    | free p =>
      show outstandingFrom _ (es ++ e2) = outstandingFrom (outstandingFrom _ es) e2
      exact ih e2 _
    | handler h d =>
      show outstandingFrom _ (es ++ e2) = outstandingFrom (outstandingFrom _ es) e2
      exact ih e2 _

/-- A request answered with `p`, events that leave the held payloads as they are,
and the release of `p` leave the held payloads as they are. -/
theorem outstandingFrom_bracket (p : Nat) (hp : p ≠ 0) (e1 evs : List Event)
    (h1 : ∀ held, outstandingFrom held e1 = if p = 0 then held else p :: held)
    (hevs : ∀ held, outstandingFrom held evs = held) :
    ∀ held, outstandingFrom held (e1 ++ evs ++ [Event.free p]) = held := by
  intro held
  rw [outstandingFrom_append, outstandingFrom_append, h1, hevs]
  simp [outstandingFrom, hp]

/-- The bump path of a pool with valid pointers returns `NULL` only when the block
request fails, and then the pool is untouched. -/
theorem smallAlloc_null (pf : Platform) (halign : 0 < pf.NGX_ALIGNMENT) (aligned : Bool)
    (pool : Pool) (size : Nat) (w : World) (pool1 : Pool) (w1 : World) (hv : pool.Valid)
    (h : smallAlloc pf aligned pool size w = .ok (0, pool1, w1)) :
    pool1 = pool ∧ ∃ evs, w1.trace = w.trace ++ evs ∧
      ∀ held, outstandingFrom held evs = held := by
  obtain ⟨hcur, hpos⟩ := hv
  unfold smallAlloc at h
  simp only [hcur, if_true] at h
  split at h
  · rename_i m bs hscan
    obtain ⟨hm, _, _⟩ := bumpScan_pos pf aligned size halign _ _ _
      (fun b hb => hpos b (List.mem_of_mem_drop hb)) hscan
    simp only [Except.ok.injEq, Prod.mk.injEq] at h
    omega
  · unfold ngx_palloc_block at h
    split at h
    · simp at h
    · simp only at h
      split at h
      · rename_i hm0
        simp only [Except.ok.injEq, Prod.mk.injEq, true_and] at h
        refine ⟨h.1.symm, _, by rw [← h.2]; rfl, ?_⟩
        intro held
        have hm1 : w.oracle w.calls = 0 := hm0
        simp [outstandingFrom, hm1]
      · rename_i hm0
        rename_i hd tl hbl
        simp only [Except.ok.injEq, Prod.mk.injEq] at h
        have hle := le_ngx_align_ptr
          ((ngx_memalign NGX_POOL_ALIGNMENT (sizeSub pf hd.end_ hd.addr) w).1 +
            pf.sizeof_ngx_pool_data_t)
          pf.NGX_ALIGNMENT halign
        omega

theorem ngx_palloc_large_null (pf : Platform) (palloc : Pool → Nat → World → Res)
    (hp : ∀ pool size w pool1 w1, pool.Valid → palloc pool size w = .ok (0, pool1, w1) →
      pool1 = pool ∧ ∃ evs, w1.trace = w.trace ++ evs ∧
        ∀ held, outstandingFrom held evs = held)
    (pool : Pool) (size : Nat) (w : World) (pool1 : Pool) (w1 : World) (hv : pool.Valid)
    (h : ngx_palloc_large pf palloc pool size w = .ok (0, pool1, w1)) :
    pool1 = pool ∧ ∃ evs, w1.trace = w.trace ++ evs ∧
      ∀ held, outstandingFrom held evs = held := by
  unfold ngx_palloc_large at h
  simp only at h
  split at h
  · rename_i hp0
    simp only [Except.ok.injEq, Prod.mk.injEq, true_and] at h
    refine ⟨h.1.symm, _, by rw [← h.2]; rfl, ?_⟩
    intro held
    have hp1 : w.oracle w.calls = 0 := hp0
    simp [outstandingFrom, hp1]
  · rename_i hp0
    split at h
    · simp only [Except.ok.injEq, Prod.mk.injEq] at h
      exact absurd h.1 hp0
    · split at h
      · simp at h
      · rename_i l pool2 w2 hn
        split at h
        · rename_i hl0
          simp only [Except.ok.injEq, Prod.mk.injEq, true_and] at h
          rw [hl0] at hn
          obtain ⟨hpool, evs, htr, hbal⟩ := hp _ _ _ _ _ hv hn
          refine ⟨by rw [← h.1]; exact hpool,
            [Event.alloc size (w.oracle w.calls)] ++ evs ++ [Event.free (w.oracle w.calls)], ?_,
            ?_⟩
          · rw [← h.2]
            show w2.trace ++ [Event.free (w.oracle w.calls)] = _
            rw [htr]
            show (w.trace ++ [Event.alloc size (w.oracle w.calls)]) ++ evs ++ _ = _
            simp only [List.append_assoc]
          · exact outstandingFrom_bracket (w.oracle w.calls) hp0 _ evs
              (fun held => by simp [outstandingFrom]) hbal
        · simp only [Except.ok.injEq, Prod.mk.injEq] at h
          exact absurd h.1 hp0

theorem ngx_palloc_null (pf : Platform) (halign : 0 < pf.NGX_ALIGNMENT) :
    ∀ (fuel : Nat) (pool : Pool) (size : Nat) (w : World) (pool1 : Pool) (w1 : World),
      pool.Valid → ngx_palloc pf fuel pool size w = .ok (0, pool1, w1) →
      pool1 = pool ∧ ∃ evs, w1.trace = w.trace ++ evs ∧
        ∀ held, outstandingFrom held evs = held := by
  intro fuel
  induction fuel with
  | zero =>
    intro pool size w pool1 w1 hv h
    by_cases hs : size ≤ pool.max
    · rw [ngx_palloc_small pf 0 pool size w hs] at h
      exact smallAlloc_null pf halign true pool size w pool1 w1 hv h
    · rw [ngx_palloc_big pf 0 pool size w (by omega)] at h
      refine ngx_palloc_large_null pf _ ?_ pool size w pool1 w1 hv h
      intro pool size w pool1 w1 _ h0
      simp [nestedPalloc] at h0
  | succ k ih =>
    intro pool size w pool1 w1 hv h
    by_cases hs : size ≤ pool.max
    · rw [ngx_palloc_small pf _ pool size w hs] at h
      exact smallAlloc_null pf halign true pool size w pool1 w1 hv h
    · rw [ngx_palloc_big pf _ pool size w (by omega)] at h
      exact ngx_palloc_large_null pf _ ih pool size w pool1 w1 hv h

theorem nestedPalloc_null (pf : Platform) (halign : 0 < pf.NGX_ALIGNMENT) (fuel : Nat)
    (pool : Pool) (size : Nat) (w : World) (pool1 : Pool) (w1 : World) (hv : pool.Valid)
    (h : nestedPalloc pf fuel pool size w = .ok (0, pool1, w1)) :
    pool1 = pool ∧ ∃ evs, w1.trace = w.trace ++ evs ∧
      ∀ held, outstandingFrom held evs = held := by
  cases fuel with
  | zero => simp [nestedPalloc] at h
  | succ k => exact ngx_palloc_null pf halign k pool size w pool1 w1 hv h

theorem ngx_pmemalign_null (pf : Platform) (halign : 0 < pf.NGX_ALIGNMENT) (fuel : Nat)
    (pool : Pool) (size alignment : Nat) (w : World) (pool1 : Pool) (w1 : World)
    (hv : pool.Valid) (h : ngx_pmemalign pf fuel pool size alignment w = .ok (0, pool1, w1)) :
    pool1 = pool ∧ ∃ evs, w1.trace = w.trace ++ evs ∧
      ∀ held, outstandingFrom held evs = held := by
  unfold ngx_pmemalign at h
  simp only at h
  split at h
  · rename_i hp0
    simp only [Except.ok.injEq, Prod.mk.injEq, true_and] at h
    refine ⟨h.1.symm, _, by rw [← h.2]; rfl, ?_⟩
    intro held
    have hp1 : w.oracle w.calls = 0 := hp0
    simp [outstandingFrom, hp1]
  · rename_i hp0
    split at h
    · simp at h
    · rename_i l pool2 w2 hn
      split at h
      · rename_i hl0
        simp only [Except.ok.injEq, Prod.mk.injEq, true_and] at h
        rw [hl0] at hn
        obtain ⟨hpool, evs, htr, hbal⟩ := ngx_palloc_null pf halign _ _ _ _ _ _ hv hn
        refine ⟨by rw [← h.1]; exact hpool,
          [Event.memalign alignment size (w.oracle w.calls)] ++ evs ++
            [Event.free (w.oracle w.calls)], ?_, ?_⟩
        · rw [← h.2]
          show w2.trace ++ [Event.free (w.oracle w.calls)] = _
          rw [htr]
          show (w.trace ++ [Event.memalign alignment size (w.oracle w.calls)]) ++ evs ++ _ = _
          simp only [List.append_assoc]
        · exact outstandingFrom_bracket (w.oracle w.calls) hp0 _ evs
            (fun held => by simp [outstandingFrom]) hbal
      · simp only [Except.ok.injEq, Prod.mk.injEq] at h
        exact absurd h.1 hp0

/-- C12. For every pool with valid pointers (`current` in the chain, no block with a null
address or a null `last`; every state reachable from `ngx_create_pool` is such a
pool) and a positive alignment: whenever `ngx_palloc`, `ngx_pnalloc` or
`ngx_pmemalign` returns `NULL`, the pool after the call equals the pool before it
in every field (the blocks with their `last`, `end`, `failed` and order,
`current`, `max`, the large registry, the cleanup registry), and the events of
the call leave no payload outstanding: every address the raw allocator handed
out during the call was passed to `ngx_free` later in the call. -/
theorem alloc_failure_leaves_pool (pf : Platform) (halign : 0 < pf.NGX_ALIGNMENT) (fuel : Nat)
    (pool : Pool) (size alignment : Nat) (w : World) (pool1 : Pool) (w1 : World)
    (hv : pool.Valid) :
    (ngx_palloc pf fuel pool size w = .ok (0, pool1, w1) →
      pool1 = pool ∧ ∃ evs, w1.trace = w.trace ++ evs ∧ outstanding evs = []) ∧
    (ngx_pnalloc pf fuel pool size w = .ok (0, pool1, w1) →
      pool1 = pool ∧ ∃ evs, w1.trace = w.trace ++ evs ∧ outstanding evs = []) ∧
    (ngx_pmemalign pf fuel pool size alignment w = .ok (0, pool1, w1) →
      pool1 = pool ∧ ∃ evs, w1.trace = w.trace ++ evs ∧ outstanding evs = []) := by
  refine ⟨fun h => ?_, fun h => ?_, fun h => ?_⟩
  · obtain ⟨hpool, evs, htr, hbal⟩ := ngx_palloc_null pf halign fuel pool size w pool1 w1 hv h
    exact ⟨hpool, evs, htr, hbal []⟩
  · have h2 : pool1 = pool ∧ ∃ evs, w1.trace = w.trace ++ evs ∧
        ∀ held, outstandingFrom held evs = held := by
      by_cases hs : size ≤ pool.max
      · rw [ngx_pnalloc_small pf fuel pool size w hs] at h
        exact smallAlloc_null pf halign false pool size w pool1 w1 hv h
      · rw [ngx_pnalloc_big pf fuel pool size w (by omega)] at h
        exact ngx_palloc_large_null pf _
          (fun pool size w pool1 w1 hv h =>
            nestedPalloc_null pf halign fuel pool size w pool1 w1 hv h)
          pool size w pool1 w1 hv h
    obtain ⟨hpool, evs, htr, hbal⟩ := h2
    exact ⟨hpool, evs, htr, hbal []⟩
  · obtain ⟨hpool, evs, htr, hbal⟩ :=
      ngx_pmemalign_null pf halign fuel pool size alignment w pool1 w1 hv h
    exact ⟨hpool, evs, htr, hbal []⟩

/-- Witness of C12: the LP64 pool of 1024 bytes with its one block full, and a raw allocator
that answers the payload request with `131072` and fails the block request for
the registry node: each of the three calls returns `NULL`, releases `131072`
and leaves the pool as it was. -/
theorem alloc_failure_leaves_pool_witness :
    pool1024Full.Valid ∧
    (∃ w1, ngx_palloc lp64 1 pool1024Full 5000 scarceWorld = .ok (0, pool1024Full, w1) ∧
      w1.trace = scarceWorld.trace ++
        [Event.alloc 5000 131072, Event.memalign 16 1024 0, Event.free 131072] ∧
      pool1024Full = pool1024Full ∧
      ∃ evs, w1.trace = scarceWorld.trace ++ evs ∧ outstanding evs = []) ∧
    (∃ w1, ngx_pnalloc lp64 1 pool1024Full 5000 scarceWorld = .ok (0, pool1024Full, w1) ∧
      pool1024Full = pool1024Full ∧
      ∃ evs, w1.trace = scarceWorld.trace ++ evs ∧ outstanding evs = []) ∧
    (∃ w1, ngx_pmemalign lp64 1 pool1024Full 5000 64 scarceWorld = .ok (0, pool1024Full, w1) ∧
      pool1024Full = pool1024Full ∧
      ∃ evs, w1.trace = scarceWorld.trace ++ evs ∧ outstanding evs = []) :=
  have hv : pool1024Full.Valid := ⟨by decide, by decide⟩
  ⟨hv,
    ⟨_, rfl, rfl,
      (alloc_failure_leaves_pool lp64 (by decide) 1 pool1024Full 5000 64 scarceWorld
        pool1024Full _ hv).1 rfl⟩,
    ⟨_, rfl,
      (alloc_failure_leaves_pool lp64 (by decide) 1 pool1024Full 5000 64 scarceWorld
        pool1024Full _ hv).2.1 rfl⟩,
    ⟨_, rfl,
      (alloc_failure_leaves_pool lp64 (by decide) 1 pool1024Full 5000 64 scarceWorld
        pool1024Full _ hv).2.2 rfl⟩⟩

/-! ## The failure counters in reachable states -/

theorem bumpScan_counters (pf : Platform) (aligned : Bool) (size : Nat) :
    ∀ (bs bs1 : List Block) (m : Nat), bumpScan pf aligned size bs = some (m, bs1) →
      bs1.map Block.failed = bs.map Block.failed := by
  intro bs
  induction bs with
  | nil => intro bs1 m h; simp [bumpScan] at h
  | cons b bs ih =>
    intro bs1 m h
    unfold bumpScan at h
    split at h
    · simp only [Option.some.injEq, Prod.mk.injEq] at h
      rw [← h.2]; simp [bump]
    · split at h
      · rename_i m2 bs2 h2
        simp only [Option.some.injEq, Prod.mk.injEq] at h
        rw [← h.2]
        simp only [List.map_cons, ih bs2 m2 h2]
      · simp at h

theorem countersOk_of_counters_eq (pool pool1 : Pool) (hc : pool1.current = pool.current)
    (hF : pool1.counters = pool.counters) (h : pool.CountersOk) : pool1.CountersOk := by
  have hget : ∀ (i : Nat) (b1 : Block), pool1.blocks[i]? = some b1 →
      ∃ b, pool.blocks[i]? = some b ∧ b.failed = b1.failed := by
    intro i b1 hb1
    have h1 : (pool1.blocks.map Block.failed)[i]? = (pool.blocks.map Block.failed)[i]? := by
      show pool1.counters[i]? = pool.counters[i]?
      rw [hF]
    rw [List.getElem?_map, List.getElem?_map, hb1] at h1
    cases hb : pool.blocks[i]? with
    | none => rw [hb] at h1; simp at h1
    | some b =>
      rw [hb] at h1
      simp only [Option.map_some', Option.some.injEq] at h1
      exact ⟨b, rfl, h1.symm⟩
  obtain ⟨h6, h5, hmono⟩ := h
  refine ⟨?_, ?_, ?_⟩
  · intro i b1 hb1
    obtain ⟨b, hb, hf⟩ := hget i b1 hb1
    have := h6 i b hb
    omega
  · intro i b1 hi hb1
    obtain ⟨b, hb, hf⟩ := hget i b1 hb1
    have := h5 i b (by omega) hb
    omega
  · intro i j bi bj hi hij hbi hbj
    obtain ⟨ci, hci, hfi⟩ := hget i bi hbi
    obtain ⟨cj, hcj, hfj⟩ := hget j bj hbj
    have := hmono i j ci cj (by omega) hij hci hcj
    omega

theorem grown_lookup (pool : Pool) (new : Block) (hcur : pool.current < pool.blocks.length)
    (i : Nat) (b1 : Block)
    (h : (pool.blocks.take pool.current ++
      (failScan pool.current pool.current (pool.blocks.drop pool.current)).2 ++ [new])[i]? =
        some b1) :
    (∃ b, pool.blocks[i]? = some b ∧
      b1.failed = if pool.current ≤ i ∧ i + 1 < pool.blocks.length then b.failed + 1
        else b.failed) ∨
    (i = pool.blocks.length ∧ b1 = new) := by
  by_cases hi : i < pool.blocks.length
  · left
    refine ⟨pool.blocks[i], List.getElem?_eq_getElem hi, ?_⟩
    have h2 := grown_blocks_getElem? pool new hcur i _ (List.getElem?_eq_getElem hi)
    rw [h2] at h
    simp only [Option.some.injEq] at h
    rw [← h]
  · right
    have hlen := grown_blocks_length pool new hcur
    have hlen2 : (pool.blocks.take pool.current ++
        (failScan pool.current pool.current (pool.blocks.drop pool.current)).2).length =
        pool.blocks.length := by
      simp only [List.length_append, List.length_take, failScan_length, List.length_drop]
      omega
    by_cases hi2 : i = pool.blocks.length
    · refine ⟨hi2, ?_⟩
      rw [hi2, List.getElem?_append_right (by omega), hlen2] at h
      simpa using h.symm
    · rw [List.getElem?_eq_none (by omega)] at h
      simp at h

/-- A block growth keeps the failure counters in order. -/
theorem grown_countersOk (pool : Pool) (new : Block) (hnew : new.failed = 0)
    (hcur : pool.current < pool.blocks.length) (h : pool.CountersOk) :
    Pool.CountersOk
      { pool with
        blocks := pool.blocks.take pool.current ++
          (failScan pool.current pool.current (pool.blocks.drop pool.current)).2 ++ [new]
        current := (failScan pool.current pool.current (pool.blocks.drop pool.current)).1 } := by
  obtain ⟨h6, h5, hmono⟩ := h
  have hlook := grown_lookup pool new hcur
  have hc := grown_current pool hcur
  generalize (failScan pool.current pool.current (pool.blocks.drop pool.current)).1 = c1 at hc
  have hge : pool.current ≤ c1 := by
    rcases hc with ⟨_, hc⟩ | ⟨i0, _, hi0, _, _, _, hc, _⟩ <;> omega
  have hlow : ∀ (i : Nat) (b : Block), c1 ≤ i → i + 1 < pool.blocks.length →
      pool.blocks[i]? = some b → b.failed ≤ 4 := by
    intro i b hi hil hb
    rcases hc with ⟨hall, hc⟩ | ⟨i0, _, hi0, _, _, _, hc, hrest⟩
    · exact hall i b (by omega) hil hb
    · exact hrest i b (by omega) hil hb
  refine ⟨?_, ?_, ?_⟩
  · intro i b1 hb1
    rcases hlook i b1 hb1 with ⟨b, hb, hf⟩ | ⟨_, hb⟩
    · have := h6 i b hb
      split at hf
      · rename_i hs
        have := h5 i b hs.1 hb
        omega
      · omega
    · rw [hb, hnew]; omega
  · intro i b1 hi0 hb1
    have hi : c1 ≤ i := hi0
    rcases hlook i b1 hb1 with ⟨b, hb, hf⟩ | ⟨_, hb⟩
    · split at hf
      · rename_i hs
        have := hlow i b hi hs.2 hb
        omega
      · have := h5 i b (by omega) hb
        omega
    · rw [hb, hnew]; omega
  · intro i j bi bj hi0 hij hbi hbj
    have hi : c1 ≤ i := hi0
    rcases hlook j bj hbj with ⟨cj, hcj, hfj⟩ | ⟨_, hbj2⟩
    · have hjl : j < pool.blocks.length := by
        by_contra hc2
        rw [List.getElem?_eq_none (by omega)] at hcj
        simp at hcj
      rcases hlook i bi hbi with ⟨ci, hci, hfi⟩ | ⟨hil, _⟩
      · have hm := hmono i j ci cj (by omega) hij hci hcj
        split at hfj
        · rename_i hs
          have hsi : pool.current ≤ i ∧ i + 1 < pool.blocks.length := ⟨by omega, by omega⟩
          rw [if_pos hsi] at hfi
          omega
        · split at hfi <;> omega
      · omega
    · rw [hbj2, hnew]; omega

theorem smallAlloc_countersOk (pf : Platform) (aligned : Bool) (pool : Pool) (size : Nat)
    (w : World) (a : Nat) (pool1 : Pool) (w1 : World)
    (h : smallAlloc pf aligned pool size w = .ok (a, pool1, w1)) (hok : pool.CountersOk) :
    pool1.CountersOk := by
  unfold smallAlloc at h
  split at h
  · rename_i hcur
    split at h
    · rename_i m bs hscan
      simp only [Except.ok.injEq, Prod.mk.injEq] at h
      rw [← h.2.1]
      refine countersOk_of_counters_eq pool _ rfl ?_ hok
      show (pool.blocks.take pool.current ++ bs).map Block.failed = pool.blocks.map Block.failed
      rw [List.map_append, bumpScan_counters pf aligned size _ _ _ hscan, ← List.map_append,
        List.take_append_drop]
    · unfold ngx_palloc_block at h
      split at h
      · simp at h
      · simp only at h
        split at h
        · simp only [Except.ok.injEq, Prod.mk.injEq] at h
          rw [← h.2.1]; exact hok
        · rename_i hd tl hbl hm0
          have hlen : pool.current < (hd :: tl).length := by rw [← hbl]; exact hcur
          simp only [hlen, if_true, Except.ok.injEq, Prod.mk.injEq] at h
          rw [← h.2.1]
          exact grown_countersOk pool _ rfl hcur hok
  · simp at h

theorem countersOk_stepRel (pf : Platform) :
    StepRel pf fun pool pool1 => pool.CountersOk → pool1.CountersOk where
  refl := fun _ h => h
  trans := fun _ _ _ h12 h23 h => h23 (h12 h)
  small := fun aligned pool size w a pool1 w1 h hok =>
    smallAlloc_countersOk pf aligned pool size w a pool1 w1 h hok
  large := fun _ _ h => h
  cleanup := fun _ _ h => h
  reset := fun pool w h => by
    refine countersOk_of_counters_eq pool _ rfl ?_ h
    simp [ngx_reset_pool, Pool.counters, List.map_map, Function.comp_def]

/-- In every state reachable from a pool fresh from `ngx_create_pool` the failure
counters are in order. -/
theorem Reachable.countersOk {pf : Platform} {size log : Nat} {w w1 : World} {pool0 pool : Pool}
    (hcreate : ngx_create_pool pf size log w = (some pool0, w1))
    (h : Reachable pf pool0 pool) : pool.CountersOk := by
  obtain ⟨_, hpool⟩ := ngx_create_pool_some pf size log w w1 pool0 hcreate
  refine h.rel (countersOk_stepRel pf) ?_
  rw [hpool]
  have hone : ∀ (i : Nat) (b c : Block), [c][i]? = some b → i = 0 ∧ b = c := by
    intro i b c hb
    cases i with
    | zero => simp at hb; exact ⟨rfl, hb.symm⟩
    | succ k => simp at hb
  refine ⟨?_, ?_, ?_⟩
  · intro i b hb
    obtain ⟨_, hb2⟩ := hone i b _ hb
    rw [hb2]; show 0 ≤ 6; omega
  · intro i b _ hb
    obtain ⟨_, hb2⟩ := hone i b _ hb
    rw [hb2]; show 0 ≤ 5; omega
  · intro i j bi bj _ hij _ hbj
    obtain ⟨hj, _⟩ := hone j bj _ hbj
    omega

/-- C20. In every state reachable from a pool created by `ngx_create_pool` through
`ngx_palloc`, `ngx_pnalloc`, `ngx_pmemalign`, `ngx_pfree`, `ngx_pool_cleanup_add`,
an assignment to a handler, `ngx_pool_run_cleanup_file` and `ngx_reset_pool`:
every block has `failed <= 6`, every block from `pool->current` to the tail has
`failed <= 5`, and from `pool->current` to the tail the counters do not increase
(for two blocks of that part, the later one has a counter no larger than the
earlier one). -/
theorem failed_counters_bounded (pf : Platform) (size log : Nat) (w w1 : World)
    (pool0 pool : Pool) (hcreate : ngx_create_pool pf size log w = (some pool0, w1))
    (hreach : Reachable pf pool0 pool) :
    (∀ b ∈ pool.blocks, b.failed ≤ 6) ∧
    (∀ b ∈ pool.blocks.drop pool.current, b.failed ≤ 5) ∧
    ((pool.blocks.drop pool.current).map Block.failed).Pairwise (fun a b => b ≤ a) := by
  obtain ⟨h6, h5, hmono⟩ := hreach.countersOk hcreate
  refine ⟨?_, ?_, ?_⟩
  · intro b hb
    obtain ⟨i, hi⟩ := List.mem_iff_getElem?.mp hb
    exact h6 i b hi
  · intro b hb
    obtain ⟨k, hk⟩ := List.mem_iff_getElem?.mp hb
    rw [List.getElem?_drop] at hk
    exact h5 _ b (by omega) hk
  · rw [List.pairwise_iff_getElem]
    intro i j hi hj hij
    simp only [List.length_map, List.length_drop] at hi hj
    simp only [List.getElem_map, List.getElem_drop]
    exact hmono (pool.current + i) (pool.current + j) _ _ (by omega) (by omega)
      (List.getElem?_eq_getElem (by omega)) (List.getElem?_eq_getElem (by omega))

/-- Witness of C20: the LP64 pool of 1024 bytes after nine calls `ngx_palloc(pool, 944)`:
the counters are 6, 6, 5, 4, 3, 2, 1, 0, 0 and `current` is the third block. -/
theorem failed_counters_bounded_witness :
    ngx_create_pool lp64 1024 7 answeringWorld = (some pool1024, answeringWorldAfterCreate 1024) ∧
    Reachable lp64 pool1024 pool1024Nine ∧
    pool1024Nine.counters = [6, 6, 5, 4, 3, 2, 1, 0, 0] ∧ pool1024Nine.current = 2 ∧
    (∀ b ∈ pool1024Nine.blocks, b.failed ≤ 6) ∧
    (∀ b ∈ pool1024Nine.blocks.drop pool1024Nine.current, b.failed ≤ 5) ∧
    ((pool1024Nine.blocks.drop pool1024Nine.current).map Block.failed).Pairwise
      (fun a b => b ≤ a) :=
  have hreach : Reachable lp64 pool1024 pool1024Nine :=
    runCalls_reachable lp64 pool1024 (List.replicate 9 (Call.palloc 944)) pool1024
      (answeringWorldAfterCreate 1024) _ _ _ Reachable.init rfl
  ⟨rfl, hreach, rfl, rfl,
    failed_counters_bounded lp64 1024 7 answeringWorld (answeringWorldAfterCreate 1024)
      pool1024 pool1024Nine rfl hreach⟩

/-! ## Rounds of allocate-then-free on the large registry -/

/-- The scan of `ngx_pfree` for an address that a node holds: a slot is cleared,
and the nodes stay where they are. -/
theorem pfreeScan_held (p : Nat) (ls : List LargeNode) (h : ∃ x ∈ ls, x.alloc = p) :
    ∃ ls1, pfreeScan p ls = some ls1 ∧ ls1.map LargeNode.addr = ls.map LargeNode.addr ∧
      ls1.length = ls.length ∧ ∃ l ∈ ls1, l.alloc = 0 := by
  rcases pfreeScan_spec p ls with ⟨i, n, hin, hn, _, hscan⟩ | ⟨hall, _⟩
  · refine ⟨_, hscan, ?_, by simp, { n with alloc := 0 }, ?_, rfl⟩
    · rw [List.map_set]
      exact set_self_of_getElem? _ i _ (by rw [List.getElem?_map, hin]; rfl)
    · have hil : i < ls.length := by
        by_contra hc
        rw [List.getElem?_eq_none (by omega)] at hin
        simp at hin
      exact List.mem_set ls i hil _
  · obtain ⟨x, hx, hxp⟩ := h
    exact absurd hxp (hall x hx)

/-- A round of allocate-then-free on a registry of at most 5 nodes with a vacant
slot: the slot is reused, no node is linked, and a slot is vacant again after
the round. -/
theorem largeRound_reuse (pf : Platform) (fuel : Nat) (pool : Pool) (size : Nat) (w : World)
    (hlen : pool.large.length ≤ 5) (hvac : ∃ l ∈ pool.large, l.alloc = 0)
    (hsize : pool.max < size) (hraw : w.oracle w.calls ≠ 0) :
    ∃ pool1 w1, largeRound pf fuel pool size w = .ok (pool1, w1) ∧
      pool1.largeNodes = pool.largeNodes ∧ pool1.blocks = pool.blocks ∧
      pool1.max = pool.max ∧ pool1.large.length ≤ 5 ∧ (∃ l ∈ pool1.large, l.alloc = 0) ∧
      w1.oracle = w.oracle := by
  have hvac5 : ∃ l ∈ pool.large.take (5 - 0), l.alloc = 0 := by
    rw [List.take_of_length_le (by omega)]; exact hvac
  obtain ⟨pre, l, post, hls, _, _, _, hscan⟩ :=
    largeScan_reuse (w.oracle w.calls) pool.large 0 (by omega) hvac5
  have halloc : ngx_palloc pf fuel pool size w =
      .ok (w.oracle w.calls,
        { pool with large := pre ++ { l with alloc := w.oracle w.calls } :: post },
        (ngx_alloc size w).2) := by
    rw [ngx_palloc_big pf _ pool size w hsize]
    simp only [ngx_palloc_large, ngx_alloc, hraw, if_false, hscan]
  obtain ⟨ls1, hfree, haddr, hlen1, hvac1⟩ := pfreeScan_held (w.oracle w.calls)
    (pre ++ { l with alloc := w.oracle w.calls } :: post)
    ⟨{ l with alloc := w.oracle w.calls }, by simp, rfl⟩
  refine ⟨{ pool with large := ls1 }, ngx_free (w.oracle w.calls) (ngx_alloc size w).2, ?_, ?_,
    rfl, rfl, ?_, hvac1, rfl⟩
  · simp only [largeRound, halloc, ngx_pfree, hfree]
  · show ls1.map LargeNode.addr = pool.large.map LargeNode.addr
    rw [haddr, hls]
    simp
  · show ls1.length ≤ 5
    rw [hlen1]
    have := congrArg List.length hls
    simp only [List.length_append, List.length_cons] at this ⊢
    omega

theorem largeRounds_reuse (pf : Platform) (fuel : Nat) :
    ∀ (sizes : List Nat) (pool : Pool) (w : World), pool.large.length ≤ 5 →
      (∃ l ∈ pool.large, l.alloc = 0) → (∀ s ∈ sizes, pool.max < s) →
      (∀ n, w.oracle n ≠ 0) →
      ∃ poolN wN, largeRounds pf fuel sizes pool w = .ok (poolN, wN) ∧
        poolN.largeNodes = pool.largeNodes ∧ poolN.blocks = pool.blocks := by
  intro sizes
  induction sizes with
  | nil => intro pool w _ _ _ _; exact ⟨pool, w, rfl, rfl, rfl⟩
  | cons s sizes ih =>
    intro pool w hlen hvac hsizes hraw
    obtain ⟨pool1, w1, hround, hnodes, hblocks, hmax, hlen1, hvac1, horacle⟩ :=
      largeRound_reuse pf fuel pool s w hlen hvac (hsizes s (List.mem_cons_self _ _))
        (hraw w.calls)
    obtain ⟨poolN, wN, hrounds, hnodesN, hblocksN⟩ := ih pool1 w1 hlen1 hvac1
      (fun t ht => by rw [hmax]; exact hsizes t (List.mem_cons_of_mem _ ht))
      (fun n => by rw [horacle]; exact hraw n)
    refine ⟨poolN, wN, ?_, by rw [hnodesN, hnodes], by rw [hblocksN, hblocks]⟩
    simp only [largeRounds, hround, hrounds]

/-- The large path never returns on a pool whose `max` is below the size of a
registry node and whose first 5 registry nodes all hold payloads, when the raw
allocator answers every request. -/
theorem large_path_diverges_full (pf : Platform) (pool : Pool)
    (hmax : pool.max < pf.sizeof_ngx_pool_large_t)
    (hfull : ∀ l ∈ pool.large.take 5, l.alloc ≠ 0) :
    ∀ (fuel size : Nat) (w : World), (∀ k, w.oracle k ≠ 0) →
      ngx_palloc_large pf (nestedPalloc pf fuel) pool size w = .error .outOfFuel := by
  have hscan : ∀ p, largeScan p 0 pool.large = none :=
    fun p => largeScan_full p pool.large 0 (by omega) hfull
  intro fuel
  induction fuel with
  | zero =>
    intro size w hw
    simp [ngx_palloc_large, nestedPalloc, ngx_alloc, hw, hscan]
  | succ k ih =>
    intro size w hw
    have hrec := ih pf.sizeof_ngx_pool_large_t (ngx_alloc size w).2 hw
    rw [← ngx_palloc_big pf k pool _ _ hmax] at hrec
    have hrec1 : ngx_palloc pf k pool pf.sizeof_ngx_pool_large_t
        ⟨w.oracle, w.calls + 1, w.trace ++ [Event.alloc size (w.oracle w.calls)]⟩ =
        .error .outOfFuel := hrec
    simp [ngx_palloc_large, nestedPalloc, ngx_alloc, hw, hscan, hrec1]

theorem smallAlloc_oracle (pf : Platform) (aligned : Bool) (pool : Pool) (size : Nat)
    (w : World) (a : Nat) (pool1 : Pool) (w1 : World)
    (h : smallAlloc pf aligned pool size w = .ok (a, pool1, w1)) : w1.oracle = w.oracle := by
  unfold smallAlloc at h
  split at h
  · split at h
    · simp only [Except.ok.injEq, Prod.mk.injEq] at h
      rw [← h.2.2]
    · unfold ngx_palloc_block at h
      split at h
      · simp at h
      · simp only at h
        split at h
        · simp only [Except.ok.injEq, Prod.mk.injEq] at h
          rw [← h.2.2]; rfl
        · rename_i hcur _ _ _ hd tl hbl _
          have hlen : pool.current < (hd :: tl).length := by rw [← hbl]; exact hcur
          simp only [hlen, if_true, Except.ok.injEq, Prod.mk.injEq] at h
          rw [← h.2.2]; rfl
  · simp at h

/-- A round of allocate-then-free on a registry whose nodes all hold payloads, in
a pool with valid pointers whose `max` admits a registry node: one node is
linked at the head, and its slot is vacant after the round. -/
theorem largeRound_first_node (pf : Platform) (halign : 0 < pf.NGX_ALIGNMENT) (fuel : Nat)
    (pool : Pool) (size : Nat) (w : World) (hv : pool.Valid)
    (hfull : ∀ l ∈ pool.large, l.alloc ≠ 0) (hsize : pool.max < size)
    (hnode : pf.sizeof_ngx_pool_large_t ≤ pool.max) (hraw : ∀ n, w.oracle n ≠ 0) :
    ∃ pool1 w1 a, largeRound pf (fuel + 1) pool size w = .ok (pool1, w1) ∧
      pool1.largeNodes = a :: pool.largeNodes ∧ pool1.max = pool.max ∧
      pool1.large.length = pool.large.length + 1 ∧ (∃ l ∈ pool1.large, l.alloc = 0) ∧
      w1.oracle = w.oracle := by
  have hscan := largeScan_full (w.oracle w.calls) pool.large 0 (by omega)
    (fun l hl => hfull l (List.mem_of_mem_take hl))
  obtain ⟨node, pool1, w1, hn, hn0⟩ := smallAlloc_ok pf halign true pool
    pf.sizeof_ngx_pool_large_t (ngx_alloc size w).2 hv (hraw _)
  obtain ⟨hreg, _, hmax⟩ := smallAlloc_registries pf true pool _ _ node pool1 w1 hn
  have horacle := smallAlloc_oracle pf true pool _ _ node pool1 w1 hn
  rw [← ngx_palloc_small pf fuel pool _ _ hnode] at hn
  have hn1 : ngx_palloc pf fuel pool pf.sizeof_ngx_pool_large_t
      ⟨w.oracle, w.calls + 1, w.trace ++ [Event.alloc size (w.oracle w.calls)]⟩ =
      .ok (node, pool1, w1) := hn
  have halloc : ngx_palloc pf (fuel + 1) pool size w =
      .ok (w.oracle w.calls,
        { pool1 with large := { addr := node, alloc := w.oracle w.calls } :: pool.large },
        w1) := by
    rw [ngx_palloc_big pf _ pool size w hsize]
    simp only [ngx_palloc_large, nestedPalloc, ngx_alloc, hraw w.calls, if_false, hscan, hn1,
      hn0, hreg]
  refine ⟨{ pool1 with large := { addr := node, alloc := 0 } :: pool.large },
    ngx_free (w.oracle w.calls) w1, node, ?_, rfl, hmax, by simp,
    ⟨⟨node, 0⟩, by simp, rfl⟩, horacle⟩
  simp [largeRound, halloc, ngx_pfree, pfreeScan]

/-- C11. For every pool with valid pointers whose large registry has at most 4 nodes, a raw
allocator that answers every request, and rounds of `p = ngx_palloc(pool, size)`
followed by `ngx_pfree(pool, p)` with every size above `pool->max`: when the
first round returns, the registry after it has the nodes it had before, or one
more node at the head; every further round returns, and after any number of
them the registry has the nodes it had after the first round, at the same
addresses in the same order, and the blocks are as they were after the first
round (no node was taken from the arena).  The first round returns when the
registry has a vacant slot, or when `max` admits a registry node and one nested
call is allowed; otherwise (a pool too small for a node, every slot taken) it
does not return at all. -/
theorem large_rounds_reuse (pf : Platform) (halign : 0 < pf.NGX_ALIGNMENT) (fuel : Nat)
    (pool : Pool) (w : World) (size : Nat) (sizes : List Nat) (hv : pool.Valid)
    (h4 : pool.large.length ≤ 4) (hsize : pool.max < size)
    (hsizes : ∀ s ∈ sizes, pool.max < s) (hraw : ∀ n, w.oracle n ≠ 0) :
    (∀ pool1 w1, largeRound pf fuel pool size w = .ok (pool1, w1) →
      (pool1.largeNodes = pool.largeNodes ∨ ∃ a, pool1.largeNodes = a :: pool.largeNodes) ∧
      ∃ poolN wN, largeRounds pf fuel sizes pool1 w1 = .ok (poolN, wN) ∧
        poolN.largeNodes = pool1.largeNodes ∧ poolN.blocks = pool1.blocks) ∧
    (((∃ l ∈ pool.large, l.alloc = 0) ∨ (pf.sizeof_ngx_pool_large_t ≤ pool.max ∧ 1 ≤ fuel)) →
      ∃ pool1 w1, largeRound pf fuel pool size w = .ok (pool1, w1)) := by
  have key : ∀ pool1 w1, largeRound pf fuel pool size w = .ok (pool1, w1) →
      (pool1.largeNodes = pool.largeNodes ∨ ∃ a, pool1.largeNodes = a :: pool.largeNodes) ∧
      pool1.max = pool.max ∧ pool1.large.length ≤ 5 ∧ (∃ l ∈ pool1.large, l.alloc = 0) ∧
      w1.oracle = w.oracle := by
    intro pool1 w1 hround
    by_cases hvac : ∃ l ∈ pool.large, l.alloc = 0
    · obtain ⟨p1, v1, hr, hnodes, _, hmax, hlen, hvac1, horacle⟩ :=
        largeRound_reuse pf fuel pool size w (by omega) hvac hsize (hraw _)
      rw [hr] at hround
      simp only [Except.ok.injEq, Prod.mk.injEq] at hround
      rw [← hround.1, ← hround.2]
      exact ⟨Or.inl hnodes, hmax, hlen, hvac1, horacle⟩
    · have hfull : ∀ l ∈ pool.large, l.alloc ≠ 0 := fun l hl h0 => hvac ⟨l, hl, h0⟩
      by_cases hnode : pf.sizeof_ngx_pool_large_t ≤ pool.max
      · cases fuel with
        | zero =>
          have hscan := largeScan_full (w.oracle w.calls) pool.large 0 (by omega)
            (fun l hl => hfull l (List.mem_of_mem_take hl))
          rw [largeRound, ngx_palloc_big pf _ pool size w hsize] at hround
          simp [ngx_palloc_large, nestedPalloc, ngx_alloc, hraw w.calls, hscan] at hround
        | succ k =>
          obtain ⟨p1, v1, a, hr, hnodes, hmax, hlen, hvac1, horacle⟩ :=
            largeRound_first_node pf halign k pool size w hv hfull hsize hnode hraw
          rw [hr] at hround
          simp only [Except.ok.injEq, Prod.mk.injEq] at hround
          rw [← hround.1, ← hround.2]
          exact ⟨Or.inr ⟨a, hnodes⟩, hmax, by omega, hvac1, horacle⟩
      · have hdiv := large_path_diverges_full pf pool (by omega)
          (fun l hl => hfull l (List.mem_of_mem_take hl)) fuel size w hraw
        rw [largeRound, ngx_palloc_big pf _ pool size w hsize, hdiv] at hround
        simp at hround
  constructor
  · intro pool1 w1 hround
    obtain ⟨hnodes, hmax, hlen, hvac1, horacle⟩ := key pool1 w1 hround
    exact ⟨hnodes, largeRounds_reuse pf fuel sizes pool1 w1 hlen hvac1
      (fun s hs => by rw [hmax]; exact hsizes s hs) (fun n => by rw [horacle]; exact hraw n)⟩
  · intro hcond
    rcases hcond with hvac | ⟨hnode, hfuel⟩
    · obtain ⟨p1, v1, hr, _⟩ :=
        largeRound_reuse pf fuel pool size w (by omega) hvac hsize (hraw _)
      exact ⟨p1, v1, hr⟩
    · by_cases hvac : ∃ l ∈ pool.large, l.alloc = 0
      · obtain ⟨p1, v1, hr, _⟩ :=
          largeRound_reuse pf fuel pool size w (by omega) hvac hsize (hraw _)
        exact ⟨p1, v1, hr⟩
      · have hfull : ∀ l ∈ pool.large, l.alloc ≠ 0 := fun l hl h0 => hvac ⟨l, hl, h0⟩
        obtain ⟨k, rfl⟩ : ∃ k, fuel = k + 1 := ⟨fuel - 1, by omega⟩
        obtain ⟨p1, v1, _, hr, _⟩ :=
          largeRound_first_node pf halign k pool size w hv hfull hsize hnode hraw
        exact ⟨p1, v1, hr⟩

/-- Witness of C11: the LP64 pool of 4096 bytes with an empty registry and rounds of 5000,
6000, 7000 and 8000 bytes: the first round links the node at `65616`, the others
reuse it. -/
theorem large_rounds_reuse_witness :
    pool4096.Valid ∧ pool4096.large.length ≤ 4 ∧ pool4096.max < 5000 ∧
    (∀ s ∈ [6000, 7000, 8000], pool4096.max < s) ∧
    (∀ n, (answeringWorldAfterCreate 4096).oracle n ≠ 0) ∧
    (∃ w1, largeRound lp64 1 pool4096 5000 (answeringWorldAfterCreate 4096) =
      .ok (pool4096Vacant, w1) ∧
      (pool4096Vacant.largeNodes = pool4096.largeNodes ∨
        ∃ a, pool4096Vacant.largeNodes = a :: pool4096.largeNodes) ∧
      ∃ poolN wN, largeRounds lp64 1 [6000, 7000, 8000] pool4096Vacant w1 = .ok (poolN, wN) ∧
        poolN.largeNodes = pool4096Vacant.largeNodes ∧ poolN.blocks = pool4096Vacant.blocks) ∧
    (lp64.sizeof_ngx_pool_large_t ≤ pool4096.max ∧ 1 ≤ 1) ∧
    ∃ pool1 w1, largeRound lp64 1 pool4096 5000 (answeringWorldAfterCreate 4096) =
      .ok (pool1, w1) :=
  have hv : pool4096.Valid := ⟨by decide, by decide⟩
  have hraw : ∀ n, (answeringWorldAfterCreate 4096).oracle n ≠ 0 :=
    fun n => by simp [answeringWorldAfterCreate]
  ⟨hv, by decide, by decide, by decide, hraw,
    ⟨_, rfl,
      (large_rounds_reuse lp64 (by decide) 1 pool4096 (answeringWorldAfterCreate 4096) 5000
        [6000, 7000, 8000] hv (by decide) (by decide) (by decide) hraw).1 _ _ rfl⟩,
    ⟨by decide, by decide⟩,
    (large_rounds_reuse lp64 (by decide) 1 pool4096 (answeringWorldAfterCreate 4096) 5000
      [6000, 7000, 8000] hv (by decide) (by decide) (by decide) hraw).2
      (Or.inr ⟨by decide, by decide⟩)⟩

end NgxPalloc
